import Mathlib

/-!
Undo/redo action system of the editor (`Engine/Source/Editor/ActionManager.cpp`).

Shallow embedding of `ActionManager` and of its `Action` subclasses.

* Pointers (`Action*`, `Node*`) are natural numbers; a nullable pointer is an `Option`.
* `OCT_ASSERT(c)` with `c` false aborts the call: functions containing assertions return
  `Option`, and `none` is an assertion violation.
* Part 1 models the two stacks of the manager. The bodies of the virtual calls
  `action->Execute()` / `action->Reverse()` and of `delete action` do not touch the stacks,
  so they are recorded as events of a trace.
* Part 2 models the scene tree and the concrete actions that work on it.
* Part 3 models the property edits, Part 4 the manager with the action objects in its
  stacks, run on the scene tree.
* Part 5 models the near and far plane accessors of the camera component
  (`Engine/Source/Engine/Nodes/3D/CameraComponent.cpp`).
-/

namespace Octave

/-! ## Part 1: the history and future stacks -/

/-- An `Action*`: the identity of an action object. -/
abbrev Action := Nat

/-- Observable things the manager does with an action object. -/
inductive Event where
  /-- Call `action->Execute()`. -/
  | execute (a : Action)
  /-- Call `action->Reverse()`. -/
  | reverse (a : Action)
  /-- Statement `delete action`. -/
  | delete (a : Action)
  /-- Call `Node::Destruct(node)` on the node with identity `n`. -/
  | destruct (n : Nat)
  /-- Call `GetEditorState()->ClearInspectHistory()`. -/
  | clearInspectHistory
  /-- Call `action->GetNodes()`: a read of the action object. -/
  | getNodes (a : Action)
  deriving DecidableEq, Repr

/-- State read and written by `ExecuteAction`, `Undo`, `Redo`: the two stacks
(`std::vector<Action*>`, most recent last), the two global flags that the functions read,
and the trace of events so far. -/
structure ManagerState where
  /-- Member `mActionHistory` -/
  mActionHistory : List Action
  /-- Member `mActionFuture` -/
  mActionFuture : List Action
  /-- value returned by `IsPlayingInEditor()` -/
  playingInEditor : Bool
  /-- value of `ImGui::GetIO().WantTextInput` -/
  wantTextInput : Bool
  /-- events so far, oldest first -/
  trace : List Event
  deriving DecidableEq, Repr

/-- State of a freshly constructed manager: both stacks empty. -/
def ManagerState.empty : ManagerState :=
  { mActionHistory := [], mActionFuture := [], playingInEditor := false,
    wantTextInput := false, trace := [] }

/-- Constant `const uint32_t MaxActionHistoryCount = 100;` -/
def MaxActionHistoryCount : Nat := 100

/-- Method `ActionManager::ClearActionFuture`: deletes every action of the future stack, in index
order, then clears the vector. -/
def ClearActionFuture (s : ManagerState) : ManagerState :=
  { s with trace := s.trace ++ s.mActionFuture.map Event.delete, mActionFuture := [] }

/-- Method `ActionManager::ClearActionHistory`: deletes every action of the history stack, in index
order, then clears the vector. -/
def ClearActionHistory (s : ManagerState) : ManagerState :=
  { s with trace := s.trace ++ s.mActionHistory.map Event.delete, mActionHistory := [] }

/-- Method `ActionManager::ExecuteAction`. The two `OCT_ASSERT`s come first; then the action is
executed; while playing in editor it is deleted, otherwise the oldest entry is erased when the
history already holds `MaxActionHistoryCount` entries, the action is pushed and the future is
cleared. -/
def ExecuteAction (s : ManagerState) (action : Action) : Option ManagerState :=
  if action ∈ s.mActionHistory then none
  else if action ∈ s.mActionFuture then none
  else
    let s1 := { s with trace := s.trace ++ [Event.execute action] }
    if s1.playingInEditor then
      some { s1 with trace := s1.trace ++ [Event.delete action] }
    else
      let s2 :=
        if s1.mActionHistory.length ≥ MaxActionHistoryCount then
          { s1 with mActionHistory := s1.mActionHistory.eraseIdx 0 }
        else s1
      some (ClearActionFuture { s2 with mActionHistory := s2.mActionHistory ++ [action] })

/-- Method `ActionManager::Undo`. -/
def Undo (s : ManagerState) : ManagerState :=
  if s.mActionHistory.length > 0 && !s.wantTextInput then
    match s.mActionHistory.getLast? with
    | some action =>
      { s with mActionHistory := s.mActionHistory.dropLast,
               trace := s.trace ++ [Event.reverse action],
               mActionFuture := s.mActionFuture ++ [action] }
    | none => s
  else s

/-- Method `ActionManager::Redo`. -/
def Redo (s : ManagerState) : ManagerState :=
  if s.mActionFuture.length > 0 && !s.wantTextInput then
    match s.mActionFuture.getLast? with
    | some action =>
      { s with mActionFuture := s.mActionFuture.dropLast,
               trace := s.trace ++ [Event.execute action],
               mActionHistory := s.mActionHistory ++ [action] }
    | none => s
  else s

/-- A run of `ExecuteAction` calls, one per action of the list, in order. -/
def executeActions : ManagerState → List Action → Option ManagerState
  | s, [] => some s
  | s, a :: as => (ExecuteAction s a).bind (fun s1 => executeActions s1 as)

/-- One call made by the editor on the manager, or a change of one of the two flags. -/
inductive Cmd where
  | executeAction (a : Action)
  | undo
  | redo
  | setPlayingInEditor (b : Bool)
  | setWantTextInput (b : Bool)
  deriving DecidableEq, Repr

/-- Effect of one command. -/
def step (s : ManagerState) : Cmd → Option ManagerState
  | .executeAction a => ExecuteAction s a
  | .undo => some (Undo s)
  | .redo => some (Redo s)
  | .setPlayingInEditor b => some { s with playingInEditor := b }
  | .setWantTextInput b => some { s with wantTextInput := b }

/-- Effect of a sequence of commands; `none` when an assertion of `ExecuteAction` fails. -/
def run : ManagerState → List Cmd → Option ManagerState
  | s, [] => some s
  | s, c :: cs => (step s c).bind (fun s1 => run s1 cs)

/-- What each of the four overloads of `ActionManager::EXE_SpawnNode`, and
`ActionManager::EXE_SpawnNodes`, do with the action object: `action` is the object that
`new ActionSpawnNodes(...)` has returned; it is passed to `ExecuteAction`, and after that call
has returned `action->GetNodes()` is read through the same pointer. -/
def EXE_SpawnNode (s : ManagerState) (action : Action) : Option ManagerState :=
  (ExecuteAction s action).map
    (fun s1 => { s1 with trace := s1.trace ++ [Event.getNodes action] })

/-- The last `k` entries of a list, in order. -/
def lastN (k : Nat) (l : List Action) : List Action := l.drop (l.length - k)

/-- Trace left by a run of `ExecuteAction` calls while playing in editor: every action is
executed and then deleted, in call order. -/
def playTrace : List Action → List Event
  | [] => []
  | a :: as => Event.execute a :: Event.delete a :: playTrace as

/-- Value of `(int32_t)x` for an unsigned size `x`. -/
def toInt32 (x : Nat) : Int :=
  if x % 2 ^ 32 < 2 ^ 31 then ((x % 2 ^ 32 : Nat) : Int) else ((x % 2 ^ 32 : Nat) : Int) - 2 ^ 32

/-- Loop of `ActionManager::ResetUndoRedo` over the exile list, from high to low index: the
first argument is the loop variable `i` plus one. Each pass destructs `mExiledNodes[i]` and
erases the entry at index `i`. -/
def destructExiledLoop : Nat → List Nat → List Event → List Nat × List Event
  | 0, ex, tr => (ex, tr)
  | i + 1, ex, tr =>
    match ex[i]? with
    | some n => destructExiledLoop i (ex.eraseIdx i) (tr ++ [Event.destruct n])
    | none => (ex, tr)

/-- Method `ActionManager::ResetUndoRedo`, on the stacks and the exile list `mExiledNodes`:
both stacks are cleared, the exiled nodes are destructed from the last index (computed in
`int32_t`) down to index 0, then the inspect history is cleared. Returns the new state of
the stacks and the new exile list. -/
def ResetUndoRedo (s : ManagerState) (mExiledNodes : List Nat) : ManagerState × List Nat :=
  let s2 := ClearActionFuture (ClearActionHistory s)
  let i0 : Int := toInt32 mExiledNodes.length - 1
  let r :=
    if i0 ≥ 0 then destructExiledLoop (i0.toNat + 1) mExiledNodes s2.trace
    else (mExiledNodes, s2.trace)
  ({ s2 with trace := r.2 ++ [Event.clearInspectHistory] }, r.1)

/-- Events that `ResetUndoRedo` adds for the given history, future and exile list. -/
def resetEvents (history future : List Action) (exiled : List Nat) : List Event :=
  history.map Event.delete ++ future.map Event.delete ++
    exiled.reverse.map Event.destruct ++ [Event.clearInspectHistory]

/-- One call on the manager as the editor can make it: one of the commands above, or
`ResetUndoRedo` with the exile list the manager holds at that time. -/
inductive Call where
  | cmd (c : Cmd)
  | resetUndoRedo (mExiledNodes : List Nat)
  deriving DecidableEq, Repr

/-- Effect of one call on the stacks. -/
def stepCall (s : ManagerState) : Call → Option ManagerState
  | .cmd c => step s c
  | .resetUndoRedo mExiledNodes => some (ResetUndoRedo s mExiledNodes).1

/-- Effect of a sequence of calls; `none` when an assertion of `ExecuteAction` fails. -/
def runCalls : ManagerState → List Call → Option ManagerState
  | s, [] => some s
  | s, c :: cs => (stepCall s c).bind (fun s1 => runCalls s1 cs)

/-- Example calls: 101 actions are executed, two are undone, one is redone, text input
takes the focus and an undo is ignored, an action is executed while playing in editor, and
after play has ended one more action is executed. -/
def exampleCalls : List Call :=
  (List.range 101).map (fun a => Call.cmd (Cmd.executeAction a)) ++
    [Call.cmd Cmd.undo, Call.cmd Cmd.undo, Call.cmd Cmd.redo,
     Call.cmd (Cmd.setWantTextInput true), Call.cmd Cmd.undo,
     Call.cmd (Cmd.setWantTextInput false),
     Call.cmd (Cmd.setPlayingInEditor true), Call.cmd (Cmd.executeAction 200),
     Call.cmd Cmd.redo,
     Call.cmd (Cmd.setPlayingInEditor false), Call.cmd (Cmd.executeAction 201)]

/-! ## Part 2: the scene tree, the exile list and the actions that work on them

`Node.cpp`, `World.cpp`, `EditorState.cpp` and `EditorUtils.cpp` are not among the sources at
hand; the node, world and editor-state operations that the actions call are modelled from
their description in the specification (section 6, "Node Graph interface consumed"). -/

/-- A `Node*`: the identity of a node object. -/
abbrev Node := Nat

/-- A `Scene*`: the identity of a scene asset. -/
abbrev Scene := Nat

/-- The node graph and the world that holds its root. One entry per node field that the
actions read or write. -/
structure World where
  /-- every node object that is alive (constructed and not destructed) -/
  nodes : List Node
  /-- Member `World::mRootNode` -/
  mRootNode : Option Node
  /-- Member `Node::mParent` -/
  mParent : Node → Option Node
  /-- Member `Node::mChildren` -/
  mChildren : Node → List Node
  /-- Member `Node3D::mParentBoneIndex`, `-1` when the node is not attached to a bone -/
  mParentBoneIndex : Node → Int
  /-- whether `node->As<Node3D>()` is non-null -/
  isNode3D : Node → Bool
  /-- whether `node->As<SkeletalMesh3D>()` is non-null -/
  isSkeletalMesh3D : Node → Bool
  /-- Value of `Node::GetScene()` -/
  mScene : Node → Option Scene
  /-- Value of `Node::IsSceneLinked()` -/
  mSceneLinked : Node → Bool
  /-- Value of `Node::IsPendingDestroy()` -/
  mPendingDestroy : Node → Bool

/-- The part of `EditorState` that `ExileNode` touches. -/
structure EditorState where
  /-- Value of `GetSelectedNodes()` -/
  mSelectedNodes : List Node
  /-- Value of `GetInspectedObject()` -/
  mInspectedObject : Option Node
  deriving DecidableEq, Repr

/-- Everything the concrete actions read and write: the world, the editor state, the
manager's list of exiled nodes and the play-in-editor flag. -/
structure Engine where
  world : World
  editor : EditorState
  /-- Member `ActionManager::mExiledNodes` -/
  mExiledNodes : List Node
  /-- value returned by `IsPlayingInEditor()` -/
  playingInEditor : Bool

/-- Pointwise update of a per-node field. -/
def setField {α : Type} (f : Node → α) (n : Node) (v : α) : Node → α :=
  fun m => if m = n then v else f m

/-- Modelled from the spec: `Node::GetParent` (Node.cpp is missing), "GetParent(node) ->
Node|null". -/
def GetParent (w : World) (n : Node) : Option Node := w.mParent n

/-- Modelled from the spec: `Node::FindChildIndex` (Node.cpp is missing), "FindChildIndex(parent,
node) -> index": the position of the node among the parent's children, `-1` when absent. -/
def FindChildIndex (w : World) (parent child : Node) : Int :=
  if (w.mChildren parent).indexOf child < (w.mChildren parent).length then
    ((w.mChildren parent).indexOf child : Int)
  else -1

/-- Children vector after inserting `n` at child index `index`; an index outside
`0 .. size` (such as the default `-1`) appends. -/
def insertChild (l : List Node) (n : Node) (index : Int) : List Node :=
  if 0 ≤ index ∧ index ≤ (l.length : Int) then l.take index.toNat ++ n :: l.drop index.toNat
  else l ++ [n]

/-- Modelled from the spec: `Node::Detach` (Node.cpp is missing), "Detach(node,
keepWorldTransform)": the node leaves its parent's children and has no parent afterwards; a
node without parent is left alone. The world transform is not modelled. -/
def Detach (w : World) (n : Node) : World :=
  match w.mParent n with
  | none => w
  | some p =>
    { w with mChildren := setField w.mChildren p ((w.mChildren p).erase n),
             mParent := setField w.mParent n none,
             mParentBoneIndex := setField w.mParentBoneIndex n (-1) }

/-- Modelled from the spec: `Node::Attach` (Node.cpp is missing), "Attach(node, parent,
useChildIndex, childIndex)": the node is first detached from its current parent; with a
non-null new parent it is inserted among that parent's children at the child index and gets
that parent; the attachment is not a bone attachment. -/
def Attach (w : World) (n : Node) (parent : Option Node) (index : Int) : World :=
  let w1 := Detach w n
  match parent with
  | none => w1
  | some p =>
    { w1 with mChildren := setField w1.mChildren p (insertChild (w1.mChildren p) n index),
              mParent := setField w1.mParent n (some p),
              mParentBoneIndex := setField w1.mParentBoneIndex n (-1) }

/-- Modelled from the spec: `Node::AddChild` (Node.cpp is missing): `parent->AddChild(child,
index)` attaches the child to the parent at the child index. -/
def AddChild (w : World) (parent child : Node) (index : Int) : World :=
  Attach w child (some parent) index

/-- Modelled from the spec: `Node3D::AttachToBone` (Node3d.cpp is missing), "AttachToBone(node,
skeletalParent, boneIndex, keepWorldTransform, childIndex)": an attachment that also records
the bone index. -/
def AttachToBone (w : World) (n skParent : Node) (boneIndex childIndex : Int) : World :=
  let w1 := Attach w n (some skParent) childIndex
  { w1 with mParentBoneIndex := setField w1.mParentBoneIndex n boneIndex }

/-- Modelled from the spec: `World::SetRootNode` (World.cpp is missing), "SetRootNode(node)". -/
def SetRootNode (w : World) (n : Option Node) : World := { w with mRootNode := n }

/-- Modelled from the spec: `Node::SetPendingDestroy` (Node.cpp is missing): the node is
"flagged for end-of-frame removal" and stays attached. -/
def SetPendingDestroy (w : World) (n : Node) (b : Bool) : World :=
  { w with mPendingDestroy := setField w.mPendingDestroy n b }

/-- The parent, the parent's parent and so on, at most `fuel` of them. -/
def parentChain (w : World) : Nat → Node → List Node
  | 0, _ => []
  | fuel + 1, n =>
    match w.mParent n with
    | none => []
    | some p => p :: parentChain w fuel p

/-- The proper ancestors of a node, nearest first. In a tree a chain of parents is never
longer than the number of live nodes. -/
def ancestors (w : World) (n : Node) : List Node := parentChain w w.nodes.length n

/-- Modelled from the spec: `Node::GetWorld() != nullptr` (Node.cpp is missing): a node is in
the world when it is "reachable from" the root "in the live tree", that is when it is the root
node or the root node is one of its ancestors. -/
def GetWorld (w : World) (n : Node) : Bool :=
  match w.mRootNode with
  | none => false
  | some r => decide (r = n) || decide (r ∈ ancestors w n)

/-- Modelled from the spec: `RemoveRedundantDescendants` (EditorUtils.cpp is missing): "given
an input list of nodes, removes any node that is a descendant of another node already in the
list". -/
def RemoveRedundantDescendants (w : World) (nodes : List Node) : List Node :=
  nodes.filter (fun n => !(ancestors w n).any (fun a => decide (a ∈ nodes)))

/-- Method `ActionManager::ExileNode`. The editor-state calls are modelled from the spec ("clears
the node from selected and inspected editor state if it was referenced there"):
`SetSelectedNode(nullptr)` empties the selection, `InspectObject(nullptr, true)` clears the
inspected object. -/
def ExileNode (e : Engine) (node : Node) : Option Engine :=
  if node ∈ e.mExiledNodes then none
  else if GetParent e.world node ≠ none then none
  else
    let e1 := { e with mExiledNodes := e.mExiledNodes ++ [node] }
    let e2 :=
      if node ∈ e1.editor.mSelectedNodes then
        { e1 with editor := { e1.editor with mSelectedNodes := [] } }
      else e1
    let e3 :=
      if e2.editor.mInspectedObject = some node then
        { e2 with editor := { e2.editor with mInspectedObject := none } }
      else e2
    some e3

/-- Method `ActionManager::RestoreExiledNode`: erases the first entry equal to the node; the final
`OCT_ASSERT(restored)` fails when there is none. -/
def RestoreExiledNode (e : Engine) (node : Node) : Option Engine :=
  if node ∈ e.mExiledNodes then some { e with mExiledNodes := e.mExiledNodes.erase node }
  else none

/-- Fields of `ActionDeleteNodes`. -/
structure ActionDeleteNodes where
  mNodes : List Node
  mParents : List (Option Node)
  mChildIndices : List Int
  mBoneIndices : List Int
  deriving DecidableEq, Repr

/-- Loop of the `ActionDeleteNodes` constructor over `mNodes[i]`, pushing one entry on each of
`mParents`, `mChildIndices`, `mBoneIndices` per node; `size` is `mNodes.size()`. -/
def ActionDeleteNodes.recordLoop (w : World) (size : Nat) :
    List Node → ActionDeleteNodes → Option ActionDeleteNodes
  | [], a => some a
  | n :: ns, a =>
    match GetParent w n with
    | some parent =>
      let childIdx := FindChildIndex w parent n
      if childIdx = -1 then none
      else
        let bone := if w.isNode3D n then w.mParentBoneIndex n else -1
        ActionDeleteNodes.recordLoop w size ns
          { a with mParents := a.mParents ++ [some parent],
                   mChildIndices := a.mChildIndices ++ [childIdx],
                   mBoneIndices := a.mBoneIndices ++ [bone] }
    | none =>
      if size ≠ 1 then none
      else
        ActionDeleteNodes.recordLoop w size ns
          { a with mParents := a.mParents ++ [none],
                   mChildIndices := a.mChildIndices ++ [-1],
                   mBoneIndices := a.mBoneIndices ++ [-1] }

/-- Constructor `ActionDeleteNodes::ActionDeleteNodes(const std::vector<Node*>& nodes)`. -/
def ActionDeleteNodes.new (w : World) (nodes : List Node) : Option ActionDeleteNodes :=
  let mNodes := RemoveRedundantDescendants w nodes
  ActionDeleteNodes.recordLoop w mNodes.length mNodes
    { mNodes := mNodes, mParents := [], mChildIndices := [], mBoneIndices := [] }

/-- Loop of `ActionDeleteNodes::Execute` over `mNodes[i]` and `mParents[i]`; `size` is
`mNodes.size()`. `mParents[i]` is only read outside play-in-editor; reading it past the end
of the vector is an error. -/
def ActionDeleteNodes.executeLoop (size : Nat) :
    List Node → List (Option Node) → Engine → Option Engine
  | [], _, e => some e
  | n :: ns, ps, e =>
    if !GetWorld e.world n then none
    else if e.playingInEditor then
      ActionDeleteNodes.executeLoop size ns ps.tail
        { e with world := SetPendingDestroy e.world n true }
    else
      match ps with
      | [] => none
      | some _ :: ps1 =>
        (ExileNode { e with world := Detach e.world n } n).bind
          (fun e1 => ActionDeleteNodes.executeLoop size ns ps1 e1)
      | none :: ps1 =>
        if size ≠ 1 then none
        else if e.world.mRootNode ≠ some n then none
        else
          (ExileNode { e with world := SetRootNode e.world none } n).bind
            (fun e1 => ActionDeleteNodes.executeLoop size ns ps1 e1)

/-- Method `ActionDeleteNodes::Execute`. -/
def ActionDeleteNodes.Execute (a : ActionDeleteNodes) (e : Engine) : Option Engine :=
  ActionDeleteNodes.executeLoop a.mNodes.length a.mNodes a.mParents e

/-- Loop of `ActionDeleteNodes::Reverse` over `mNodes[i]`, `mParents[i]`, `mChildIndices[i]`
and `mBoneIndices[i]`, in increasing `i`; `size` is `mNodes.size()`. -/
def ActionDeleteNodes.reverseLoop (size : Nat) :
    List Node → List (Option Node) → List Int → List Int → Engine → Option Engine
  | [], _, _, _, e => some e
  | n :: ns, some parent :: ps, ci :: cis, bi :: bis, e =>
    (RestoreExiledNode e n).bind (fun e1 =>
      let w1 :=
        if bi ≥ 0 && e1.world.isSkeletalMesh3D parent && e1.world.isNode3D n then
          AttachToBone e1.world n parent bi ci
        else
          AddChild e1.world parent n ci
      ActionDeleteNodes.reverseLoop size ns ps cis bis { e1 with world := w1 })
  | n :: ns, none :: ps, _ :: cis, _ :: bis, e =>
    (RestoreExiledNode e n).bind (fun e1 =>
      if size ≠ 1 then none
      else if e1.world.mRootNode ≠ none then none
      else
        ActionDeleteNodes.reverseLoop size ns ps cis bis
          { e1 with world := SetRootNode e1.world (some n) })
  | _ :: _, _, _, _, _ => none

/-- Method `ActionDeleteNodes::Reverse`. -/
def ActionDeleteNodes.Reverse (a : ActionDeleteNodes) (e : Engine) : Option Engine :=
  ActionDeleteNodes.reverseLoop a.mNodes.length a.mNodes a.mParents a.mChildIndices
    a.mBoneIndices e

/-- A `TypeId`. -/
abbrev TypeId := Nat

/-- Fields of `ActionSpawnNodes`: the four kinds of source data, the spawned nodes and what
`Reverse` records about them. -/
structure ActionSpawnNodes where
  mSrcTypes : List TypeId
  mSrcTypeNames : List String
  mSrcScenes : List (Option Scene)
  mSrcNodes : List Node
  mNodes : List Node
  mParents : List (Option Node)
  mParentLinkedScenes : List (Option Scene)
  deriving DecidableEq, Repr

/-- What the first `ActionSpawnNodes::Reverse` records for `mNodes[i]`: the scene of the
parent when there is a parent and it is scene-linked, null otherwise. -/
def parentLinkedScene (w : World) (n : Node) : Option Scene :=
  match GetParent w n with
  | some parent => if w.mSceneLinked parent then w.mScene parent else none
  | none => none

/-- Second loop of `ActionSpawnNodes::Reverse` over `mNodes[i]` and `mParents[i]`; `size` is
`mNodes.size()`. Reading `mParents[i]` past the end of the vector is an error. -/
def ActionSpawnNodes.reverseLoop (size : Nat) :
    List Node → List (Option Node) → Engine → Option Engine
  | [], _, e => some e
  | _ :: _, [], _ => none
  | n :: ns, some _ :: ps, e =>
    (ExileNode { e with world := Detach e.world n } n).bind
      (fun e1 => ActionSpawnNodes.reverseLoop size ns ps e1)
  | n :: ns, none :: ps, e =>
    if size ≠ 1 then none
    else if e.world.mRootNode ≠ some n then none
    else
      (ExileNode { e with world := SetRootNode e.world none } n).bind
        (fun e1 => ActionSpawnNodes.reverseLoop size ns ps e1)

/-- Method `ActionSpawnNodes::Reverse`: on the first call (no parents recorded yet) the parent and
the parent's linked scene of every node are recorded; then every node is detached (or the
root unset) and exiled. Returns the action with its updated fields and the new state. -/
def ActionSpawnNodes.Reverse (a : ActionSpawnNodes) (e : Engine) :
    Option (ActionSpawnNodes × Engine) :=
  let recorded : Option ActionSpawnNodes :=
    if a.mParents.length = 0 then
      if a.mParentLinkedScenes.length ≠ 0 then none
      else
        some { a with mParents := a.mNodes.map (GetParent e.world),
                      mParentLinkedScenes := a.mNodes.map (parentLinkedScene e.world) }
    else some a
  recorded.bind (fun a1 =>
    (ActionSpawnNodes.reverseLoop a1.mNodes.length a1.mNodes a1.mParents e).map
      (fun e1 => (a1, e1)))

/-- A `Node3D*`. -/
abbrev Node3D := Nat

/-- Fields of `ActionEditTransforms`; `M` stands for `glm::mat4`, whose values the action
only copies. -/
structure ActionEditTransforms (M : Type) where
  mNodes : List Node3D
  mNewTransforms : List M
  mPrevTransforms : List M

/-- The two functions of `Node3D` that `ActionEditTransforms` calls. `Node3d.cpp` is not
among the sources at hand and the specification does not describe the two functions, so they
are parameters of the action: `S` is the state in which the transforms of the nodes live,
whatever it is, and `M` stands for `glm::mat4`. -/
structure TransformOps (S M : Type) where
  /-- Call `node->GetTransform()` in a state -/
  GetTransform : S → Node3D → M
  /-- Call `node->SetTransform(m)`: the state afterwards -/
  SetTransform : S → Node3D → M → S

/-- Constructor `ActionEditTransforms::ActionEditTransforms`, with its assertion that the two
vectors have the same size. -/
def ActionEditTransforms.new {M : Type} (nodes : List Node3D) (newTransforms : List M) :
    Option (ActionEditTransforms M) :=
  if nodes.length = newTransforms.length then
    some { mNodes := nodes, mNewTransforms := newTransforms, mPrevTransforms := [] }
  else none

/-- Loop of `ActionEditTransforms::Execute` over `mNodes[i]` and `mNewTransforms[i]`: each
pass pushes `mNodes[i]->GetTransform()` on `mPrevTransforms` and then calls
`mNodes[i]->SetTransform(mNewTransforms[i])`. Returns the transforms pushed and the new
state. Reading `mNewTransforms[i]` past the end of the vector is an error. -/
def ActionEditTransforms.executeLoop {S M : Type} (ops : TransformOps S M) :
    List Node3D → List M → List M → S → Option (List M × S)
  | [], _, prev, s => some (prev, s)
  | _ :: _, [], _, _ => none
  | n :: ns, m :: ms, prev, s =>
    ActionEditTransforms.executeLoop ops ns ms (prev ++ [ops.GetTransform s n])
      (ops.SetTransform s n m)

/-- Method `ActionEditTransforms::Execute`: clears `mPrevTransforms`, then records the transform of
each node and applies the new one. -/
def ActionEditTransforms.Execute {S M : Type} (ops : TransformOps S M)
    (a : ActionEditTransforms M) (s : S) : Option (ActionEditTransforms M × S) :=
  (ActionEditTransforms.executeLoop ops a.mNodes a.mNewTransforms [] s).map
    (fun r => ({ a with mPrevTransforms := r.1 }, r.2))

/-- Loop of `ActionEditTransforms::Reverse` over `mNodes[i]` and `mPrevTransforms[i]`, in
increasing `i`: each pass calls `mNodes[i]->SetTransform(mPrevTransforms[i])`. -/
def ActionEditTransforms.reverseLoop {S M : Type} (ops : TransformOps S M) :
    List Node3D → List M → S → Option S
  | [], _, s => some s
  | _ :: _, [], _ => none
  | n :: ns, m :: ms, s => ActionEditTransforms.reverseLoop ops ns ms (ops.SetTransform s n m)

/-- Method `ActionEditTransforms::Reverse`, with its assertion that `mPrevTransforms` and `mNodes`
have the same size. -/
def ActionEditTransforms.Reverse {S M : Type} (ops : TransformOps S M)
    (a : ActionEditTransforms M) (s : S) : Option S :=
  if a.mPrevTransforms.length = a.mNodes.length then
    ActionEditTransforms.reverseLoop ops a.mNodes a.mPrevTransforms s
  else none

/-- Example world: root `0` with one child `1`; node `1` has the children `2`, `3`, `4` in
that order. No node is attached to a bone. -/
def exampleWorld : World :=
  { nodes := [0, 1, 2, 3, 4], mRootNode := some 0,
    mParent := fun n =>
      if n = 1 then some 0 else if n = 2 ∨ n = 3 ∨ n = 4 then some 1 else none,
    mChildren := fun n => if n = 0 then [1] else if n = 1 then [2, 3, 4] else [],
    mParentBoneIndex := fun _ => -1, isNode3D := fun _ => true,
    isSkeletalMesh3D := fun _ => false, mScene := fun _ => none,
    mSceneLinked := fun _ => false, mPendingDestroy := fun _ => false }

/-- Example state: the example world, nothing selected, inspected or exiled, not playing in
editor. -/
def exampleEngine : Engine :=
  { world := exampleWorld, editor := ⟨[], none⟩, mExiledNodes := [], playingInEditor := false }

/-- State after constructing `ActionDeleteNodes(nodes)` in state `e` and running `Execute`
and then `Reverse`. -/
def deleteThenUndo (e : Engine) (nodes : List Node) : Option Engine :=
  (ActionDeleteNodes.new e.world nodes).bind (fun a => (a.Execute e).bind a.Reverse)

/-- Example action: an executed `ActionSpawnNodes` of two type ids whose spawned nodes are the
nodes `3` and `4` of the example world; it has not been reversed yet. -/
def exampleSpawn : ActionSpawnNodes :=
  { mSrcTypes := [11, 12], mSrcTypeNames := [], mSrcScenes := [], mSrcNodes := [],
    mNodes := [3, 4], mParents := [], mParentLinkedScenes := [] }

/-! ## Part 3: property edits

`Property.h`, `Datum.cpp` and the `GatherProperties` functions are not among the sources at
hand; the property operations that `ActionEditProperty` calls are modelled from their
description in the specification (section 6, "Property Store interface consumed"). The type
`V` stands for the value a property holds at one index. -/

/-- The owner kinds `PropertyOwnerType::Node`, `Asset` and `Global`. -/
inductive PropertyOwnerType where
  | Node
  | Asset
  | Global
  deriving DecidableEq, Repr

/-- A property as the action sees it: its name, the values it holds (the count is their
number), whether it is a vector, whether it is external, and the value a slot holds right
after `SetCount` has created it. -/
structure Property (V : Type) where
  mName : String
  mValues : List V
  mIsVector : Bool
  mExternal : Bool
  mNewSlot : V
  deriving DecidableEq

/-- Modelled from the spec: `Property::GetCount()` (Datum.cpp is missing), a `uint32_t`. -/
def Property.GetCount {V : Type} (p : Property V) : Nat := p.mValues.length

/-- Modelled from the spec: `Property::SetCount(n)` (Datum.cpp is missing): the property holds
`n` values afterwards; the first values are kept and new slots hold the new-slot value. -/
def Property.SetCount {V : Type} (p : Property V) (n : Nat) : Property V :=
  { p with mValues := (p.mValues ++ List.replicate (n - p.mValues.length) p.mNewSlot).take n }

/-- Modelled from the spec: `Property::GetValue(index)` (Datum.cpp is missing): the value at
the index, nothing when the index is not below the count. -/
def Property.GetValue {V : Type} (p : Property V) (index : Nat) : Option V := p.mValues[index]?

/-- Modelled from the spec: `Property::SetValue(value, index, 1)` (Datum.cpp is missing): the
value at the index is replaced, the count and the other values stay. -/
def Property.SetValue {V : Type} (p : Property V) (v : V) (index : Nat) : Property V :=
  { p with mValues := p.mValues.set index v }

/-- Modelled from the spec: `Property::IsVector()` (Datum.cpp is missing). -/
def Property.IsVector {V : Type} (p : Property V) : Bool := p.mIsVector

/-- Modelled from the spec: `Property::IsExternal()` (Datum.cpp is missing). -/
def Property.IsExternal {V : Type} (p : Property V) : Bool := p.mExternal

/-- The properties that exist: those of every node, those of every asset, and the global
ones. -/
structure PropertyStore (V : Type) where
  /-- Result of `node->GatherProperties(props)` -/
  nodeProps : Nat → List (Property V)
  /-- Result of `asset->GatherProperties(props)` -/
  assetProps : Nat → List (Property V)
  /-- Result of `GatherGlobalProperties(props)` -/
  globalProps : List (Property V)

/-- Fields of `ActionEditProperty`. The `Datum mPreviousValue` is empty until `Execute` has
recorded a value. -/
structure ActionEditProperty (V : Type) where
  mOwner : Nat
  mOwnerType : PropertyOwnerType
  mPropertyName : String
  mIndex : Nat
  mValue : V
  mPreviousValue : Option V
  mReferencedAsset : Option Nat

/-- Constructor `ActionEditProperty::ActionEditProperty`: an asset owner is also kept as the
referenced asset. -/
def ActionEditProperty.new {V : Type} (owner : Nat) (ownerType : PropertyOwnerType)
    (propName : String) (index : Nat) (value : V) : ActionEditProperty V :=
  { mOwner := owner, mOwnerType := ownerType, mPropertyName := propName, mIndex := index,
    mValue := value, mPreviousValue := none,
    mReferencedAsset := if ownerType = PropertyOwnerType.Asset then some owner else none }

/-- Method `ActionEditProperty::GatherProps`: the properties of the owner, by owner kind; for
an asset owner nothing is gathered when the referenced asset is null. -/
def ActionEditProperty.GatherProps {V : Type} (a : ActionEditProperty V)
    (st : PropertyStore V) : List (Property V) :=
  match a.mOwnerType with
  | PropertyOwnerType.Node => st.nodeProps a.mOwner
  | PropertyOwnerType.Asset =>
    match a.mReferencedAsset with
    | some asset => st.assetProps asset
    | none => []
  | PropertyOwnerType.Global => st.globalProps

/-- Method `ActionEditProperty::FindProp`: the first gathered property with the name. -/
def FindProp {V : Type} (props : List (Property V)) (name : String) : Option (Property V) :=
  props.find? (fun p => p.mName == name)

/-- The gathered properties after the property that `FindProp` returns for the name has been
changed into `q`. -/
def replaceProp {V : Type} (props : List (Property V)) (name : String) (q : Property V) :
    List (Property V) :=
  match props with
  | [] => []
  | p :: ps => if p.mName == name then q :: ps else p :: replaceProp ps name q

/-- The store after the action has changed, through the pointer returned by `FindProp`, the
property it found into `q`: the change lands where `GatherProps` gathered from. -/
def ActionEditProperty.commit {V : Type} (a : ActionEditProperty V) (st : PropertyStore V)
    (q : Property V) : PropertyStore V :=
  match a.mOwnerType with
  | PropertyOwnerType.Node =>
    { st with nodeProps := fun o =>
        if o = a.mOwner then replaceProp (st.nodeProps o) a.mPropertyName q
        else st.nodeProps o }
  | PropertyOwnerType.Asset =>
    match a.mReferencedAsset with
    | some asset =>
      { st with assetProps := fun o =>
          if o = asset then replaceProp (st.assetProps o) a.mPropertyName q
          else st.assetProps o }
    | none => st
  | PropertyOwnerType.Global =>
    { st with globalProps := replaceProp st.globalProps a.mPropertyName q }

/-- Body of `ActionEditProperty::Execute` once `FindProp` has returned the property `prop`.
When the property is a vector, not external, and the index is not below the count, the index
becomes the count and the count grows by one (in `uint32_t` arithmetic). Then, when the index
is below the count, the value at the index is recorded as previous value and replaced by the
new value. Returns the action with its updated fields and the changed property. -/
def ActionEditProperty.executeOn {V : Type} (a : ActionEditProperty V) (prop : Property V) :
    ActionEditProperty V × Property V :=
  let grow : Bool := prop.IsVector && !prop.IsExternal && decide (a.mIndex ≥ prop.GetCount)
  let a1 := if grow then { a with mIndex := prop.GetCount } else a
  let prop1 := if grow then prop.SetCount ((prop.GetCount + 1) % 2 ^ 32) else prop
  if a1.mIndex < prop1.GetCount then
    ({ a1 with mPreviousValue := prop1.GetValue a1.mIndex }, prop1.SetValue a1.mValue a1.mIndex)
  else (a1, prop1)

/-- Method `ActionEditProperty::Execute`: gathers the owner's properties, looks the property
up by name and, when it is found, runs the body on it. Returns the action with its updated
fields and the new store. -/
def ActionEditProperty.Execute {V : Type} (a : ActionEditProperty V) (st : PropertyStore V) :
    ActionEditProperty V × PropertyStore V :=
  match FindProp (a.GatherProps st) a.mPropertyName with
  | none => (a, st)
  | some prop => ((a.executeOn prop).1, a.commit st (a.executeOn prop).2)

/-- Method `ActionEditProperty::Reverse`: when the count is above the index, the recorded
previous value is written at the index; reading the value of an empty `mPreviousValue` is an
error. Nothing else is changed. -/
def ActionEditProperty.Reverse {V : Type} (a : ActionEditProperty V) (st : PropertyStore V) :
    Option (PropertyStore V) :=
  match FindProp (a.GatherProps st) a.mPropertyName with
  | none => some st
  | some prop =>
    if prop.GetCount > a.mIndex then
      match a.mPreviousValue with
      | some v => some (a.commit st (prop.SetValue v a.mIndex))
      | none => none
    else some st

/-- The property that the action finds in the store, if any. -/
def ActionEditProperty.found {V : Type} (a : ActionEditProperty V) (st : PropertyStore V) :
    Option (Property V) :=
  FindProp (a.GatherProps st) a.mPropertyName

/-- Example property name. -/
def exampleName : String := "Items"

/-- Example property: a vector property, not external, that holds the two values `5`, `6`;
a new slot holds `0`. -/
def exampleProperty : Property Nat :=
  { mName := exampleName, mValues := [5, 6], mIsVector := true, mExternal := false,
    mNewSlot := 0 }

/-- Example store: node `1` has the example property, nothing else has properties. -/
def exampleStore : PropertyStore Nat :=
  { nodeProps := fun o => if o = 1 then [exampleProperty] else [],
    assetProps := fun _ => [], globalProps := [] }

/-- Example action: an edit of the example property of node `1` at index `2`, the current
count, with the new value `9`. -/
def exampleEdit : ActionEditProperty Nat :=
  ActionEditProperty.new 1 PropertyOwnerType.Node exampleName 2 9

/-- Example action: an edit of the example property of node `1` at index `5`, above the
current count `2`, with the new value `9`. -/
def exampleEditFar : ActionEditProperty Nat :=
  ActionEditProperty.new 1 PropertyOwnerType.Node exampleName 5 9

/-- Fields of `ActionAttachNode`. -/
structure ActionAttachNode where
  mNode : Node
  mNewParent : Option Node
  mPrevParent : Option Node
  mChildIndex : Int
  mPrevChildIndex : Int
  mBoneIndex : Int
  mPrevBoneIndex : Int
  deriving DecidableEq, Repr

/-- Constructor `ActionAttachNode::ActionAttachNode(node, newParent, childIndex, boneIndex)`:
records the node's parent, its child index under that parent (`-1` without parent) and its
bone index (`-1` when it is not a `Node3D`); asserts that node and new parent are non-null. -/
def ActionAttachNode.new (w : World) (node newParent : Option Node)
    (childIndex boneIndex : Int) : Option ActionAttachNode :=
  match node with
  | none => none
  | some n =>
    if newParent = none then none
    else
      some { mNode := n,
             mNewParent := newParent,
             mPrevParent := GetParent w n,
             mChildIndex := childIndex,
             mPrevChildIndex :=
               (match GetParent w n with
                | some parent => FindChildIndex w parent n
                | none => -1),
             mBoneIndex := boneIndex,
             mPrevBoneIndex := if w.isNode3D n then w.mParentBoneIndex n else -1 }

/-- Method `ActionAttachNode::Execute`: a bone attachment when the bone index is not negative,
the new parent is a `SkeletalMesh3D` and the node is a `Node3D`; a plain attachment to the
new parent at the child index otherwise. -/
def ActionAttachNode.Execute (a : ActionAttachNode) (w : World) : World :=
  match a.mNewParent with
  | some p =>
    if a.mBoneIndex ≥ 0 && w.isSkeletalMesh3D p && w.isNode3D a.mNode then
      AttachToBone w a.mNode p a.mBoneIndex a.mChildIndex
    else Attach w a.mNode (some p) a.mChildIndex
  | none => Attach w a.mNode none a.mChildIndex

/-- Method `ActionAttachNode::Reverse`: the same with the recorded previous parent, previous
bone index and previous child index. -/
def ActionAttachNode.Reverse (a : ActionAttachNode) (w : World) : World :=
  match a.mPrevParent with
  | some p =>
    if a.mPrevBoneIndex ≥ 0 && w.isSkeletalMesh3D p && w.isNode3D a.mNode then
      AttachToBone w a.mNode p a.mPrevBoneIndex a.mPrevChildIndex
    else Attach w a.mNode (some p) a.mPrevChildIndex
  | none => Attach w a.mNode none a.mPrevChildIndex

/-- Child index of a node as the action constructors compute it: the index under its parent,
`-1` when it has no parent. -/
def childIndexOf (w : World) (n : Node) : Int :=
  match GetParent w n with
  | some parent => FindChildIndex w parent n
  | none => -1

/-- Bone index of a node as the action constructors compute it: the parent bone index of a
`Node3D`, `-1` for any other node. -/
def boneIndexOf (w : World) (n : Node) : Int :=
  if w.isNode3D n then w.mParentBoneIndex n else -1

/-- Fields of `ActionSetRootNode`. -/
structure ActionSetRootNode where
  mNewRoot : Node
  mOldRoot : Node
  mNewRootParent : Node
  mNewRootChildIndex : Int
  deriving DecidableEq, Repr

/-- Constructor `ActionSetRootNode::ActionSetRootNode(newRoot)`: records the current root, the
new root's parent and its child index there; asserts that the new root is not the old root,
that both are non-null, and that the new root has a parent in which it is found. -/
def ActionSetRootNode.new (w : World) (newRoot : Option Node) : Option ActionSetRootNode :=
  match newRoot, w.mRootNode with
  | some n, some r =>
    if n = r then none
    else
      match GetParent w n with
      | some parent =>
        if FindChildIndex w parent n = -1 then none
        else
          some { mNewRoot := n, mOldRoot := r, mNewRootParent := parent,
                 mNewRootChildIndex := FindChildIndex w parent n }
      | none => none
  | _, _ => none

/-- Method `ActionSetRootNode::Execute`: the new root is detached and made the world root,
and the old root is attached to it. -/
def ActionSetRootNode.Execute (a : ActionSetRootNode) (w : World) : World :=
  Attach (SetRootNode (Detach w a.mNewRoot) (some a.mNewRoot)) a.mOldRoot (some a.mNewRoot) (-1)

/-- Method `ActionSetRootNode::Reverse`: the old root is detached and made the world root
again, and the new root is attached to its recorded parent at its recorded child index. -/
def ActionSetRootNode.Reverse (a : ActionSetRootNode) (w : World) : World :=
  Attach (SetRootNode (Detach w a.mOldRoot) (some a.mOldRoot)) a.mNewRoot
    (some a.mNewRootParent) a.mNewRootChildIndex

/-! ## Part 4: the manager with the actions on the scene tree

Here the stacks hold the action objects themselves, so that `Undo` and `Redo` run the bodies
of `Reverse` and `Execute` on the scene tree. An action object is in one place at a time, so
holding it by value loses nothing; an action just created by `new` is in neither stack, so the
two assertions of `ExecuteAction` hold. -/

/-- An id that no live node has. -/
def freshNode (w : World) : Node := w.nodes.foldr max 0 + 1

/-- Modelled from the spec: `Node::Construct(type)`, `Scene::Instantiate()` and
`Node::Clone(true)` (Node.cpp, Scene.cpp are missing), "Construct(type) -> Node": a new node
object, different from every live node, with no parent, not attached to a bone, not pending
destroy and not scene-linked. The nodes that `Instantiate` and `Clone` create below the new
node are not modelled. -/
def Construct (w : World) : Node × World :=
  (freshNode w,
   { w with nodes := w.nodes ++ [freshNode w],
            mParent := setField w.mParent (freshNode w) none,
            mChildren := setField w.mChildren (freshNode w) [],
            mParentBoneIndex := setField w.mParentBoneIndex (freshNode w) (-1),
            mScene := setField w.mScene (freshNode w) none,
            mSceneLinked := setField w.mSceneLinked (freshNode w) false,
            mPendingDestroy := setField w.mPendingDestroy (freshNode w) false })

/-- Modelled from the spec: `Node::SetScene(scene)` (Node.cpp is missing): "restores the scene
link" of the node. -/
def SetScene (w : World) (n : Node) (scene : Scene) : World :=
  { w with mScene := setField w.mScene n (some scene),
           mSceneLinked := setField w.mSceneLinked n true }

/-- First-time loops of `ActionSpawnNodes::Execute`: one pass per source entry; the flag says
whether the entry yields a node (a null scene does not, and is only logged). Each new node is
pushed on `mNodes`. -/
def ActionSpawnNodes.createLoop : List Bool → List Node → World → List Node × World
  | [], mNodes, w => (mNodes, w)
  | true :: srcs, mNodes, w =>
    ActionSpawnNodes.createLoop srcs (mNodes ++ [(Construct w).1]) (Construct w).2
  | false :: srcs, mNodes, w => ActionSpawnNodes.createLoop srcs mNodes w

/-- Second-time loop of `ActionSpawnNodes::Execute` over `mNodes[i]`, `mParents[i]` and
`mParentLinkedScenes[i]`: the node is restored from exile and attached to its recorded parent
(whose scene link is restored when one was recorded), or made the world root when the recorded
parent is null. `size` is `mNodes.size()`. -/
def ActionSpawnNodes.restoreLoop (size : Nat) :
    List Node → List (Option Node) → List (Option Scene) → Engine → Option Engine
  | [], _, _, e => some e
  | _ :: _, [], _, _ => none
  | n :: ns, some parent :: ps, ls, e =>
    (RestoreExiledNode e n).bind (fun e1 =>
      match ls.head? with
      | none => none
      | some linked =>
        let w1 := Attach e1.world n (some parent) (-1)
        let w2 :=
          match linked with
          | some scene => SetScene w1 parent scene
          | none => w1
        ActionSpawnNodes.restoreLoop size ns ps ls.tail { e1 with world := w2 })
  | n :: ns, none :: ps, ls, e =>
    (RestoreExiledNode e n).bind (fun e1 =>
      if size ≠ 1 then none
      else if e1.world.mRootNode ≠ none then none
      else
        ActionSpawnNodes.restoreLoop size ns ps ls.tail
          { e1 with world := SetRootNode e1.world (some n) })

/-- Method `ActionSpawnNodes::Execute`. The first time (no nodes yet) the nodes are created
from the first non-empty kind of source data: type ids, type names, scenes (null scenes are
skipped) or nodes to clone. Later the exiled nodes are restored and attached. Returns the
action with its updated fields and the new state. -/
def ActionSpawnNodes.Execute (a : ActionSpawnNodes) (e : Engine) :
    Option (ActionSpawnNodes × Engine) :=
  if a.mNodes.length = 0 then
    let srcs : List Bool :=
      if a.mSrcTypes.length > 0 then a.mSrcTypes.map (fun _ => true)
      else if a.mSrcTypeNames.length > 0 then a.mSrcTypeNames.map (fun _ => true)
      else if a.mSrcScenes.length > 0 then a.mSrcScenes.map Option.isSome
      else if a.mSrcNodes.length > 0 then a.mSrcNodes.map (fun _ => true)
      else []
    let r := ActionSpawnNodes.createLoop srcs a.mNodes e.world
    some ({ a with mNodes := r.1 }, { e with world := r.2 })
  else
    (ActionSpawnNodes.restoreLoop a.mNodes.length a.mNodes a.mParents a.mParentLinkedScenes
      e).map (fun e1 => (a, e1))

/-- Constructor `ActionSpawnNodes::ActionSpawnNodes(const std::vector<TypeId>& types)`. -/
def ActionSpawnNodes.ofTypes (types : List TypeId) : ActionSpawnNodes :=
  { mSrcTypes := types, mSrcTypeNames := [], mSrcScenes := [], mSrcNodes := [],
    mNodes := [], mParents := [], mParentLinkedScenes := [] }

/-- Constructor `ActionSpawnNodes::ActionSpawnNodes(const std::vector<SceneRef>& scenes)`; a
scene reference whose `Get<Scene>()` is null is `none`. -/
def ActionSpawnNodes.ofScenes (scenes : List (Option Scene)) : ActionSpawnNodes :=
  { mSrcTypes := [], mSrcTypeNames := [], mSrcScenes := scenes, mSrcNodes := [],
    mNodes := [], mParents := [], mParentLinkedScenes := [] }

/-- Constructor `ActionSpawnNodes::ActionSpawnNodes(const std::vector<Node*>& srcNodes)`: the
nodes to clone are taken over and `RemoveRedundantDescendants` is run on them. -/
def ActionSpawnNodes.ofNodes (w : World) (srcNodes : List Node) : ActionSpawnNodes :=
  { mSrcTypes := [], mSrcTypeNames := [], mSrcScenes := [],
    mSrcNodes := RemoveRedundantDescendants w srcNodes,
    mNodes := [], mParents := [], mParentLinkedScenes := [] }

/-- An action object of one of the four kinds that work on the scene tree. -/
inductive ActionObj where
  | spawn (a : ActionSpawnNodes)
  | delete (a : ActionDeleteNodes)
  | attach (a : ActionAttachNode)
  | setRoot (a : ActionSetRootNode)
  deriving DecidableEq, Repr

/-- The virtual call `action->Execute()`. -/
def ActionObj.Execute : ActionObj → Engine → Option (ActionObj × Engine)
  | .spawn a, e => (a.Execute e).map (fun r => (ActionObj.spawn r.1, r.2))
  | .delete a, e => (a.Execute e).map (fun e1 => (ActionObj.delete a, e1))
  | .attach a, e => some (ActionObj.attach a, { e with world := a.Execute e.world })
  | .setRoot a, e => some (ActionObj.setRoot a, { e with world := a.Execute e.world })

/-- The virtual call `action->Reverse()`. -/
def ActionObj.Reverse : ActionObj → Engine → Option (ActionObj × Engine)
  | .spawn a, e => (a.Reverse e).map (fun r => (ActionObj.spawn r.1, r.2))
  | .delete a, e => (a.Reverse e).map (fun e1 => (ActionObj.delete a, e1))
  | .attach a, e => some (ActionObj.attach a, { e with world := a.Reverse e.world })
  | .setRoot a, e => some (ActionObj.setRoot a, { e with world := a.Reverse e.world })

/-- The editor session: the state the actions work on, the two stacks of the manager with
the action objects they own, and the text-input flag. -/
structure Session where
  engine : Engine
  /-- Member `mActionHistory`, most recent last -/
  mActionHistory : List ActionObj
  /-- Member `mActionFuture`, most recently undone last -/
  mActionFuture : List ActionObj
  /-- Value of `ImGui::GetIO().WantTextInput` -/
  wantTextInput : Bool

/-- Method `ActionManager::ExecuteAction` on an action object just created: the action is
executed; while playing in editor it is deleted, otherwise the oldest entry is erased when the
history already holds `MaxActionHistoryCount` entries, the action is pushed and the future is
cleared. -/
def Session.ExecuteAction (st : Session) (action : ActionObj) : Option Session :=
  (action.Execute st.engine).bind (fun r =>
    if r.2.playingInEditor then some { st with engine := r.2 }
    else
      let history :=
        if st.mActionHistory.length ≥ MaxActionHistoryCount then st.mActionHistory.eraseIdx 0
        else st.mActionHistory
      some { st with engine := r.2, mActionHistory := history ++ [r.1], mActionFuture := [] })

/-- Method `ActionManager::Undo` with the body of `Reverse` run on the scene tree. -/
def Session.Undo (st : Session) : Option Session :=
  if st.mActionHistory.length > 0 && !st.wantTextInput then
    match st.mActionHistory.getLast? with
    | some action =>
      (action.Reverse st.engine).map (fun r =>
        { st with engine := r.2, mActionHistory := st.mActionHistory.dropLast,
                  mActionFuture := st.mActionFuture ++ [r.1] })
    | none => some st
  else some st

/-- Method `ActionManager::Redo` with the body of `Execute` run on the scene tree. -/
def Session.Redo (st : Session) : Option Session :=
  if st.mActionFuture.length > 0 && !st.wantTextInput then
    match st.mActionFuture.getLast? with
    | some action =>
      (action.Execute st.engine).map (fun r =>
        { st with engine := r.2, mActionFuture := st.mActionFuture.dropLast,
                  mActionHistory := st.mActionHistory ++ [r.1] })
    | none => some st
  else some st

/-- Method `ActionManager::EXE_SpawnNode(TypeId)`: creates the action, executes it, asserts that
it holds one node and returns that node. After `ExecuteAction` the action is read through the
history that owns it; while playing in editor the action has been deleted, and reading it is
an error. -/
def Session.EXE_SpawnNode (st : Session) (srcType : TypeId) : Option (Node × Session) :=
  (st.ExecuteAction (ActionObj.spawn (ActionSpawnNodes.ofTypes [srcType]))).bind (fun st1 =>
    if st1.engine.playingInEditor then none
    else
      match st1.mActionHistory.getLast? with
      | some (ActionObj.spawn a) =>
        (match a.mNodes with
         | [n] => some (n, st1)
         | _ => none)
      | _ => none)

/-- Method `ActionManager::SpawnNode(nodeType, parent)`: spawns the node through
`EXE_SpawnNode`, then adds it as a child of the given parent or, when that is null, of the
world root, or makes it the world root when there is none, and selects it. -/
def Session.SpawnNode (st : Session) (nodeType : TypeId) (parent : Option Node) :
    Option (Node × Session) :=
  (st.EXE_SpawnNode nodeType).map (fun r =>
    let e := r.2.engine
    let parent1 := if parent ≠ none then parent else e.world.mRootNode
    let w1 :=
      match parent1 with
      | some p => AddChild e.world p r.1 (-1)
      | none => SetRootNode e.world (some r.1)
    (r.1, { r.2 with engine :=
              { e with world := w1,
                       editor := { e.editor with mSelectedNodes := [r.1] } } }))

/-- Method `ActionManager::EXE_DeleteNodes(nodes)`. -/
def Session.EXE_DeleteNodes (st : Session) (nodes : List Node) : Option Session :=
  (ActionDeleteNodes.new st.engine.world nodes).bind (fun a =>
    st.ExecuteAction (ActionObj.delete a))

/-- Method `ActionManager::EXE_AttachNode(node, newParent, childIndex, boneIndex)`. -/
def Session.EXE_AttachNode (st : Session) (node newParent : Option Node)
    (childIndex boneIndex : Int) : Option Session :=
  (ActionAttachNode.new st.engine.world node newParent childIndex boneIndex).bind (fun a =>
    st.ExecuteAction (ActionObj.attach a))

/-- Method `ActionManager::EXE_SetRootNode(newRoot)`. -/
def Session.EXE_SetRootNode (st : Session) (newRoot : Option Node) : Option Session :=
  (ActionSetRootNode.new st.engine.world newRoot).bind (fun a =>
    st.ExecuteAction (ActionObj.setRoot a))

/-- One editor operation on the session. -/
inductive EditorCmd where
  | spawnNode (nodeType : TypeId) (parent : Option Node)
  | deleteNodes (nodes : List Node)
  | attachNode (node newParent : Node) (childIndex boneIndex : Int)
  | setRootNode (newRoot : Node)
  | undo
  | redo
  | setWantTextInput (b : Bool)
  deriving DecidableEq, Repr

/-- Effect of one editor operation; `none` when an assertion fails. -/
def Session.step (st : Session) : EditorCmd → Option Session
  | .spawnNode nodeType parent => (st.SpawnNode nodeType parent).map (fun r => r.2)
  | .deleteNodes nodes => st.EXE_DeleteNodes nodes
  | .attachNode node newParent childIndex boneIndex =>
    st.EXE_AttachNode (some node) (some newParent) childIndex boneIndex
  | .setRootNode newRoot => st.EXE_SetRootNode (some newRoot)
  | .undo => st.Undo
  | .redo => st.Redo
  | .setWantTextInput b => some { st with wantTextInput := b }

/-- Effect of a sequence of editor operations. -/
def Session.run : Session → List EditorCmd → Option Session
  | st, [] => some st
  | st, c :: cs => (st.step c).bind (fun st1 => Session.run st1 cs)

/-- What the editor may ask for in a state: only a node that has a parent is attached to a
new parent (an exiled node and the world root have none). The other operations are guarded
by the assertions of the code. -/
def EditorCmd.admissible (st : Session) : EditorCmd → Prop
  | .attachNode node _ _ _ => GetParent st.engine.world node ≠ none
  | _ => True

/-- Every operation of the sequence is admissible in the state in which it is issued. -/
def Session.admissibleRun : Session → List EditorCmd → Prop
  | _, [] => True
  | st, c :: cs =>
    c.admissible st ∧ ∀ st1, st.step c = some st1 → Session.admissibleRun st1 cs

/-- What the exile bookkeeping needs of a state: every exiled node has no parent and is not
the world root; no node is exiled twice; the world root has no parent; exiled nodes, the root
and every node that has a parent are live node objects; the editor is not playing. -/
structure Sound (e : Engine) : Prop where
  exiledDetached : ∀ n ∈ e.mExiledNodes,
    e.world.mParent n = none ∧ e.world.mRootNode ≠ some n
  exiledNodup : e.mExiledNodes.Nodup
  rootNoParent : ∀ r, e.world.mRootNode = some r → e.world.mParent r = none
  exiledLive : ∀ n ∈ e.mExiledNodes, n ∈ e.world.nodes
  rootLive : ∀ r, e.world.mRootNode = some r → r ∈ e.world.nodes
  parentedLive : ∀ n, e.world.mParent n ≠ none → n ∈ e.world.nodes
  notPlaying : e.playingInEditor = false

/-- The part of the world that decides where a node hangs: the parent of every node and the
world root. -/
structure TreeShape where
  parent : Node → Option Node
  root : Option Node

/-- The tree shape of a world. -/
def shape (w : World) : TreeShape := { parent := w.mParent, root := w.mRootNode }

/-- The parents after the listed nodes have lost theirs. -/
def clearParents (f : Node → Option Node) (ns : List Node) : Node → Option Node :=
  fun m => if m ∈ ns then none else f m

/-- The parents after the listed nodes have got the ones that `g` gives them. -/
def restoreParents (f g : Node → Option Node) (ns : List Node) : Node → Option Node :=
  fun m => if m ∈ ns then g m else f m

/-- Relation between an action object in a stack, the tree shape `s` before its `Execute` and
the tree shape `t` after it: what the object has recorded fits `s`, and `t` is `s` changed
the way `Execute` changes it (equivalently, `s` is `t` changed the way `Reverse` does). -/
def Link : ActionObj → TreeShape → TreeShape → Prop
  | .attach a, s, t =>
    ∃ p, a.mNewParent = some p ∧ a.mPrevParent = s.parent a.mNode ∧
      s.parent a.mNode ≠ none ∧
      t.parent = setField s.parent a.mNode (some p) ∧ t.root = s.root
  | .setRoot a, s, t =>
    a.mNewRoot ≠ a.mOldRoot ∧ s.root = some a.mOldRoot ∧
      s.parent a.mNewRoot = some a.mNewRootParent ∧ s.parent a.mOldRoot = none ∧
      t.root = some a.mNewRoot ∧
      t.parent = setField (setField s.parent a.mNewRoot none) a.mOldRoot (some a.mNewRoot)
  | .delete a, s, t =>
    a.mParents = a.mNodes.map s.parent ∧
      t.parent = clearParents s.parent a.mNodes ∧
      (((∀ n ∈ a.mNodes, s.parent n ≠ none) ∧ t.root = s.root) ∨
       (∃ n, a.mNodes = [n] ∧ s.parent n = none ∧ s.root = some n ∧ t.root = none))
  | .spawn a, s, t =>
    a.mNodes ≠ [] ∧
      (a.mParents = [] ∨ a.mParents = a.mNodes.map t.parent) ∧
      s.parent = clearParents t.parent a.mNodes ∧
      (((∀ n ∈ a.mNodes, t.parent n ≠ none) ∧ s.root = t.root) ∨
       (∃ n, a.mNodes = [n] ∧ t.parent n = none ∧ t.root = some n ∧ s.root = none))

/-- An action object that can be re-executed: a spawn action has recorded the parents of
its nodes (it has been reversed once). -/
def Recorded : ActionObj → Prop
  | .spawn a => a.mParents ≠ []
  | _ => True

/-- The history, most recent first, fits the tree shape: there are earlier tree shapes that
the actions link, one after the other, down to the oldest. -/
def HistChain : List ActionObj → TreeShape → Prop
  | [], _ => True
  | a :: rest, t => ∃ s, Link a s t ∧ HistChain rest s

/-- The future, next to redo first, fits the tree shape: there are later tree shapes that
the actions link, one after the other. -/
def FutChain : List ActionObj → TreeShape → Prop
  | [], _ => True
  | a :: rest, s => Recorded a ∧ ∃ t, Link a s t ∧ FutChain rest t

/-- Invariant of the session: the state is sound and both stacks fit its tree shape. -/
def Session.Inv (st : Session) : Prop :=
  Sound st.engine ∧
  HistChain st.mActionHistory.reverse (shape st.engine.world) ∧
  FutChain st.mActionFuture.reverse (shape st.engine.world)

/-- Example session: the example state with a fresh manager. -/
def exampleSession : Session :=
  { engine := exampleEngine, mActionHistory := [], mActionFuture := [], wantTextInput := false }

/-- Loop of `ActionManager::DeleteSelectedNodes` over its copy `nodes` of the selection, a
`std::vector<Node*>` in which an entry may be null. The second argument is the loop variable
`i`, a `uint32_t`: when `nodes[i]` is null the entry is erased and `i` is decremented, and the
increment of the `for` statement follows, both modulo `2 ^ 32`. The first argument bounds the
number of passes; `none` means that the bound was too small. -/
def DeleteSelectedNodes.loop : Nat → Nat → List (Option Node) → Option (List (Option Node))
  | 0, _, _ => none
  | fuel + 1, i, nodes =>
    if i < nodes.length then
      match nodes[i]? with
      | some none =>
        DeleteSelectedNodes.loop fuel (((i + 2 ^ 32 - 1) % 2 ^ 32 + 1) % 2 ^ 32)
          (nodes.eraseIdx i)
      | _ => DeleteSelectedNodes.loop fuel ((i + 1) % 2 ^ 32) nodes
    else some nodes

/-- The list that `ActionManager::DeleteSelectedNodes` passes to `EXE_DeleteNodes` for the
given selection: the loop starts at `i = 0`; one pass more than the selection has entries is
enough. -/
def DeleteSelectedNodes.nodes (selected : List (Option Node)) : Option (List (Option Node)) :=
  DeleteSelectedNodes.loop (selected.length + 1) 0 selected

/-- Example selection: a null entry first, two adjacent null entries later. -/
def exampleSelection : List (Option Node) := [none, some 3, none, none, some 2, some 4, none]

/-- The editor begins or ends play-in-editor: `IsPlayingInEditor()` returns `b` from now
on. -/
def Session.SetPlayingInEditor (st : Session) (b : Bool) : Session :=
  { st with engine := { st.engine with playingInEditor := b } }

/-- Example: in the example session node `2` is deleted through `EXE_DeleteNodes`, the
delete is undone, play-in-editor begins, and `Redo` is called. -/
def redoWhilePlaying : Option Session :=
  (((exampleSession.EXE_DeleteNodes [2]).bind Session.Undo).map
    (fun st => st.SetPlayingInEditor true)).bind Session.Redo

/-- Example action: the `ActionDeleteNodes` that the constructor builds in the example world
from the node list `[3, 2]`. -/
def exampleDelete : ActionDeleteNodes :=
  { mNodes := [3, 2], mParents := [some 1, some 1], mChildIndices := [1, 0],
    mBoneIndices := [-1, -1] }

/-- Example state: the example state while playing in editor. -/
def examplePlaying : Engine := { exampleEngine with playingInEditor := true }

/-- Example state: the example state in which node `1` is scene-linked to the scene `9`. -/
def exampleLinkedEngine : Engine :=
  { exampleEngine with
      world := { exampleWorld with mScene := fun n => if n = 1 then some 9 else none,
                                   mSceneLinked := fun n => decide (n = 1) } }

/-- Example action: the example spawn action after its first `Reverse` in the scene-linked
example state: the parent `1` of both nodes and its linked scene `9` are recorded. -/
def exampleSpawnReversed : ActionSpawnNodes :=
  { exampleSpawn with mParents := [some 1, some 1], mParentLinkedScenes := [some 9, some 9] }

/-- Example state: the state after the first `Reverse` of the example spawn action in the
scene-linked example state, in which the scene link of node `1` has been broken since. -/
def exampleAfterReverse : Option Engine :=
  (exampleSpawn.Reverse exampleLinkedEngine).map (fun r =>
    { r.2 with world := { r.2.world with mScene := setField r.2.world.mScene 1 none,
                                         mSceneLinked := setField r.2.world.mSceneLinked 1
                                           false } })

/-! ## Part 5: the camera component

`Engine/Source/Engine/Nodes/3D/CameraComponent.cpp`. The near and far planes are `float`
members that the four functions below only copy, so the type `F` stands for `float`.
`CameraComponent.h` is not among the sources at hand; the two projection modes and the
fields of the two settings structures are the ones the functions of `CameraComponent.cpp`
use. -/

/-- The two values of `ProjectionMode` that `CameraComponent.cpp` names. -/
inductive ProjectionMode where
  | ORTHOGRAPHIC
  | PERSPECTIVE
  deriving DecidableEq, Repr

/-- Fields of `PerspectiveSettings`. -/
structure PerspectiveSettings (F : Type) where
  mFovY : F
  mAspectRatio : F
  mNear : F
  mFar : F
  deriving DecidableEq, Repr

/-- Fields of `OrthoSettings`. -/
structure OrthoSettings (F : Type) where
  mWidth : F
  mHeight : F
  mNear : F
  mFar : F
  deriving DecidableEq, Repr

/-- The members of `CameraComponent` that the near and far plane accessors read and
write. -/
structure CameraComponent (F : Type) where
  mProjectionMode : ProjectionMode
  mPerspectiveSettings : PerspectiveSettings F
  mOrthoSettings : OrthoSettings F
  deriving DecidableEq, Repr

/-- Method `CameraComponent::GetNearZ`. -/
def CameraComponent.GetNearZ {F : Type} (c : CameraComponent F) : F :=
  if c.mProjectionMode = ProjectionMode.ORTHOGRAPHIC then c.mOrthoSettings.mNear
  else c.mPerspectiveSettings.mNear

/-- Method `CameraComponent::GetFarZ`. -/
def CameraComponent.GetFarZ {F : Type} (c : CameraComponent F) : F :=
  if c.mProjectionMode = ProjectionMode.ORTHOGRAPHIC then c.mOrthoSettings.mFar
  else c.mPerspectiveSettings.mFar

/-- Method `CameraComponent::SetNearZ`. -/
def CameraComponent.SetNearZ {F : Type} (c : CameraComponent F) (nearZ : F) :
    CameraComponent F :=
  if c.mProjectionMode = ProjectionMode.PERSPECTIVE then
    { c with mPerspectiveSettings := { c.mPerspectiveSettings with mNear := nearZ } }
  else
    { c with mOrthoSettings := { c.mOrthoSettings with mNear := nearZ } }

/-- Method `CameraComponent::SetFarZ`: both branches assign to the `mNear` member. -/
def CameraComponent.SetFarZ {F : Type} (c : CameraComponent F) (farZ : F) :
    CameraComponent F :=
  if c.mProjectionMode = ProjectionMode.PERSPECTIVE then
    { c with mPerspectiveSettings := { c.mPerspectiveSettings with mNear := farZ } }
  else
    { c with mOrthoSettings := { c.mOrthoSettings with mNear := farZ } }

/-- Example camera in the given mode: perspective planes `1` and `1000`, orthographic planes
`2` and `200` (whole numbers standing for the `float` values). -/
def exampleCamera (mode : ProjectionMode) : CameraComponent Int :=
  { mProjectionMode := mode,
    mPerspectiveSettings := { mFovY := 70, mAspectRatio := 1, mNear := 1, mFar := 1000 },
    mOrthoSettings := { mWidth := 16, mHeight := 9, mNear := 2, mFar := 200 } }

/-! ## Theorems, part 1: the history and future stacks -/

theorem lastN_length (k : Nat) (l : List Action) : (lastN k l).length = min k l.length := by
  unfold lastN
  rw [List.length_drop]
  omega

theorem lastN_of_length_le (k : Nat) (l : List Action) (h : l.length ≤ k) : lastN k l = l := by
  unfold lastN
  have : l.length - k = 0 := by omega
  rw [this, List.drop_zero]

theorem lastN_cons_of_le (k : Nat) (x : Action) (l : List Action) (h : k ≤ l.length) :
    lastN k (x :: l) = lastN k l := by
  unfold lastN
  have : (x :: l).length - k = (l.length - k) + 1 := by
    simp only [List.length_cons]; omega
  rw [this, List.drop_succ_cons]

theorem eraseIdx_zero_eq_tail (l : List Action) : l.eraseIdx 0 = l.tail := by
  cases l <;> rfl

/-- Result of `ExecuteAction` outside play-in-editor when both assertions hold. -/
theorem ExecuteAction_recording (s : ManagerState) (a : Action)
    (hp : s.playingInEditor = false) (hh : a ∉ s.mActionHistory) (hf : a ∉ s.mActionFuture) :
    ExecuteAction s a = some
      { mActionHistory :=
          (if s.mActionHistory.length ≥ MaxActionHistoryCount then s.mActionHistory.tail
           else s.mActionHistory) ++ [a],
        mActionFuture := [],
        playingInEditor := false,
        wantTextInput := s.wantTextInput,
        trace := s.trace ++ [Event.execute a] ++ s.mActionFuture.map Event.delete } := by
  unfold ExecuteAction
  rw [if_neg hh, if_neg hf]
  simp only [hp, Bool.false_eq_true, if_false]
  by_cases hl : s.mActionHistory.length ≥ MaxActionHistoryCount
  · simp only [if_pos hl, ClearActionFuture, eraseIdx_zero_eq_tail]
  · simp only [if_neg hl, ClearActionFuture]

/-- Result of `ExecuteAction` while playing in editor when both assertions hold. -/
theorem ExecuteAction_playing (s : ManagerState) (a : Action)
    (hp : s.playingInEditor = true) (hh : a ∉ s.mActionHistory) (hf : a ∉ s.mActionFuture) :
    ExecuteAction s a = some
      { s with trace := s.trace ++ [Event.execute a] ++ [Event.delete a] } := by
  unfold ExecuteAction
  rw [if_neg hh, if_neg hf]
  simp only [hp, if_true]

/-- Recording run: the history after a run of fresh, pairwise distinct actions is the last
`MaxActionHistoryCount` entries of the old history followed by the actions. -/
theorem executeActions_recording (as : List Action) :
    ∀ s : ManagerState, s.playingInEditor = false →
      s.mActionHistory.length ≤ MaxActionHistoryCount →
      (s.mActionHistory ++ as).Nodup → (∀ a ∈ as, a ∉ s.mActionFuture) →
      ∃ s1, executeActions s as = some s1 ∧
        s1.mActionHistory = lastN MaxActionHistoryCount (s.mActionHistory ++ as) ∧
        s1.playingInEditor = false ∧ (as ≠ [] → s1.mActionFuture = []) := by
  induction as with
  | nil =>
    intro s hp hl _ _
    refine ⟨s, rfl, ?_, hp, fun h => absurd rfl h⟩
    rw [List.append_nil, lastN_of_length_le _ _ hl]
  | cons a as ih =>
    intro s hp hl hnd hfut
    have hah : a ∉ s.mActionHistory := by
      intro hmem
      have := List.disjoint_of_nodup_append hnd hmem
      exact this (List.mem_cons_self a as)
    have haf : a ∉ s.mActionFuture := hfut a (List.mem_cons_self a as)
    have hex := ExecuteAction_recording s a hp hah haf
    simp only [executeActions, hex, Option.some_bind]
    have hnd1 : (s.mActionHistory ++ [a] ++ as).Nodup := by
      simpa [List.append_assoc] using hnd
    by_cases hge : s.mActionHistory.length ≥ MaxActionHistoryCount
    · simp only [if_pos hge]
      have hlen : s.mActionHistory.length = MaxActionHistoryCount := le_antisymm hl hge
      obtain ⟨x, t, hxt⟩ : ∃ x t, s.mActionHistory = x :: t := by
        cases hs : s.mActionHistory with
        | nil => rw [hs] at hlen; simp [MaxActionHistoryCount] at hlen
        | cons x t => exact ⟨x, t, rfl⟩
      rw [hxt] at hnd1 hlen
      simp only [hxt, List.tail_cons]
      have hnd2 : (t ++ [a] ++ as).Nodup := by
        have : (x :: (t ++ [a] ++ as)).Nodup := by simpa using hnd1
        exact (List.nodup_cons.mp this).2
      obtain ⟨s1, hrun, hhist, hp1, hf1⟩ := ih
        { mActionHistory := t ++ [a], mActionFuture := [], playingInEditor := false,
          wantTextInput := s.wantTextInput,
          trace := s.trace ++ [Event.execute a] ++ s.mActionFuture.map Event.delete }
        rfl (by simp only [List.length_append, List.length_cons, List.length_nil] at hlen ⊢
                omega)
        hnd2 (by intro b _; simp)
      refine ⟨s1, hrun, ?_, hp1, fun _ => ?_⟩
      · rw [hhist]
        have : x :: t ++ a :: as = x :: (t ++ [a] ++ as) := by simp
        rw [this, lastN_cons_of_le]
        simp only [List.length_append, List.length_cons, List.length_nil] at hlen ⊢
        omega
      · cases as with
        | nil => simp only [executeActions] at hrun; cases hrun; rfl
        | cons b bs => exact hf1 (by simp)
    · simp only [if_neg hge]
      obtain ⟨s1, hrun, hhist, hp1, hf1⟩ := ih
        { mActionHistory := s.mActionHistory ++ [a], mActionFuture := [],
          playingInEditor := false, wantTextInput := s.wantTextInput,
          trace := s.trace ++ [Event.execute a] ++ s.mActionFuture.map Event.delete }
        rfl (by simp only [List.length_append, List.length_cons, List.length_nil]
                simp only [ge_iff_le, not_le] at hge; omega)
        hnd1 (by intro b _; simp)
      refine ⟨s1, hrun, ?_, hp1, fun _ => ?_⟩
      · rw [hhist]; simp
      · cases as with
        | nil => simp only [executeActions] at hrun; cases hrun; rfl
        | cons b bs => exact hf1 (by simp)

/-- C1: starting from a manager with empty history and empty future, not playing in editor,
after `ExecuteAction` has been called on N > 100 pairwise distinct actions in order, the run
has succeeded, the history holds exactly 100 entries, and they are the last 100 actions
passed, in execution order (most recent last). -/
theorem C1_history_bound (s : ManagerState) (as : List Action)
    (hh : s.mActionHistory = []) (hf : s.mActionFuture = []) (hp : s.playingInEditor = false)
    (hnd : as.Nodup) (hN : 100 < as.length) :
    ∃ s1, executeActions s as = some s1 ∧ s1.mActionHistory.length = 100 ∧
      s1.mActionHistory = as.drop (as.length - 100) := by
  obtain ⟨s1, hrun, hhist, _, _⟩ := executeActions_recording as s hp
    (by rw [hh]; simp) (by rw [hh]; simpa using hnd) (by intro a _; rw [hf]; simp)
  rw [hh, List.nil_append] at hhist
  refine ⟨s1, hrun, ?_, ?_⟩
  · rw [hhist, lastN_length]
    simp only [MaxActionHistoryCount]; omega
  · rw [hhist]; rfl

/-- Witness of C1: 101 actions `0, 1, ..., 100` executed from the empty manager. -/
theorem C1_history_bound_witness :
    ∃ s1, executeActions ManagerState.empty (List.range 101) = some s1 ∧
      s1.mActionHistory.length = 100 ∧
      s1.mActionHistory = (List.range 101).drop ((List.range 101).length - 100) :=
  C1_history_bound ManagerState.empty (List.range 101) rfl rfl rfl
    (List.nodup_range 101) (by simp)

/-- Function `Undo` on a non-empty history without text-input focus. -/
theorem Undo_concat (s : ManagerState) (h : List Action) (a : Action)
    (hs : s.mActionHistory = h ++ [a]) (hw : s.wantTextInput = false) :
    Undo s = { s with mActionHistory := h, mActionFuture := s.mActionFuture ++ [a],
                      trace := s.trace ++ [Event.reverse a] } := by
  unfold Undo
  simp [hs, hw]

/-- Function `Redo` on a non-empty future without text-input focus. -/
theorem Redo_concat (s : ManagerState) (f : List Action) (a : Action)
    (hs : s.mActionFuture = f ++ [a]) (hw : s.wantTextInput = false) :
    Redo s = { s with mActionFuture := f, mActionHistory := s.mActionHistory ++ [a],
                      trace := s.trace ++ [Event.execute a] } := by
  unfold Redo
  simp [hs, hw]

/-- Function `Undo` with an empty history or with text-input focus returns the state unchanged. -/
theorem Undo_noop (s : ManagerState) (h : s.mActionHistory = [] ∨ s.wantTextInput = true) :
    Undo s = s := by
  rcases h with h | h
  · simp [Undo, h]
  · simp [Undo, h]

/-- Function `Redo` with an empty future or with text-input focus returns the state unchanged. -/
theorem Redo_noop (s : ManagerState) (h : s.mActionFuture = [] ∨ s.wantTextInput = true) :
    Redo s = s := by
  rcases h with h | h
  · simp [Redo, h]
  · simp [Redo, h]

/-- C2: after `ExecuteAction(a)` outside play-in-editor, with `a` in neither stack, on a state
whose stacks share no action, the call succeeds, the future stack is empty, exactly the
actions that were in the future have been deleted (after `a` was executed), none of them is
in either stack, and a following `Redo` changes nothing. -/
theorem C2_redo_invalidation (s : ManagerState) (a : Action)
    (hp : s.playingInEditor = false) (hh : a ∉ s.mActionHistory) (hf : a ∉ s.mActionFuture)
    (hex : ∀ b ∈ s.mActionFuture, b ∉ s.mActionHistory) :
    ∃ s1, ExecuteAction s a = some s1 ∧ s1.mActionFuture = [] ∧
      s1.trace = s.trace ++ Event.execute a :: s.mActionFuture.map Event.delete ∧
      (∀ b ∈ s.mActionFuture,
        Event.delete b ∈ s1.trace ∧ b ∉ s1.mActionHistory ∧ b ∉ s1.mActionFuture) ∧
      Redo s1 = s1 := by
  refine ⟨_, ExecuteAction_recording s a hp hh hf, rfl, by simp, ?_, ?_⟩
  · intro b hb
    refine ⟨?_, ?_, by simp⟩
    · simp only [List.mem_append, List.mem_map]
      exact Or.inr ⟨b, hb, rfl⟩
    · have hba : b ≠ a := fun h => hf (h ▸ hb)
      have hbh := hex b hb
      simp only [List.mem_append, List.mem_singleton, not_or]
      refine ⟨?_, hba⟩
      split
      · exact fun h => hbh (List.mem_of_mem_tail h)
      · exact hbh
  · simp [Redo]

/-- Witness of C2: history `[1]`, future `[2, 3]`, new action `4`. -/
theorem C2_redo_invalidation_witness :
    ∃ s1, ExecuteAction ⟨[1], [2, 3], false, false, []⟩ 4 = some s1 ∧
      s1.mActionFuture = [] ∧
      s1.trace = [] ++ Event.execute 4 :: [2, 3].map Event.delete ∧
      (∀ b ∈ [2, 3],
        Event.delete b ∈ s1.trace ∧ b ∉ s1.mActionHistory ∧ b ∉ s1.mActionFuture) ∧
      Redo s1 = s1 :=
  C2_redo_invalidation ⟨[1], [2, 3], false, false, []⟩ 4 rfl (by decide) (by decide)
    (by decide)

/-- C3: `Undo` returns the state unchanged (stacks and trace, so no `Reverse` call) when the
history is empty or a text-input field has keyboard focus; otherwise, with history `h ++ [a]`,
it leaves history `h`, appends `a` to the future and calls `a.Reverse()` exactly once. -/
theorem C3_undo (s : ManagerState) :
    ((s.mActionHistory = [] ∨ s.wantTextInput = true) → Undo s = s) ∧
    (∀ h a, s.mActionHistory = h ++ [a] → s.wantTextInput = false →
      Undo s = { s with mActionHistory := h, mActionFuture := s.mActionFuture ++ [a],
                        trace := s.trace ++ [Event.reverse a] }) := by
  exact ⟨Undo_noop s, fun h a hs hw => Undo_concat s h a hs hw⟩

/-- Witness of C3: both branches on concrete states. -/
theorem C3_undo_witness :
    Undo ⟨[], [3], false, false, []⟩ = ⟨[], [3], false, false, []⟩ ∧
    Undo ⟨[1, 2], [3], false, false, []⟩ = ⟨[1], [3, 2], false, false, [Event.reverse 2]⟩ :=
  ⟨(C3_undo ⟨[], [3], false, false, []⟩).1 (Or.inl rfl),
   (C3_undo ⟨[1, 2], [3], false, false, []⟩).2 [1] 2 rfl rfl⟩

/-- C4: `Redo` returns the state unchanged when the future is empty or a text-input field has
keyboard focus; otherwise, with future `f ++ [a]`, it leaves future `f`, appends `a` to the
history and calls `a.Execute()` exactly once. -/
theorem C4_redo (s : ManagerState) :
    ((s.mActionFuture = [] ∨ s.wantTextInput = true) → Redo s = s) ∧
    (∀ f a, s.mActionFuture = f ++ [a] → s.wantTextInput = false →
      Redo s = { s with mActionFuture := f, mActionHistory := s.mActionHistory ++ [a],
                        trace := s.trace ++ [Event.execute a] }) := by
  exact ⟨Redo_noop s, fun f a hs hw => Redo_concat s f a hs hw⟩

/-- Witness of C4: both branches on concrete states. -/
theorem C4_redo_witness :
    Redo ⟨[1], [3, 2], false, true, []⟩ = ⟨[1], [3, 2], false, true, []⟩ ∧
    Redo ⟨[1], [3, 2], false, false, []⟩ = ⟨[1, 2], [3], false, false, [Event.execute 2]⟩ :=
  ⟨(C4_redo ⟨[1], [3, 2], false, true, []⟩).1 (Or.inr rfl),
   (C4_redo ⟨[1], [3, 2], false, false, []⟩).2 [3] 2 rfl rfl⟩

/-- Every non-empty list ends in a last element. -/
theorem exists_concat_of_ne_nil (l : List Action) (h : l ≠ []) : ∃ t a, l = t ++ [a] :=
  ⟨l.dropLast, l.getLast h, (List.dropLast_append_getLast h).symm⟩

/-- Function `Undo` keeps the stacks free of repetitions. -/
theorem Undo_nodup (s : ManagerState) (h : (s.mActionHistory ++ s.mActionFuture).Nodup) :
    ((Undo s).mActionHistory ++ (Undo s).mActionFuture).Nodup := by
  by_cases hw : s.wantTextInput = true
  · rw [Undo_noop s (Or.inr hw)]; exact h
  · by_cases he : s.mActionHistory = []
    · rw [Undo_noop s (Or.inl he)]; exact h
    · obtain ⟨t, a, hta⟩ := exists_concat_of_ne_nil _ he
      rw [Undo_concat s t a hta (by simpa using hw)]
      rw [hta] at h
      refine (List.Perm.nodup_iff ?_).mp h
      simp only [List.append_assoc]
      exact List.Perm.append_left t List.perm_append_comm

/-- Function `Redo` keeps the stacks free of repetitions. -/
theorem Redo_nodup (s : ManagerState) (h : (s.mActionHistory ++ s.mActionFuture).Nodup) :
    ((Redo s).mActionHistory ++ (Redo s).mActionFuture).Nodup := by
  by_cases hw : s.wantTextInput = true
  · rw [Redo_noop s (Or.inr hw)]; exact h
  · by_cases he : s.mActionFuture = []
    · rw [Redo_noop s (Or.inl he)]; exact h
    · obtain ⟨t, a, hta⟩ := exists_concat_of_ne_nil _ he
      rw [Redo_concat s t a hta (by simpa using hw)]
      rw [hta] at h
      refine (List.Perm.nodup_iff ?_).mp h
      simp only [List.append_assoc]
      exact List.Perm.append_left _ List.perm_append_comm

/-- A successful `ExecuteAction` keeps the stacks free of repetitions. -/
theorem ExecuteAction_nodup (s s1 : ManagerState) (a : Action)
    (h : (s.mActionHistory ++ s.mActionFuture).Nodup) (hex : ExecuteAction s a = some s1) :
    (s1.mActionHistory ++ s1.mActionFuture).Nodup := by
  by_cases hh : a ∈ s.mActionHistory
  · simp [ExecuteAction, hh] at hex
  by_cases hf : a ∈ s.mActionFuture
  · simp [ExecuteAction, hh, hf] at hex
  cases hp : s.playingInEditor with
  | true =>
    rw [ExecuteAction_playing s a hp hh hf] at hex
    cases hex
    exact h
  | false =>
    rw [ExecuteAction_recording s a hp hh hf] at hex
    cases hex
    have hnd : s.mActionHistory.Nodup := (List.nodup_append.mp h).1
    simp only [List.append_nil]
    split
    · refine List.Nodup.append (hnd.sublist (List.tail_sublist _)) (List.nodup_singleton a) ?_
      intro b hb hba
      rw [List.mem_singleton.mp hba] at hb
      exact hh (List.mem_of_mem_tail hb)
    · refine List.Nodup.append hnd (List.nodup_singleton a) ?_
      intro b hb hba
      rw [List.mem_singleton.mp hba] at hb
      exact hh hb

/-- Every successful command keeps the stacks free of repetitions. -/
theorem step_nodup (s s1 : ManagerState) (c : Cmd)
    (h : (s.mActionHistory ++ s.mActionFuture).Nodup) (hst : step s c = some s1) :
    (s1.mActionHistory ++ s1.mActionFuture).Nodup := by
  cases c with
  | executeAction a => exact ExecuteAction_nodup s s1 a h hst
  | undo => simp only [step, Option.some.injEq] at hst; rw [← hst]; exact Undo_nodup s h
  | redo => simp only [step, Option.some.injEq] at hst; rw [← hst]; exact Redo_nodup s h
  | setPlayingInEditor b => simp only [step, Option.some.injEq] at hst; rw [← hst]; exact h
  | setWantTextInput b => simp only [step, Option.some.injEq] at hst; rw [← hst]; exact h

/-- Every successful run keeps the stacks free of repetitions. -/
theorem run_nodup (cmds : List Cmd) :
    ∀ s s1 : ManagerState, (s.mActionHistory ++ s.mActionFuture).Nodup →
      run s cmds = some s1 → (s1.mActionHistory ++ s1.mActionFuture).Nodup := by
  induction cmds with
  | nil => intro s s1 h hr; simp only [run, Option.some.injEq] at hr; rw [← hr]; exact h
  | cons c cs ih =>
    intro s s1 h hr
    simp only [run] at hr
    cases hst : step s c with
    | none => rw [hst] at hr; simp at hr
    | some s2 =>
      rw [hst, Option.some_bind] at hr
      exact ih s2 s1 (step_nodup s s2 c h hst) hr

/-- C5: after every sequence of `ExecuteAction` / `Undo` / `Redo` calls from the empty manager
(with the play-in-editor and text-input flags changing at will) in which every
`ExecuteAction` receives an action that is in neither stack at that moment (so that no
assertion fails), history followed by future contains no action twice. -/
theorem C5_stack_exclusivity (cmds : List Cmd) (s : ManagerState)
    (hrun : run ManagerState.empty cmds = some s) :
    (s.mActionHistory ++ s.mActionFuture).Nodup :=
  run_nodup cmds ManagerState.empty s (by simp [ManagerState.empty]) hrun

/-- Witness of C5: execute 1, execute 2, undo, undo, redo, execute 3. -/
theorem C5_stack_exclusivity_witness :
    (([1, 3] : List Action) ++ []).Nodup :=
  C5_stack_exclusivity
    [Cmd.executeAction 1, Cmd.executeAction 2, Cmd.undo, Cmd.undo, Cmd.redo,
     Cmd.executeAction 3]
    ⟨[1, 3], [], false, false,
      [Event.execute 1, Event.execute 2, Event.reverse 2, Event.reverse 1, Event.execute 1,
       Event.execute 3, Event.delete 2]⟩
    (by decide)

/-- Undoing as many times as the list `l` is long, when the history ends in `l`: the entries
of `l` move to the future newest-first and are reversed in that order. -/
theorem iterate_Undo (l : List Action) :
    ∀ (s : ManagerState) (h : List Action), s.mActionHistory = h ++ l →
      s.wantTextInput = false →
      Nat.iterate Undo l.length s =
        { s with mActionHistory := h, mActionFuture := s.mActionFuture ++ l.reverse,
                 trace := s.trace ++ l.reverse.map Event.reverse } := by
  induction l using List.reverseRecOn with
  | nil =>
    intro s h hs _
    simp only [List.append_nil] at hs
    simp [← hs]
  | append_singleton t a ih =>
    intro s h hs hw
    rw [List.length_append, List.length_singleton, Function.iterate_succ_apply,
      Undo_concat s (h ++ t) a (by rw [hs, List.append_assoc]) hw]
    refine (ih { s with mActionHistory := h ++ t, mActionFuture := s.mActionFuture ++ [a],
                        trace := s.trace ++ [Event.reverse a] } h rfl hw).trans ?_
    simp

/-- Redoing as many times as the list `l` is long, when the future ends in the reverse of
`l`: the entries of `l` move back to the history in the order of `l` and are executed in that
order. -/
theorem iterate_Redo (l : List Action) :
    ∀ (s : ManagerState) (f : List Action), s.mActionFuture = f ++ l.reverse →
      s.wantTextInput = false →
      Nat.iterate Redo l.length s =
        { s with mActionFuture := f, mActionHistory := s.mActionHistory ++ l,
                 trace := s.trace ++ l.map Event.execute } := by
  induction l with
  | nil =>
    intro s f hs _
    simp only [List.reverse_nil, List.append_nil] at hs
    simp [← hs]
  | cons a t ih =>
    intro s f hs hw
    rw [List.length_cons, Function.iterate_succ_apply,
      Redo_concat s (f ++ t.reverse) a (by rw [hs, List.reverse_cons, List.append_assoc]) hw]
    refine (ih { s with mActionFuture := f ++ t.reverse,
                        mActionHistory := s.mActionHistory ++ [a],
                        trace := s.trace ++ [Event.execute a] } f rfl hw).trans ?_
    simp

/-- C6: without text-input focus and with `k` at most the history length, `k` calls of `Undo`
followed by `k` calls of `Redo` give back the same history and the same future; in between,
`Reverse` has been called on the `k` most recent actions newest-first and then `Execute` on
the same actions oldest-first, and nothing else has been called. -/
theorem C6_undo_redo_roundtrip (s : ManagerState) (k : Nat)
    (hw : s.wantTextInput = false) (hk : k ≤ s.mActionHistory.length) :
    Nat.iterate Redo k (Nat.iterate Undo k s) =
      { s with trace := s.trace ++ (lastN k s.mActionHistory).reverse.map Event.reverse ++
                          (lastN k s.mActionHistory).map Event.execute } := by
  have hlen : (lastN k s.mActionHistory).length = k := by
    rw [lastN_length]; omega
  have hsplit : s.mActionHistory =
      s.mActionHistory.take (s.mActionHistory.length - k) ++ lastN k s.mActionHistory :=
    (List.take_append_drop _ _).symm
  have hu := iterate_Undo (lastN k s.mActionHistory) s _ hsplit hw
  rw [hlen] at hu
  rw [hu]
  have hr := iterate_Redo (lastN k s.mActionHistory)
    { s with mActionHistory := s.mActionHistory.take (s.mActionHistory.length - k),
             mActionFuture := s.mActionFuture ++ (lastN k s.mActionHistory).reverse,
             trace := s.trace ++ (lastN k s.mActionHistory).reverse.map Event.reverse }
    s.mActionFuture rfl hw
  rw [hlen] at hr
  rw [hr]
  simp only [← hsplit]

/-- Witness of C6: two undos and two redos on history `[1, 2, 3]`, future `[9]`. -/
theorem C6_undo_redo_roundtrip_witness :
    Nat.iterate Redo 2 (Nat.iterate Undo 2 ⟨[1, 2, 3], [9], false, false, []⟩) =
      { (⟨[1, 2, 3], [9], false, false, []⟩ : ManagerState) with
        trace := [] ++ (lastN 2 [1, 2, 3]).reverse.map Event.reverse ++
                   (lastN 2 [1, 2, 3]).map Event.execute } :=
  C6_undo_redo_roundtrip ⟨[1, 2, 3], [9], false, false, []⟩ 2 rfl (by decide)

/-- C7: while playing in editor, a run of `ExecuteAction` calls on actions that are in neither
stack succeeds and leaves history and future (and the flags) as they were; the only events are
one `Execute` followed by one `delete` for each action, in call order, so each action is
deleted before its `ExecuteAction` call returns. -/
theorem C7_play_mode_bypass (as : List Action) (s : ManagerState)
    (hp : s.playingInEditor = true)
    (hfresh : ∀ a ∈ as, a ∉ s.mActionHistory ∧ a ∉ s.mActionFuture) :
    executeActions s as = some { s with trace := s.trace ++ playTrace as } := by
  induction as generalizing s with
  | nil => simp [executeActions, playTrace]
  | cons a t ih =>
    have ha := hfresh a (List.mem_cons_self a t)
    simp only [executeActions, ExecuteAction_playing s a hp ha.1 ha.2, Option.some_bind]
    refine (ih { s with trace := s.trace ++ [Event.execute a] ++ [Event.delete a] } hp
      (fun b hb => hfresh b (List.mem_cons_of_mem a hb))).trans ?_
    simp [playTrace]

/-- Witness of C7: two actions executed while playing in editor with history `[1]` and
future `[2]`. -/
theorem C7_play_mode_bypass_witness :
    executeActions ⟨[1], [2], true, false, []⟩ [5, 6] =
      some { (⟨[1], [2], true, false, []⟩ : ManagerState) with
             trace := [] ++ playTrace [5, 6] } :=
  C7_play_mode_bypass [5, 6] ⟨[1], [2], true, false, []⟩ rfl (by decide)

/-! ## Theorems, part 2: the actions on the scene tree -/

/-- C8 (fails for siblings listed in descending child-index order): in the example world node
`1` has the children `[2, 3, 4]`. Deleting the siblings `[3, 2]` and undoing the deletion
succeeds but leaves node `1` with the children `[2, 4, 3]`: node `3`, recorded at child
index 1, ends at child index 2, and node `4` has moved from index 2 to index 1. The same
nodes listed as `[2, 3]` are restored exactly. -/
theorem C8_delete_undo_descending_siblings :
    exampleWorld.mChildren 1 = [2, 3, 4] ∧
    FindChildIndex exampleWorld 1 3 = 1 ∧
    (ActionDeleteNodes.new exampleWorld [3, 2]).map (fun a => (a.mNodes, a.mChildIndices))
      = some ([3, 2], [1, 0]) ∧
    (deleteThenUndo exampleEngine [3, 2]).map
        (fun e => (e.world.mChildren 1, FindChildIndex e.world 1 3, e.mExiledNodes))
      = some ([2, 4, 3], 2, []) ∧
    (deleteThenUndo exampleEngine [2, 3]).map
        (fun e => (e.world.mChildren 1, FindChildIndex e.world 1 3, e.mExiledNodes))
      = some ([2, 3, 4], 1, []) := by
  decide

/-- After `Detach` the node has no parent. -/
theorem Detach_mParent_self (w : World) (n : Node) : (Detach w n).mParent n = none := by
  unfold Detach
  cases h : w.mParent n with
  | none => simpa using h
  | some p => simp [setField]

/-- Function `Detach` changes the parent of no other node. -/
theorem Detach_mParent_of_ne (w : World) (n m : Node) (h : m ≠ n) :
    (Detach w n).mParent m = w.mParent m := by
  unfold Detach
  cases w.mParent n with
  | none => rfl
  | some p => simp [setField, h]

/-- Function `Detach` leaves the root of the world alone. -/
theorem Detach_mRootNode (w : World) (n : Node) : (Detach w n).mRootNode = w.mRootNode := by
  unfold Detach
  cases w.mParent n <;> rfl

/-- Function `ExileNode` on a node that is not exiled and has no parent: the node is appended to the
exile list, the world and the play-in-editor flag stay as they are. -/
theorem ExileNode_ok (e : Engine) (n : Node) (hex : n ∉ e.mExiledNodes)
    (hpar : e.world.mParent n = none) :
    ∃ e1, ExileNode e n = some e1 ∧ e1.world = e.world ∧
      e1.mExiledNodes = e.mExiledNodes ++ [n] ∧ e1.playingInEditor = e.playingInEditor := by
  unfold ExileNode
  rw [if_neg hex]
  simp only [GetParent, hpar, ne_eq, not_true_eq_false, if_false]
  refine ⟨_, rfl, ?_, ?_, ?_⟩
  · split <;> split <;> rfl
  · split <;> split <;> rfl
  · split <;> split <;> rfl

/-- Second loop of `ActionSpawnNodes::Reverse`, run on pairwise distinct nodes with their
current parents as recorded parents. -/
theorem spawn_reverseLoop_spec (size : Nat) (ns : List Node) :
    ∀ e : Engine, ns.Nodup → (∀ n ∈ ns, n ∉ e.mExiledNodes) →
      (∀ n ∈ ns, (e.world.mParent n).isSome ∨ (size = 1 ∧ e.world.mRootNode = some n)) →
      (∀ r, e.world.mRootNode = some r → e.world.mParent r = none) →
      ∃ e1, ActionSpawnNodes.reverseLoop size ns (ns.map e.world.mParent) e = some e1 ∧
        e1.mExiledNodes = e.mExiledNodes ++ ns ∧
        (∀ n ∈ ns, e1.world.mParent n = none) ∧
        (∀ m, m ∉ ns → e1.world.mParent m = e.world.mParent m) ∧
        (e1.world.mRootNode = e.world.mRootNode ∨ e1.world.mRootNode = none) ∧
        (∀ n ∈ ns, e1.world.mRootNode ≠ some n) := by
  induction ns with
  | nil =>
    intro e _ _ _ _
    exact ⟨e, by simp [ActionSpawnNodes.reverseLoop], by simp, by simp, fun _ _ => rfl,
      Or.inl rfl, by simp⟩
  | cons n ns ih =>
    intro e hnd hex hpar hroot
    have hn : n ∉ ns := (List.nodup_cons.mp hnd).1
    have hnd1 : ns.Nodup := (List.nodup_cons.mp hnd).2
    have hne : ∀ m ∈ ns, m ≠ n := fun m hm h => hn (h ▸ hm)
    cases hp : e.world.mParent n with
    | some p =>
      obtain ⟨e1, hex1, hw1, hx1, _⟩ :=
        ExileNode_ok { e with world := Detach e.world n } n
          (hex n (List.mem_cons_self n ns)) (Detach_mParent_self e.world n)
      simp only at hw1 hx1
      have hpar1 : ∀ m, m ≠ n → e1.world.mParent m = e.world.mParent m := by
        intro m hm; rw [hw1]; exact Detach_mParent_of_ne e.world n m hm
      have hroot1 : e1.world.mRootNode = e.world.mRootNode := by
        rw [hw1]; exact Detach_mRootNode e.world n
      have hmap : ns.map e.world.mParent = ns.map e1.world.mParent :=
        List.map_congr_left (fun m hm => (hpar1 m (hne m hm)).symm)
      obtain ⟨e2, hrun, hx2, hnone, hframe, hr2, hnr⟩ := ih e1 hnd1
        (by
          intro m hm
          rw [hx1]
          simp only [List.mem_append, List.mem_singleton, not_or]
          exact ⟨hex m (List.mem_cons_of_mem n hm), hne m hm⟩)
        (by
          intro m hm
          rw [hpar1 m (hne m hm), hroot1]
          exact hpar m (List.mem_cons_of_mem n hm))
        (by
          intro r hr
          rw [hroot1] at hr
          by_cases hrn : r = n
          · rw [hrn, hw1]; exact Detach_mParent_self e.world n
          · rw [hpar1 r hrn]; exact hroot r hr)
      refine ⟨e2, ?_, ?_, ?_, ?_, ?_, ?_⟩
      · simp only [List.map_cons, hp, ActionSpawnNodes.reverseLoop, hex1, Option.some_bind,
          hmap, hrun]
      · rw [hx2, hx1]; simp
      · intro m hm
        rcases List.mem_cons.mp hm with h | h
        · rw [h, hframe n hn, hw1]; exact Detach_mParent_self e.world n
        · exact hnone m h
      · intro m hm
        simp only [List.mem_cons, not_or] at hm
        rw [hframe m hm.2, hpar1 m hm.1]
      · rw [← hroot1]; exact hr2
      · intro m hm
        rcases List.mem_cons.mp hm with h | h
        · rcases hr2 with h2 | h2
          · rw [h2, hroot1, h]
            intro hc
            have := hroot n hc
            rw [hp] at this
            cases this
          · rw [h2]; simp
        · exact hnr m h
    | none =>
      have hsr : size = 1 ∧ e.world.mRootNode = some n := by
        rcases hpar n (List.mem_cons_self n ns) with h | h
        · rw [hp] at h; simp at h
        · exact h
      have hs1 : size = 1 := hsr.1
      subst hs1
      obtain ⟨e1, hex1, hw1, hx1, _⟩ :=
        ExileNode_ok { e with world := SetRootNode e.world none } n
          (hex n (List.mem_cons_self n ns)) (by simpa [SetRootNode] using hp)
      simp only at hw1 hx1
      have hpar1 : ∀ m, e1.world.mParent m = e.world.mParent m := by
        intro m; rw [hw1]; rfl
      have hroot1 : e1.world.mRootNode = none := by rw [hw1]; rfl
      have hmap : ns.map e.world.mParent = ns.map e1.world.mParent :=
        List.map_congr_left (fun m _ => (hpar1 m).symm)
      obtain ⟨e2, hrun, hx2, hnone, hframe, hr2, hnr⟩ := ih e1 hnd1
        (by
          intro m hm
          rw [hx1]
          simp only [List.mem_append, List.mem_singleton, not_or]
          exact ⟨hex m (List.mem_cons_of_mem n hm), hne m hm⟩)
        (by
          intro m hm
          rw [hpar1 m]
          rcases hpar m (List.mem_cons_of_mem n hm) with h | h
          · exact Or.inl h
          · have : some n = some m := hsr.2.symm.trans h.2
            exact absurd (Option.some.inj this).symm (hne m hm))
        (by intro r hr; rw [hroot1] at hr; cases hr)
      have hr2none : e2.world.mRootNode = none := by
        rcases hr2 with h | h
        · rw [h, hroot1]
        · exact h
      refine ⟨e2, ?_, ?_, ?_, ?_, Or.inr hr2none, ?_⟩
      · simp only [List.map_cons, hp, ActionSpawnNodes.reverseLoop, hsr.2, ne_eq,
          not_true_eq_false, if_false, hex1, Option.some_bind, hmap, hrun]
      · rw [hx2, hx1]; simp
      · intro m hm
        rcases List.mem_cons.mp hm with h | h
        · rw [h, hframe n hn, hpar1 n]; exact hp
        · exact hnone m h
      · intro m hm
        simp only [List.mem_cons, not_or] at hm
        rw [hframe m hm.2, hpar1 m]
      · intro m _
        rw [hr2none]; simp

/-- C9: take an `ActionSpawnNodes` whose spawned nodes are pairwise distinct and not exiled,
each of which has a parent or is the only spawned node and the world root, in a world whose
root has no parent, and whose recorded parents are either still empty (first `Reverse`) or
the nodes' current parents. Then `Reverse` succeeds, every spawned node has no parent and is
not the world root afterwards, the exile list is the previous one followed by the spawned
nodes in order, and the parent of every other node is unchanged. -/
theorem C9_spawn_reverse (a : ActionSpawnNodes) (e : Engine)
    (hnd : a.mNodes.Nodup)
    (hrec : a.mParents = [] ∨ a.mParents = a.mNodes.map (GetParent e.world))
    (hlink : a.mParents = [] → a.mParentLinkedScenes = [])
    (hex : ∀ n ∈ a.mNodes, n ∉ e.mExiledNodes)
    (hpar : ∀ n ∈ a.mNodes,
      (GetParent e.world n).isSome ∨ (a.mNodes = [n] ∧ e.world.mRootNode = some n))
    (hroot : ∀ r, e.world.mRootNode = some r → GetParent e.world r = none) :
    ∃ a1 e1, a.Reverse e = some (a1, e1) ∧ a1.mNodes = a.mNodes ∧
      (∀ n ∈ a.mNodes, GetParent e1.world n = none ∧ e1.world.mRootNode ≠ some n) ∧
      e1.mExiledNodes = e.mExiledNodes ++ a.mNodes ∧
      (∀ m, m ∉ a.mNodes → GetParent e1.world m = GetParent e.world m) := by
  obtain ⟨e1, hrun, hx, hnone, hframe, _, hnr⟩ :=
    spawn_reverseLoop_spec a.mNodes.length a.mNodes e hnd hex
      (by
        intro n hn
        rcases hpar n hn with h | h
        · exact Or.inl h
        · exact Or.inr ⟨by rw [h.1]; rfl, h.2⟩)
      hroot
  have hmapeq : a.mNodes.map e.world.mParent = a.mNodes.map (GetParent e.world) := rfl
  by_cases h0 : a.mParents = []
  · refine ⟨{ a with mParents := a.mNodes.map (GetParent e.world),
                     mParentLinkedScenes := a.mNodes.map (parentLinkedScene e.world) },
      e1, ?_, rfl, fun n hn => ⟨hnone n hn, hnr n hn⟩, hx, hframe⟩
    simp only [ActionSpawnNodes.Reverse, h0, hlink h0, List.length_nil, ne_eq,
      not_true_eq_false, if_true, if_false, Option.some_bind]
    rw [← hmapeq, hrun]
    rfl
  · have hm : a.mParents = a.mNodes.map (GetParent e.world) := by
      rcases hrec with h | h
      · exact absurd h h0
      · exact h
    have hlen : a.mParents.length ≠ 0 := fun h => h0 (List.length_eq_zero.mp h)
    refine ⟨a, e1, ?_, rfl, fun n hn => ⟨hnone n hn, hnr n hn⟩, hx, hframe⟩
    simp only [ActionSpawnNodes.Reverse, if_neg hlen, Option.some_bind]
    rw [hm, ← hmapeq, hrun]
    rfl

/-- Witness of C9: the first `Reverse` of the example spawn action (nodes `3` and `4`, both
children of node `1`) in the example state. -/
theorem C9_spawn_reverse_witness :
    ∃ a1 e1, exampleSpawn.Reverse exampleEngine = some (a1, e1) ∧
      a1.mNodes = exampleSpawn.mNodes ∧
      (∀ n ∈ exampleSpawn.mNodes,
        GetParent e1.world n = none ∧ e1.world.mRootNode ≠ some n) ∧
      e1.mExiledNodes = exampleEngine.mExiledNodes ++ exampleSpawn.mNodes ∧
      (∀ m, m ∉ exampleSpawn.mNodes →
        GetParent e1.world m = GetParent exampleEngine.world m) :=
  C9_spawn_reverse exampleSpawn exampleEngine (by decide) (Or.inl rfl) (fun _ => rfl)
    (by decide) (by decide)
    (by
      intro r hr
      have h0 : r = 0 := by
        simp only [exampleEngine, exampleWorld, Option.some.injEq] at hr
        exact hr.symm
      rw [h0]
      rfl)

/-! ## Theorems, part 3: property edits -/

/-- The property found by name carries that name. -/
theorem FindProp_name {V : Type} (props : List (Property V)) (name : String) (p : Property V)
    (h : FindProp props name = some p) : (p.mName == name) = true := by
  unfold FindProp at h
  exact @List.find?_some _ (fun p => p.mName == name) p props h

/-- After the found property has been changed into `q`, which keeps the name, `FindProp`
returns `q`. -/
theorem FindProp_replaceProp {V : Type} (props : List (Property V)) (name : String)
    (p q : Property V) (h : FindProp props name = some p) (hq : (q.mName == name) = true) :
    FindProp (replaceProp props name q) name = some q := by
  induction props with
  | nil => simp [FindProp] at h
  | cons x xs ih =>
    unfold FindProp at h ih ⊢
    by_cases hx : (x.mName == name) = true
    · simp [replaceProp, hx, List.find?_cons, hq]
    · simp only [Bool.not_eq_true] at hx
      simp only [List.find?_cons, hx] at h
      simp only [replaceProp, hx, Bool.false_eq_true, if_false, List.find?_cons]
      exact ih h

/-- What the action finds after it has changed the found property into `q`: for an action
`b` with the same owner and property name, it is `q`. -/
theorem found_commit {V : Type} (a b : ActionEditProperty V) (st : PropertyStore V)
    (p q : Property V) (h : a.found st = some p) (hq : q.mName = p.mName)
    (h1 : b.mOwner = a.mOwner) (h2 : b.mOwnerType = a.mOwnerType)
    (h3 : b.mPropertyName = a.mPropertyName) (h4 : b.mReferencedAsset = a.mReferencedAsset) :
    b.found (a.commit st q) = some q := by
  unfold ActionEditProperty.found at h ⊢
  have hn : (q.mName == a.mPropertyName) = true := by
    rw [hq]; exact FindProp_name _ _ _ h
  unfold ActionEditProperty.GatherProps at h ⊢
  unfold ActionEditProperty.commit
  rw [h1, h2, h3, h4]
  cases hot : a.mOwnerType with
  | Node =>
    rw [hot] at h
    simp only at h ⊢
    rw [if_pos trivial]
    exact FindProp_replaceProp _ _ p q h hn
  | Asset =>
    rw [hot] at h
    cases hra : a.mReferencedAsset with
    | none => rw [hra] at h; simp [FindProp] at h
    | some asset =>
      rw [hra] at h
      simp only at h ⊢
      rw [if_pos trivial]
      exact FindProp_replaceProp _ _ p q h hn
  | Global =>
    rw [hot] at h
    simp only at h ⊢
    exact FindProp_replaceProp _ _ p q h hn

/-- The body of `Execute` changes neither the owner nor the property name of the action,
nor the name of the property. -/
theorem executeOn_frame {V : Type} (a : ActionEditProperty V) (prop : Property V) :
    (a.executeOn prop).1.mOwner = a.mOwner ∧
    (a.executeOn prop).1.mOwnerType = a.mOwnerType ∧
    (a.executeOn prop).1.mPropertyName = a.mPropertyName ∧
    (a.executeOn prop).1.mReferencedAsset = a.mReferencedAsset ∧
    (a.executeOn prop).1.mValue = a.mValue ∧
    (a.executeOn prop).2.mName = prop.mName := by
  unfold ActionEditProperty.executeOn
  simp only
  split <;> split <;> simp [Property.SetValue, Property.SetCount]

/-- After `Execute` on a store in which the property is found, the action finds the property
that the body of `Execute` has produced. -/
theorem Execute_found {V : Type} (a : ActionEditProperty V) (st : PropertyStore V)
    (prop : Property V) (h : a.found st = some prop) :
    a.Execute st = ((a.executeOn prop).1, a.commit st (a.executeOn prop).2) ∧
    (a.Execute st).1.found (a.Execute st).2 = some (a.executeOn prop).2 := by
  have hex : a.Execute st = ((a.executeOn prop).1, a.commit st (a.executeOn prop).2) := by
    unfold ActionEditProperty.found at h
    simp only [ActionEditProperty.Execute, h]
  obtain ⟨f1, f2, f3, f4, _, f6⟩ := executeOn_frame a prop
  refine ⟨hex, ?_⟩
  rw [hex]
  exact found_commit a _ st prop _ h f6 f1 f2 f3 f4

/-- Growing a property by one slot appends the new-slot value. -/
theorem SetCount_succ {V : Type} (p : Property V) :
    (p.SetCount (p.GetCount + 1)).mValues = p.mValues ++ [p.mNewSlot] := by
  simp [Property.SetCount, Property.GetCount, List.take_append_eq_append_take]

/-- The body of `Execute` in the append case: a vector property that is not external, an index
not below the count `c`, and `c + 1` representable. The index becomes `c`, the recorded
previous value is the new-slot value, and the new value is appended. -/
theorem executeOn_append {V : Type} (a : ActionEditProperty V) (prop : Property V)
    (hv : prop.IsVector = true) (he : prop.IsExternal = false)
    (hi : prop.GetCount ≤ a.mIndex) (hc : prop.GetCount + 1 < 2 ^ 32) :
    (a.executeOn prop).1 =
      { a with mIndex := prop.GetCount, mPreviousValue := some prop.mNewSlot } ∧
    (a.executeOn prop).2 = { prop with mValues := prop.mValues ++ [a.mValue] } := by
  have hmod : (prop.GetCount + 1) % 2 ^ 32 = prop.GetCount + 1 := Nat.mod_eq_of_lt hc
  have hvals := SetCount_succ prop
  have hlen : (prop.SetCount (prop.GetCount + 1)).GetCount = prop.GetCount + 1 := by
    unfold Property.GetCount at hvals ⊢
    rw [hvals]; simp
  have hg : (prop.IsVector && !prop.IsExternal && decide (a.mIndex ≥ prop.GetCount)) = true := by
    simp [hv, he, hi]
  have hlt : prop.GetCount < (prop.SetCount (prop.GetCount + 1)).GetCount := by
    rw [hlen]; exact Nat.lt_succ_self _
  have hget : (prop.SetCount (prop.GetCount + 1)).GetValue prop.GetCount
      = some prop.mNewSlot := by
    unfold Property.GetValue
    rw [hvals]
    simp [Property.GetCount]
  have hset : (prop.SetCount (prop.GetCount + 1)).SetValue a.mValue prop.GetCount
      = { prop with mValues := prop.mValues ++ [a.mValue] } := by
    unfold Property.SetValue
    rw [hvals]
    simp [Property.GetCount, Property.SetCount]
  unfold ActionEditProperty.executeOn
  simp only [hg, if_true, hmod]
  rw [if_pos hlt]
  exact ⟨by rw [hget], hset⟩

/-- The body of `Execute` when the property does not grow and the index is below the count:
the value at the index is recorded and replaced. -/
theorem executeOn_inRange {V : Type} (a : ActionEditProperty V) (prop : Property V)
    (hi : a.mIndex < prop.GetCount) :
    (a.executeOn prop).1 = { a with mPreviousValue := prop.GetValue a.mIndex } ∧
    (a.executeOn prop).2 = prop.SetValue a.mValue a.mIndex := by
  have hng : decide (a.mIndex ≥ prop.GetCount) = false := by
    simp only [ge_iff_le, decide_eq_false_iff_not, not_le]; exact hi
  unfold ActionEditProperty.executeOn
  simp [hng, hi]

/-- The body of `Execute` when the property does not grow and the index is not below the
count: nothing changes. -/
theorem executeOn_outOfRange {V : Type} (a : ActionEditProperty V) (prop : Property V)
    (hg : (prop.IsVector && !prop.IsExternal) = false) (hi : prop.GetCount ≤ a.mIndex) :
    a.executeOn prop = (a, prop) := by
  unfold ActionEditProperty.executeOn
  simp [hg, Nat.not_lt.mpr hi]

/-- Result of `Reverse` on a store in which the property is found. -/
theorem Reverse_found {V : Type} (a : ActionEditProperty V) (st : PropertyStore V)
    (prop : Property V) (h : a.found st = some prop) :
    a.Reverse st =
      if prop.GetCount > a.mIndex then
        (a.mPreviousValue.map (fun v => a.commit st (prop.SetValue v a.mIndex)))
      else some st := by
  unfold ActionEditProperty.found at h
  simp only [ActionEditProperty.Reverse, h]
  split
  · cases a.mPreviousValue <;> rfl
  · rfl

/-- C11: for a found vector property that is not external and has count `c` (with `c + 1`
representable as `uint32_t`), `Execute` with index `c` and value `v` leaves the property with
count `c + 1`, with `v` at index `c`, and with the values at the indices below `c`
unchanged. -/
theorem C11_append_grows {V : Type} (a : ActionEditProperty V) (st : PropertyStore V)
    (prop : Property V) (hf : a.found st = some prop)
    (hv : prop.IsVector = true) (he : prop.IsExternal = false)
    (hi : a.mIndex = prop.GetCount) (hc : prop.GetCount + 1 < 2 ^ 32) :
    ∃ prop1, (a.Execute st).1.found (a.Execute st).2 = some prop1 ∧
      prop1.GetCount = prop.GetCount + 1 ∧
      prop1.GetValue prop.GetCount = some a.mValue ∧
      ∀ i, i < prop.GetCount → prop1.GetValue i = prop.GetValue i := by
  obtain ⟨_, hfound⟩ := Execute_found a st prop hf
  obtain ⟨_, h2⟩ := executeOn_append a prop hv he (le_of_eq hi.symm) hc
  refine ⟨_, hfound, ?_, ?_, ?_⟩
  · rw [h2]; simp [Property.GetCount]
  · rw [h2]; simp [Property.GetValue, Property.GetCount]
  · intro i hlt
    rw [h2]
    unfold Property.GetCount at hlt
    simp [Property.GetValue, List.getElem?_append_left hlt]

/-- Witness of C11: the example edit (index 2, value 9) on the example property `[5, 6]`. -/
theorem C11_append_grows_witness :
    ∃ prop1, (exampleEdit.Execute exampleStore).1.found (exampleEdit.Execute exampleStore).2
        = some prop1 ∧
      prop1.GetCount = exampleProperty.GetCount + 1 ∧
      prop1.GetValue exampleProperty.GetCount = some exampleEdit.mValue ∧
      ∀ i, i < exampleProperty.GetCount → prop1.GetValue i = exampleProperty.GetValue i :=
  C11_append_grows exampleEdit exampleStore exampleProperty (by decide) rfl rfl rfl
    (by decide)

/-- Re-running the body of `Execute` after the body of `Reverse`: with `a1`, `p1` the action
and property after a first run on `prop`, either the count of `p1` is above the index of `a1`,
a previous value `v` is recorded, and running the body on `p1` with `v` written back gives
`p1` again; or the count is not above the index and running the body on `p1` gives `p1`. -/
theorem executeOn_again {V : Type} (a : ActionEditProperty V) (prop : Property V)
    (hc : prop.GetCount + 1 < 2 ^ 32) :
    ((a.executeOn prop).2.GetCount > (a.executeOn prop).1.mIndex ∧
      ∃ v, (a.executeOn prop).1.mPreviousValue = some v ∧
        ((a.executeOn prop).1.executeOn
          ((a.executeOn prop).2.SetValue v (a.executeOn prop).1.mIndex)).2
          = (a.executeOn prop).2) ∨
    (¬ (a.executeOn prop).2.GetCount > (a.executeOn prop).1.mIndex ∧
      ((a.executeOn prop).1.executeOn (a.executeOn prop).2).2 = (a.executeOn prop).2) := by
  by_cases hlt : a.mIndex < prop.GetCount
  · obtain ⟨h1, h2⟩ := executeOn_inRange a prop hlt
    obtain ⟨old, hold⟩ : ∃ old, prop.GetValue a.mIndex = some old := by
      unfold Property.GetValue
      unfold Property.GetCount at hlt
      exact ⟨prop.mValues[a.mIndex], List.getElem?_eq_getElem hlt⟩
    left
    rw [h1, h2]
    refine ⟨by simpa [Property.SetValue, Property.GetCount] using hlt, old, hold, ?_⟩
    have hlt2 : a.mIndex < ((prop.SetValue a.mValue a.mIndex).SetValue old a.mIndex).GetCount := by
      simpa [Property.SetValue, Property.GetCount] using hlt
    have h3 := (executeOn_inRange { a with mPreviousValue := prop.GetValue a.mIndex }
      ((prop.SetValue a.mValue a.mIndex).SetValue old a.mIndex) hlt2).2
    rw [h3]
    simp [Property.SetValue]
  · have hge : prop.GetCount ≤ a.mIndex := Nat.le_of_not_lt hlt
    by_cases hg : (prop.IsVector && !prop.IsExternal) = true
    · have hv : prop.IsVector = true := by
        simp only [Bool.and_eq_true] at hg; exact hg.1
      have he : prop.IsExternal = false := by
        simp only [Bool.and_eq_true, Bool.not_eq_true'] at hg; exact hg.2
      obtain ⟨h1, h2⟩ := executeOn_append a prop hv he hge hc
      left
      rw [h1, h2]
      refine ⟨by simp [Property.GetCount], prop.mNewSlot, rfl, ?_⟩
      have hlt2 : prop.GetCount <
          (({ prop with mValues := prop.mValues ++ [a.mValue] } : Property V).SetValue
            prop.mNewSlot prop.GetCount).GetCount := by
        simp [Property.SetValue, Property.GetCount]
      have h3 := (executeOn_inRange
        { a with mIndex := prop.GetCount, mPreviousValue := some prop.mNewSlot }
        (({ prop with mValues := prop.mValues ++ [a.mValue] } : Property V).SetValue
            prop.mNewSlot prop.GetCount) hlt2).2
      rw [h3]
      simp [Property.SetValue, Property.GetCount]
    · have hg2 : (prop.IsVector && !prop.IsExternal) = false := by
        simpa using hg
      have h1 := executeOn_outOfRange a prop hg2 hge
      right
      rw [h1]
      exact ⟨hlt, by rw [h1]⟩

/-- C12: for an `ActionEditProperty` whose property is found with count `c`: (1) whenever
`Reverse` returns, the property is still found and its count is the same; (2) `Reverse`
returns whenever a previous value is recorded; (3) when the count is not greater than the
action's index, `Reverse` returns the store unchanged; (4) after `Execute` of an append
(index `c` on a vector property that is not external, `c + 1` representable) followed by
`Reverse`, the count is `c + 1`, the value at index `c` is the one the slot held right after
the growth, and the values below `c` are unchanged. -/
theorem C12_reverse_keeps_count {V : Type} (a : ActionEditProperty V) (st : PropertyStore V)
    (prop : Property V) (hf : a.found st = some prop) :
    (∀ st1, a.Reverse st = some st1 →
      ∃ prop1, a.found st1 = some prop1 ∧ prop1.GetCount = prop.GetCount) ∧
    (a.mPreviousValue.isSome = true → ∃ st1, a.Reverse st = some st1) ∧
    (prop.GetCount ≤ a.mIndex → a.Reverse st = some st) ∧
    (prop.IsVector = true → prop.IsExternal = false → a.mIndex = prop.GetCount →
      prop.GetCount + 1 < 2 ^ 32 →
      ∃ st2 prop2, (a.Execute st).1.Reverse (a.Execute st).2 = some st2 ∧
        (a.Execute st).1.found st2 = some prop2 ∧
        prop2.GetCount = prop.GetCount + 1 ∧
        prop2.GetValue prop.GetCount =
          (prop.SetCount (prop.GetCount + 1)).GetValue prop.GetCount ∧
        ∀ i, i < prop.GetCount → prop2.GetValue i = prop.GetValue i) := by
  have hrev := Reverse_found a st prop hf
  refine ⟨?_, ?_, ?_, ?_⟩
  · intro st1 h1
    rw [hrev] at h1
    by_cases hgt : prop.GetCount > a.mIndex
    · rw [if_pos hgt] at h1
      cases hp : a.mPreviousValue with
      | none => rw [hp] at h1; simp at h1
      | some v =>
        rw [hp] at h1
        simp only [Option.map_some', Option.some.injEq] at h1
        refine ⟨prop.SetValue v a.mIndex, ?_, by simp [Property.SetValue, Property.GetCount]⟩
        rw [← h1]
        exact found_commit a a st prop _ hf rfl rfl rfl rfl rfl
    · rw [if_neg hgt] at h1
      cases h1
      exact ⟨prop, hf, rfl⟩
  · intro hsome
    rw [hrev]
    obtain ⟨v, hv⟩ := Option.isSome_iff_exists.mp hsome
    split
    · exact ⟨_, by rw [hv]; rfl⟩
    · exact ⟨st, rfl⟩
  · intro hle
    rw [hrev, if_neg (Nat.not_lt.mpr hle)]
  · intro hv he hi hc
    obtain ⟨hex, hfound⟩ := Execute_found a st prop hf
    obtain ⟨h1, h2⟩ := executeOn_append a prop hv he (le_of_eq hi.symm) hc
    have hrev1 := Reverse_found _ _ _ hfound
    have hidx : (a.Execute st).1.mIndex = prop.GetCount := by rw [hex, h1]
    have hprev : (a.Execute st).1.mPreviousValue = some prop.mNewSlot := by rw [hex, h1]
    have hcnt : (a.executeOn prop).2.GetCount = prop.GetCount + 1 := by
      rw [h2]; simp [Property.GetCount]
    rw [hidx, hprev, hcnt, if_pos (Nat.lt_succ_self _)] at hrev1
    simp only [Option.map_some'] at hrev1
    refine ⟨_, (a.executeOn prop).2.SetValue prop.mNewSlot prop.GetCount, hrev1, ?_, ?_, ?_, ?_⟩
    · exact found_commit _ _ _ _ _ hfound rfl rfl rfl rfl rfl
    · rw [h2]; simp [Property.SetValue, Property.GetCount]
    · rw [h2]
      simp only [Property.GetValue, SetCount_succ, Property.SetValue]
      simp [Property.GetCount]
    · intro i hlt
      rw [h2]
      unfold Property.GetCount at hlt ⊢
      simp only [Property.GetValue, Property.SetValue]
      rw [List.getElem?_set_ne (Nat.ne_of_gt hlt), List.getElem?_append_left hlt]

/-- Witness of C12: the example edit on the example store. Before `Execute` the count `2` is
not above the index `2`, so `Reverse` returns the store unchanged; after `Execute` (an
append) and `Reverse` the count is `3`. -/
theorem C12_reverse_keeps_count_witness :
    exampleEdit.Reverse exampleStore = some exampleStore ∧
    ∃ st2 prop2,
      (exampleEdit.Execute exampleStore).1.Reverse (exampleEdit.Execute exampleStore).2
        = some st2 ∧
      (exampleEdit.Execute exampleStore).1.found st2 = some prop2 ∧
      prop2.GetCount = exampleProperty.GetCount + 1 ∧
      prop2.GetValue exampleProperty.GetCount =
        (exampleProperty.SetCount (exampleProperty.GetCount + 1)).GetValue
          exampleProperty.GetCount ∧
      ∀ i, i < exampleProperty.GetCount → prop2.GetValue i = exampleProperty.GetValue i :=
  ⟨(C12_reverse_keeps_count exampleEdit exampleStore exampleProperty (by decide)).2.2.1
      (by decide),
   (C12_reverse_keeps_count exampleEdit exampleStore exampleProperty (by decide)).2.2.2
      rfl rfl rfl (by decide)⟩

/-- C13: for an `ActionEditProperty` whose property is found (its count plus one representable
as `uint32_t`), `Reverse` after `Execute` returns, and the property found after `Execute`,
`Reverse`, `Execute` is the one found after the first `Execute`: same count, same values. In
particular the second `Execute` does not grow the array again. -/
theorem C13_execute_reverse_execute {V : Type} (a : ActionEditProperty V)
    (st : PropertyStore V) (prop : Property V) (hf : a.found st = some prop)
    (hc : prop.GetCount + 1 < 2 ^ 32) :
    ∃ st2 prop1, (a.Execute st).1.Reverse (a.Execute st).2 = some st2 ∧
      (a.Execute st).1.found (a.Execute st).2 = some prop1 ∧
      ((a.Execute st).1.Execute st2).1.found ((a.Execute st).1.Execute st2).2 = some prop1 := by
  obtain ⟨hex, hfound⟩ := Execute_found a st prop hf
  rw [hex] at hfound ⊢
  simp only at hfound ⊢
  have hrev1 := Reverse_found _ _ _ hfound
  rcases executeOn_again a prop hc with ⟨hgt, v, hv, hagain⟩ | ⟨hngt, hagain⟩
  · rw [if_pos hgt, hv] at hrev1
    simp only [Option.map_some'] at hrev1
    refine ⟨_, (a.executeOn prop).2, hrev1, hfound, ?_⟩
    have hf2 : (a.executeOn prop).1.found
        ((a.executeOn prop).1.commit (a.commit st (a.executeOn prop).2)
          ((a.executeOn prop).2.SetValue v (a.executeOn prop).1.mIndex))
        = some ((a.executeOn prop).2.SetValue v (a.executeOn prop).1.mIndex) :=
      found_commit _ _ _ _ _ hfound rfl rfl rfl rfl rfl
    have := (Execute_found _ _ _ hf2).2
    rw [this, hagain]
  · rw [if_neg hngt] at hrev1
    refine ⟨_, (a.executeOn prop).2, hrev1, hfound, ?_⟩
    have := (Execute_found _ _ _ hfound).2
    rw [this, hagain]

/-- Witness of C13: the example edit (an append) on the example store. -/
theorem C13_execute_reverse_execute_witness :
    ∃ st2 prop1,
      (exampleEdit.Execute exampleStore).1.Reverse (exampleEdit.Execute exampleStore).2
        = some st2 ∧
      (exampleEdit.Execute exampleStore).1.found (exampleEdit.Execute exampleStore).2
        = some prop1 ∧
      ((exampleEdit.Execute exampleStore).1.Execute st2).1.found
        ((exampleEdit.Execute exampleStore).1.Execute st2).2 = some prop1 :=
  C13_execute_reverse_execute exampleEdit exampleStore exampleProperty (by decide)
    (by decide)

/-! ## Theorems, part 4: the exile list -/

/-- C14: `ExileNode(n)` fails when `n` is already in the exile list or has a parent. Otherwise
it succeeds; the exile list is the old one with `n` appended; the selection is emptied when
`n` was selected and is unchanged otherwise; the inspected object is cleared when it was `n`
and is unchanged otherwise; the world is unchanged. -/
theorem C14_exile_node (e : Engine) (n : Node) :
    ((n ∈ e.mExiledNodes ∨ GetParent e.world n ≠ none) → ExileNode e n = none) ∧
    (n ∉ e.mExiledNodes → GetParent e.world n = none →
      ∃ e1, ExileNode e n = some e1 ∧
        e1.mExiledNodes = e.mExiledNodes ++ [n] ∧
        e1.editor.mSelectedNodes =
          (if n ∈ e.editor.mSelectedNodes then [] else e.editor.mSelectedNodes) ∧
        e1.editor.mInspectedObject =
          (if e.editor.mInspectedObject = some n then none else e.editor.mInspectedObject) ∧
        e1.world = e.world) := by
  constructor
  · intro h
    unfold ExileNode
    by_cases hx : n ∈ e.mExiledNodes
    · rw [if_pos hx]
    · rw [if_neg hx]
      rcases h with h | h
      · exact absurd h hx
      · rw [if_pos h]
  · intro hx hp
    unfold ExileNode
    rw [if_neg hx, if_neg (by rw [hp]; simp)]
    refine ⟨_, rfl, ?_, ?_, ?_, ?_⟩
    · split <;> split <;> rfl
    · by_cases hs : n ∈ e.editor.mSelectedNodes
      · simp only [hs, if_true]; split <;> rfl
      · simp only [hs, if_false]; split <;> rfl
    · by_cases hs : n ∈ e.editor.mSelectedNodes
      · simp only [hs, if_true]; split <;> rfl
      · simp only [hs, if_false]; split <;> rfl
    · split <;> split <;> rfl

/-- Witness of C14: in the example state, exiling node `0` (the root, which has no parent)
succeeds, and exiling node `3`, which has parent `1`, fails. -/
theorem C14_exile_node_witness :
    (∃ e1, ExileNode exampleEngine 0 = some e1 ∧
        e1.mExiledNodes = exampleEngine.mExiledNodes ++ [0] ∧
        e1.editor.mSelectedNodes =
          (if 0 ∈ exampleEngine.editor.mSelectedNodes then []
           else exampleEngine.editor.mSelectedNodes) ∧
        e1.editor.mInspectedObject =
          (if exampleEngine.editor.mInspectedObject = some 0 then none
           else exampleEngine.editor.mInspectedObject) ∧
        e1.world = exampleEngine.world) ∧
    ExileNode exampleEngine 3 = none :=
  ⟨(C14_exile_node exampleEngine 0).2 (by decide) (by decide),
   (C14_exile_node exampleEngine 3).1 (Or.inr (by decide))⟩

/-- Erasing from a list that ends in its only occurrence of the element gives the rest. -/
theorem erase_append_singleton (l : List Node) (n : Node) (h : n ∉ l) :
    (l ++ [n]).erase n = l := by
  rw [List.erase_append_right _ h]
  simp

/-- C15: `RestoreExiledNode(n)` fails exactly when `n` is not in the exile list. When it
succeeds, the exile list was `l1 ++ n :: l2` with `n` not in `l1` and becomes `l1 ++ l2`,
and nothing else changes. Directly after a successful `ExileNode(n)` it succeeds and gives
back the exile list from before the exile. -/
theorem C15_restore_exiled_node (e : Engine) (n : Node) :
    (RestoreExiledNode e n = none ↔ n ∉ e.mExiledNodes) ∧
    (∀ e1, RestoreExiledNode e n = some e1 →
      (∃ l1 l2, e.mExiledNodes = l1 ++ n :: l2 ∧ n ∉ l1 ∧ e1.mExiledNodes = l1 ++ l2) ∧
      e1.world = e.world ∧ e1.editor = e.editor) ∧
    (∀ e1, ExileNode e n = some e1 →
      ∃ e2, RestoreExiledNode e1 n = some e2 ∧ e2.mExiledNodes = e.mExiledNodes) := by
  refine ⟨?_, ?_, ?_⟩
  · unfold RestoreExiledNode
    by_cases hx : n ∈ e.mExiledNodes
    · simp [hx]
    · simp [hx]
  · intro e1 h
    unfold RestoreExiledNode at h
    by_cases hx : n ∈ e.mExiledNodes
    · rw [if_pos hx] at h
      cases h
      refine ⟨?_, rfl, rfl⟩
      obtain ⟨l1, l2, hn, hsplit, herase⟩ := List.exists_erase_eq hx
      exact ⟨l1, l2, hsplit, hn, herase⟩
    · rw [if_neg hx] at h
      cases h
  · intro e1 h
    have hx : n ∉ e.mExiledNodes := by
      intro hx
      simp [ExileNode, hx] at h
    have hp : GetParent e.world n = none := by
      by_contra hp
      simp [ExileNode, hx, hp] at h
    obtain ⟨e1', h1, _, hx1, _⟩ := ExileNode_ok e n hx hp
    rw [h] at h1
    cases h1
    refine ⟨{ e1 with mExiledNodes := e1.mExiledNodes.erase n }, ?_, ?_⟩
    · simp [RestoreExiledNode, hx1]
    · simp only [hx1]
      exact erase_append_singleton _ _ hx

/-- Witness of C15: restoring node `7` from the exile list `[5, 7, 6, 7]` of an otherwise
example state removes the first `7` only. -/
theorem C15_restore_exiled_node_witness :
    (∃ l1 l2, ({ exampleEngine with mExiledNodes := [5, 7, 6, 7] } : Engine).mExiledNodes
        = l1 ++ 7 :: l2 ∧ 7 ∉ l1 ∧
      ({ exampleEngine with mExiledNodes := [5, 6, 7] } : Engine).mExiledNodes = l1 ++ l2) ∧
    ({ exampleEngine with mExiledNodes := [5, 6, 7] } : Engine).world
      = ({ exampleEngine with mExiledNodes := [5, 7, 6, 7] } : Engine).world ∧
    ({ exampleEngine with mExiledNodes := [5, 6, 7] } : Engine).editor
      = ({ exampleEngine with mExiledNodes := [5, 7, 6, 7] } : Engine).editor :=
  (C15_restore_exiled_node { exampleEngine with mExiledNodes := [5, 7, 6, 7] } 7).2.1
    { exampleEngine with mExiledNodes := [5, 6, 7] } rfl

/-! ## Theorems, part 5: reset, and the life of an action object -/

/-- Loop of `ResetUndoRedo` started at the last index: every exiled node is destructed, last
entry first, and the exile list ends empty. -/
theorem destructExiledLoop_all (ex : List Nat) :
    ∀ tr : List Event,
      destructExiledLoop ex.length ex tr = ([], tr ++ ex.reverse.map Event.destruct) := by
  induction ex using List.reverseRecOn with
  | nil => intro tr; simp [destructExiledLoop]
  | append_singleton l n ih =>
    intro tr
    have hget : (l ++ [n])[l.length]? = some n := by simp
    have herase : (l ++ [n]).eraseIdx l.length = l := by
      rw [List.eraseIdx_append_of_length_le (le_refl _)]
      simp
    rw [List.length_append, List.length_singleton]
    simp only [destructExiledLoop, hget, herase, ih]
    simp

/-- Result of `ResetUndoRedo` when the exile list has fewer than `2 ^ 31` entries. -/
theorem ResetUndoRedo_eq (s : ManagerState) (exiled : List Nat) (hlen : exiled.length < 2 ^ 31) :
    ResetUndoRedo s exiled =
      ({ s with mActionHistory := [], mActionFuture := [],
                trace := s.trace ++ resetEvents s.mActionHistory s.mActionFuture exiled },
       []) := by
  have hmod : exiled.length % 2 ^ 32 = exiled.length := Nat.mod_eq_of_lt (by omega)
  have h32 : toInt32 exiled.length = (exiled.length : Int) := by
    unfold toInt32
    rw [hmod, if_pos hlen]
  unfold ResetUndoRedo
  simp only [h32]
  cases hex : exiled with
  | nil =>
    simp [ClearActionFuture, ClearActionHistory, resetEvents]
  | cons x xs =>
    have hge : ((x :: xs).length : Int) - 1 ≥ 0 := by
      simp only [List.length_cons, Nat.cast_add, Nat.cast_one]; omega
    have hnat : (((x :: xs).length : Int) - 1).toNat + 1 = (x :: xs).length := by
      simp only [List.length_cons, Nat.cast_add, Nat.cast_one]; omega
    rw [if_pos hge, hnat, destructExiledLoop_all]
    simp [ClearActionFuture, ClearActionHistory, resetEvents]

/-- C16: for a manager whose stacks share no action and whose exile list holds fewer than
`2 ^ 31` pairwise distinct nodes, after `ResetUndoRedo` history, future and exile list are
empty; the events added are one `delete` per history entry, one per future entry, one
`Destruct` per exiled node in reverse insertion order (last exiled first), and last the
clearing of the inspect history; no event occurs twice among them, so every action of either
stack is deleted exactly once and every exiled node is destructed exactly once. -/
theorem C16_reset_undo_redo (s : ManagerState) (exiled : List Nat)
    (hlen : exiled.length < 2 ^ 31)
    (hnd : (s.mActionHistory ++ s.mActionFuture).Nodup) (hex : exiled.Nodup) :
    (ResetUndoRedo s exiled).1.mActionHistory = [] ∧
    (ResetUndoRedo s exiled).1.mActionFuture = [] ∧
    (ResetUndoRedo s exiled).2 = [] ∧
    (ResetUndoRedo s exiled).1.trace =
      s.trace ++ (s.mActionHistory.map Event.delete ++ s.mActionFuture.map Event.delete ++
        exiled.reverse.map Event.destruct ++ [Event.clearInspectHistory]) ∧
    (s.mActionHistory.map Event.delete ++ s.mActionFuture.map Event.delete ++
        exiled.reverse.map Event.destruct ++ [Event.clearInspectHistory]).Nodup ∧
    (∀ a ∈ s.mActionHistory ++ s.mActionFuture,
      Event.delete a ∈ (ResetUndoRedo s exiled).1.trace) ∧
    (∀ n ∈ exiled, Event.destruct n ∈ (ResetUndoRedo s exiled).1.trace) := by
  rw [ResetUndoRedo_eq s exiled hlen]
  refine ⟨rfl, rfl, rfl, rfl, ?_, ?_, ?_⟩
  · have h1 : ((s.mActionHistory ++ s.mActionFuture).map Event.delete).Nodup :=
      hnd.map (fun a b h => by cases h; rfl)
    have h2 : (exiled.reverse.map Event.destruct).Nodup :=
      (List.nodup_reverse.mpr hex).map (fun a b h => by cases h; rfl)
    rw [List.map_append] at h1
    refine List.Nodup.append (List.Nodup.append h1 h2 ?_) (List.nodup_singleton _) ?_
    · intro ev hm1 hm2
      simp only [List.mem_append, List.mem_map] at hm1
      simp only [List.mem_map] at hm2
      obtain ⟨n, _, hn⟩ := hm2
      rcases hm1 with ⟨a, _, ha⟩ | ⟨a, _, ha⟩ <;> rw [← hn] at ha <;> cases ha
    · intro ev hm1 hm2
      simp only [List.mem_singleton] at hm2
      simp only [List.mem_append, List.mem_map] at hm1
      rcases hm1 with (⟨a, _, ha⟩ | ⟨a, _, ha⟩) | ⟨a, _, ha⟩ <;> rw [hm2] at ha <;> cases ha
  · intro a ha
    simp only [resetEvents, List.mem_append, List.mem_map]
    rcases List.mem_append.mp ha with h | h
    · exact Or.inr (Or.inl (Or.inl (Or.inl ⟨a, h, rfl⟩)))
    · exact Or.inr (Or.inl (Or.inl (Or.inr ⟨a, h, rfl⟩)))
  · intro n hn
    simp only [resetEvents, List.mem_append, List.mem_map]
    exact Or.inr (Or.inl (Or.inr ⟨n, List.mem_reverse.mpr hn, rfl⟩))

/-- Witness of C16: history `[1, 2]`, future `[3]`, exile list `[7, 8]`. -/
theorem C16_reset_undo_redo_witness :
    (ResetUndoRedo ⟨[1, 2], [3], false, false, []⟩ [7, 8]).1.mActionHistory = [] ∧
    (ResetUndoRedo ⟨[1, 2], [3], false, false, []⟩ [7, 8]).1.mActionFuture = [] ∧
    (ResetUndoRedo ⟨[1, 2], [3], false, false, []⟩ [7, 8]).2 = [] ∧
    (ResetUndoRedo ⟨[1, 2], [3], false, false, []⟩ [7, 8]).1.trace =
      [] ++ ([1, 2].map Event.delete ++ [3].map Event.delete ++
        [7, 8].reverse.map Event.destruct ++ [Event.clearInspectHistory]) ∧
    ([1, 2].map Event.delete ++ [3].map Event.delete ++
        [7, 8].reverse.map Event.destruct ++ [Event.clearInspectHistory]).Nodup ∧
    (∀ a ∈ [1, 2] ++ [3],
      Event.delete a ∈ (ResetUndoRedo ⟨[1, 2], [3], false, false, []⟩ [7, 8]).1.trace) ∧
    (∀ n ∈ [7, 8],
      Event.destruct n ∈ (ResetUndoRedo ⟨[1, 2], [3], false, false, []⟩ [7, 8]).1.trace) :=
  C16_reset_undo_redo ⟨[1, 2], [3], false, false, []⟩ [7, 8] (by decide) (by decide)
    (by decide)

set_option maxRecDepth 100000 in
/-- C18 (fails at the capacity): starting from the empty manager, not playing in editor,
`ExecuteAction` is called on the 101 actions `0, 1, ..., 100`. The run succeeds; action `0`,
the oldest, was erased from the history by the last call, so it is in neither stack, and no
`delete` was ever executed on it: it is in none of the three places. The future stack of the
same run, in contrast, is deleted entry by entry when it is cleared. -/
theorem C18_evicted_action_not_deleted :
    (executeActions ManagerState.empty (List.range 101)).map
        (fun s => (decide (0 ∈ s.mActionHistory), decide (0 ∈ s.mActionFuture),
                   decide (Event.delete 0 ∈ s.trace), s.mActionHistory.length))
      = some (false, false, false, 100) := by
  decide

/-! ## Theorems, part 6: attaching a node and changing the root -/

/-- Re-inserting an erased element at the index it had gives the list back. -/
theorem take_drop_erase (l : List Node) (n : Node) (h : n ∈ l) :
    (l.erase n).take (l.indexOf n) ++ n :: (l.erase n).drop (l.indexOf n) = l := by
  induction l with
  | nil => simp at h
  | cons x xs ih =>
    by_cases hx : x = n
    · subst hx
      simp
    · have hmem : n ∈ xs := by
        rcases List.mem_cons.mp h with h1 | h1
        · exact absurd h1.symm hx
        · exact h1
      rw [List.indexOf_cons_ne _ hx, List.erase_cons_tail (by simpa using hx)]
      simp only [Nat.succ_eq_add_one, List.take_succ_cons, List.drop_succ_cons, List.cons_append]
      rw [ih hmem]

/-- Inserting a child that was erased from the children at the index it had restores the
children. -/
theorem insertChild_erase_indexOf (l : List Node) (n : Node) (h : n ∈ l) :
    insertChild (l.erase n) n ((l.indexOf n : Nat) : Int) = l := by
  have hlt : l.indexOf n < l.length := List.indexOf_lt_length.mpr h
  have hlen : (l.erase n).length = l.length - 1 := List.length_erase_of_mem h
  unfold insertChild
  rw [if_pos ⟨by omega, by rw [hlen]; omega⟩]
  simp only [Int.toNat_ofNat]
  exact take_drop_erase l n h

/-- Erasing a freshly inserted child from children that did not contain it gives the old
children. -/
theorem insertChild_erase_self (l : List Node) (n : Node) (i : Int) (h : n ∉ l) :
    (insertChild l n i).erase n = l := by
  unfold insertChild
  split
  · rw [List.erase_append_right _ (fun hm => h (List.mem_of_mem_take hm))]
    simp
  · exact erase_append_singleton l n h

/-- The child index of a child that is among the children is its position. -/
theorem FindChildIndex_of_mem (w : World) (parent child : Node)
    (h : child ∈ w.mChildren parent) :
    FindChildIndex w parent child = (((w.mChildren parent).indexOf child : Nat) : Int) := by
  unfold FindChildIndex
  rw [if_pos (List.indexOf_lt_length.mpr h)]

/-- Children after `Detach` of a node that has a parent. -/
theorem Detach_mChildren_of_parent (w : World) (n q : Node) (h : w.mParent n = some q) :
    (Detach w n).mChildren = setField w.mChildren q ((w.mChildren q).erase n) := by
  unfold Detach
  rw [h]

/-- Bone index after `Detach` of a node that has a parent. -/
theorem Detach_bone_of_parent (w : World) (n q : Node) (h : w.mParent n = some q) :
    (Detach w n).mParentBoneIndex n = -1 := by
  unfold Detach
  rw [h]
  simp [setField]

/-- `Detach` of a node without parent changes nothing. -/
theorem Detach_of_no_parent (w : World) (n : Node) (h : w.mParent n = none) :
    Detach w n = w := by
  unfold Detach
  rw [h]

/-- `Detach` changes no node kind. -/
theorem Detach_kinds (w : World) (n : Node) :
    (Detach w n).isNode3D = w.isNode3D ∧
    (Detach w n).isSkeletalMesh3D = w.isSkeletalMesh3D := by
  unfold Detach
  cases w.mParent n <;> exact ⟨rfl, rfl⟩

/-- What `ActionAttachNode::Execute` does to the tree when the new parent is `p`: the same in
the bone branch and in the plain branch. -/
theorem AttachNode_Execute_fields (a : ActionAttachNode) (w : World) (p : Node)
    (h : a.mNewParent = some p) :
    (a.Execute w).mParent = setField (Detach w a.mNode).mParent a.mNode (some p) ∧
    (a.Execute w).mChildren =
      setField (Detach w a.mNode).mChildren p
        (insertChild ((Detach w a.mNode).mChildren p) a.mNode a.mChildIndex) ∧
    (a.Execute w).isNode3D = w.isNode3D ∧
    (a.Execute w).isSkeletalMesh3D = w.isSkeletalMesh3D := by
  obtain ⟨k1, k2⟩ := Detach_kinds w a.mNode
  unfold ActionAttachNode.Execute
  rw [h]
  simp only
  split
  · exact ⟨rfl, rfl, k1, k2⟩
  · exact ⟨rfl, rfl, k1, k2⟩

/-- What `ActionAttachNode::Reverse` does when the recorded previous parent is `q`. -/
theorem AttachNode_Reverse_fields (a : ActionAttachNode) (w : World) (q : Node)
    (h : a.mPrevParent = some q) :
    (a.Reverse w).mParent = setField (Detach w a.mNode).mParent a.mNode (some q) ∧
    (a.Reverse w).mChildren =
      setField (Detach w a.mNode).mChildren q
        (insertChild ((Detach w a.mNode).mChildren q) a.mNode a.mPrevChildIndex) ∧
    (a.Reverse w).isNode3D = w.isNode3D ∧
    (a.Reverse w).mParentBoneIndex a.mNode =
      (if a.mPrevBoneIndex ≥ 0 && w.isSkeletalMesh3D q && w.isNode3D a.mNode
       then a.mPrevBoneIndex else -1) := by
  obtain ⟨k1, _⟩ := Detach_kinds w a.mNode
  unfold ActionAttachNode.Reverse
  rw [h]
  simp only
  split
  · exact ⟨rfl, rfl, k1, by simp [AttachToBone, setField]⟩
  · exact ⟨rfl, rfl, k1, by simp [Attach, setField]⟩

/-- Core of the attach round trip: for an `ActionAttachNode` on node `n` with new parent `p`
whose recorded previous parent, child index and bone index are those of `n` in `w`, `Execute`
makes `p` the parent and `Reverse` after it restores parent, child index and bone index. -/
theorem attach_roundtrip_core (a : ActionAttachNode) (w : World) (n p : Node)
    (hnode : a.mNode = n) (hnp : a.mNewParent = some p)
    (hpp : a.mPrevParent = w.mParent n) (hpi : a.mPrevChildIndex = childIndexOf w n)
    (hpb : a.mPrevBoneIndex = boneIndexOf w n)
    (hcount : ∀ q, w.mParent n = some q → (w.mChildren q).count n = 1)
    (hbone : w.isNode3D n = true → w.mParentBoneIndex n = -1 ∨
      (0 ≤ w.mParentBoneIndex n ∧ ∃ q, w.mParent n = some q ∧ w.isSkeletalMesh3D q = true)) :
    GetParent (a.Execute w) n = some p ∧
    GetParent (a.Reverse (a.Execute w)) n = GetParent w n ∧
    childIndexOf (a.Reverse (a.Execute w)) n = childIndexOf w n ∧
    boneIndexOf (a.Reverse (a.Execute w)) n = boneIndexOf w n := by
  obtain ⟨e1, e2, e3, e4⟩ := AttachNode_Execute_fields a w p hnp
  rw [hnode] at e1 e2
  have hw1p : (a.Execute w).mParent n = some p := by
    rw [e1]; simp [setField]
  refine ⟨hw1p, ?_⟩
  cases hq : w.mParent n with
  | none =>
    have hrev : a.Reverse (a.Execute w) = Detach (a.Execute w) n := by
      unfold ActionAttachNode.Reverse
      rw [hpp, hq, hnode]
      rfl
    have hRp : (Detach (a.Execute w) n).mParent n = none := Detach_mParent_self _ n
    rw [hrev]
    refine ⟨?_, ?_, ?_⟩
    · unfold GetParent; rw [hRp, hq]
    · unfold childIndexOf GetParent; rw [hRp, hq]
    · unfold boneIndexOf
      rw [(Detach_kinds (a.Execute w) n).1, e3, Detach_bone_of_parent _ n p hw1p]
      by_cases h3 : w.isNode3D n = true
      · rw [if_pos h3, if_pos h3]
        rcases hbone h3 with hb | ⟨_, q, hq', _⟩
        · exact hb.symm
        · rw [hq] at hq'; cases hq'
      · rw [if_neg h3, if_neg h3]
  | some q0 =>
    have hpp' : a.mPrevParent = some q0 := by rw [hpp, hq]
    obtain ⟨r1, r2, r3, r4⟩ := AttachNode_Reverse_fields a (a.Execute w) q0 hpp'
    rw [hnode] at r1 r2 r4
    have hone := hcount q0 hq
    have hmem : n ∈ w.mChildren q0 := by
      rw [← List.count_pos_iff]; omega
    have hnot : n ∉ (w.mChildren q0).erase n := by
      rw [← List.count_eq_zero, List.count_erase_self]; omega
    have hD : (Detach w n).mChildren = setField w.mChildren q0 ((w.mChildren q0).erase n) :=
      Detach_mChildren_of_parent w n q0 hq
    have hD2 : (Detach (a.Execute w) n).mChildren =
        setField (a.Execute w).mChildren p (((a.Execute w).mChildren p).erase n) :=
      Detach_mChildren_of_parent _ n p hw1p
    have hK : (Detach (a.Execute w) n).mChildren q0 = (w.mChildren q0).erase n := by
      rw [hD2, e2, hD]
      by_cases hpq : q0 = p
      · subst hpq
        simp only [setField, if_true]
        exact insertChild_erase_self _ n _ hnot
      · simp [setField, hpq]
    have hidx : a.mPrevChildIndex = (((w.mChildren q0).indexOf n : Nat) : Int) := by
      rw [hpi]
      unfold childIndexOf GetParent
      rw [hq]
      exact FindChildIndex_of_mem w q0 n hmem
    have hRc : (a.Reverse (a.Execute w)).mChildren q0 = w.mChildren q0 := by
      rw [r2]
      simp only [setField, if_true]
      rw [hK, hidx]
      exact insertChild_erase_indexOf _ n hmem
    have hRp : (a.Reverse (a.Execute w)).mParent n = some q0 := by
      rw [r1]; simp [setField]
    refine ⟨?_, ?_, ?_⟩
    · unfold GetParent; rw [hRp, hq]
    · unfold childIndexOf GetParent
      rw [hRp, hq]
      simp only [FindChildIndex, hRc]
    · unfold boneIndexOf
      rw [r3, e3, r4, e3, e4]
      by_cases h3 : w.isNode3D n = true
      · rw [if_pos h3, if_pos h3]
        have hb : a.mPrevBoneIndex = w.mParentBoneIndex n := by
          rw [hpb]; unfold boneIndexOf; rw [if_pos h3]
        rw [hb]
        rcases hbone h3 with hneg | ⟨hpos, q, hq', hsk⟩
        · rw [hneg]; simp
        · rw [hq] at hq'
          cases hq'
          simp [hpos, hsk, h3]
      · rw [if_neg h3, if_neg h3]

/-- C19: take a node `n`, with or without parent, and a non-null new parent `p`, in a state
`S` in which `n` is listed exactly once among the children of its parent (if it has one) and
in which a `Node3D` has a bone index that is `-1` or is not negative with a `SkeletalMesh3D`
as parent. The `ActionAttachNode` constructed in `S` records the parent of `n`, its child
index (`-1` without parent) and its bone index (`-1` when it is not a `Node3D`); after
`Execute` the parent of `n` is `p`; after `Execute` and `Reverse` the node has the same
parent, child index and bone index as in `S`. -/
theorem C19_attach_roundtrip (w : World) (n p : Node) (childIndex boneIndex : Int)
    (hcount : ∀ q, w.mParent n = some q → (w.mChildren q).count n = 1)
    (hbone : w.isNode3D n = true → w.mParentBoneIndex n = -1 ∨
      (0 ≤ w.mParentBoneIndex n ∧ ∃ q, w.mParent n = some q ∧ w.isSkeletalMesh3D q = true)) :
    ∃ a, ActionAttachNode.new w (some n) (some p) childIndex boneIndex = some a ∧
      a.mPrevParent = GetParent w n ∧
      a.mPrevChildIndex = childIndexOf w n ∧
      a.mPrevBoneIndex = boneIndexOf w n ∧
      GetParent (a.Execute w) n = some p ∧
      GetParent (a.Reverse (a.Execute w)) n = GetParent w n ∧
      childIndexOf (a.Reverse (a.Execute w)) n = childIndexOf w n ∧
      boneIndexOf (a.Reverse (a.Execute w)) n = boneIndexOf w n := by
  refine ⟨{ mNode := n, mNewParent := some p, mPrevParent := GetParent w n,
            mChildIndex := childIndex, mPrevChildIndex := childIndexOf w n,
            mBoneIndex := boneIndex, mPrevBoneIndex := boneIndexOf w n },
    ?_, rfl, rfl, rfl, ?_⟩
  · simp [ActionAttachNode.new, childIndexOf, boneIndexOf]
  · exact attach_roundtrip_core _ w n p rfl rfl rfl rfl rfl hcount hbone

/-- Witness of C19: in the example world node `3` (child index 1 under node `1`, no bone)
is attached to the root `0` and the attachment is reversed. -/
theorem C19_attach_roundtrip_witness :
    ∃ a, ActionAttachNode.new exampleWorld (some 3) (some 0) (-1) (-1) = some a ∧
      a.mPrevParent = GetParent exampleWorld 3 ∧
      a.mPrevChildIndex = childIndexOf exampleWorld 3 ∧
      a.mPrevBoneIndex = boneIndexOf exampleWorld 3 ∧
      GetParent (a.Execute exampleWorld) 3 = some 0 ∧
      GetParent (a.Reverse (a.Execute exampleWorld)) 3 = GetParent exampleWorld 3 ∧
      childIndexOf (a.Reverse (a.Execute exampleWorld)) 3 = childIndexOf exampleWorld 3 ∧
      boneIndexOf (a.Reverse (a.Execute exampleWorld)) 3 = boneIndexOf exampleWorld 3 :=
  C19_attach_roundtrip exampleWorld 3 0 (-1) (-1)
    (by
      intro q hq
      have h1 : q = 1 := by
        simp only [exampleWorld] at hq
        exact (Option.some.inj hq).symm
      rw [h1]
      decide)
    (fun _ => Or.inl rfl)

/-- What `ActionSetRootNode::Execute` does to the tree, for a new root `N` with parent `P`
and an old root `R` without parent, `N` different from `R`. -/
theorem SetRootNode_Execute_fields (a : ActionSetRootNode) (w : World) (R N P : Node)
    (hN : a.mNewRoot = N) (hO : a.mOldRoot = R)
    (hne : N ≠ R) (hpar : w.mParent N = some P) (hR : w.mParent R = none) :
    (a.Execute w).mRootNode = some N ∧
    (a.Execute w).mParent = setField (setField w.mParent N none) R (some N) ∧
    (a.Execute w).mChildren =
      setField (setField w.mChildren P ((w.mChildren P).erase N)) N
        (insertChild (setField w.mChildren P ((w.mChildren P).erase N) N) R (-1)) := by
  have hRN : R ≠ N := fun h => hne h.symm
  have hb : (SetRootNode (Detach w N) (some N)).mParent R = none := by
    show (Detach w N).mParent R = none
    rw [Detach_mParent_of_ne w N R hRN]; exact hR
  unfold ActionSetRootNode.Execute
  rw [hN, hO]
  unfold Attach
  simp only [Detach_of_no_parent _ R hb]
  refine ⟨rfl, ?_, ?_⟩
  · show setField (Detach w N).mParent R (some N) = _
    unfold Detach; rw [hpar]
  · show setField (Detach w N).mChildren N (insertChild ((Detach w N).mChildren N) R (-1)) = _
    rw [Detach_mChildren_of_parent w N P hpar]

/-- C20: in a world with root `R` (which has no parent), for a node `N` different from `R`
whose parent is `P` (different from `N`) with child index `i`, the `ActionSetRootNode` for `N`
can be constructed; its `Execute` makes `N` the world root with no parent and `R` a child of
`N`; `Execute` followed by `Reverse` makes `R` the world root again with no parent and `N` a
child of `P` at child index `i`. -/
theorem C20_set_root_roundtrip (w : World) (R N P : Node) (i : Int)
    (hroot : w.mRootNode = some R) (hR : w.mParent R = none) (hne : N ≠ R)
    (hpar : w.mParent N = some P) (hPN : P ≠ N)
    (hi : FindChildIndex w P N = i) (hi1 : i ≠ -1) :
    ∃ a, ActionSetRootNode.new w (some N) = some a ∧
      (a.Execute w).mRootNode = some N ∧
      GetParent (a.Execute w) N = none ∧
      GetParent (a.Execute w) R = some N ∧
      R ∈ (a.Execute w).mChildren N ∧
      (a.Reverse (a.Execute w)).mRootNode = some R ∧
      GetParent (a.Reverse (a.Execute w)) R = none ∧
      GetParent (a.Reverse (a.Execute w)) N = some P ∧
      N ∈ (a.Reverse (a.Execute w)).mChildren P ∧
      FindChildIndex (a.Reverse (a.Execute w)) P N = i := by
  have hRN : R ≠ N := fun h => hne h.symm
  have hmem : N ∈ w.mChildren P := by
    by_contra hc
    apply hi1
    rw [← hi]
    unfold FindChildIndex
    rw [if_neg (fun hlt => hc (List.indexOf_lt_length.mp hlt))]
  have hidx : i = (((w.mChildren P).indexOf N : Nat) : Int) := by
    rw [← hi]; exact FindChildIndex_of_mem w P N hmem
  refine ⟨{ mNewRoot := N, mOldRoot := R, mNewRootParent := P, mNewRootChildIndex := i },
    ?_, ?_⟩
  · simp only [ActionSetRootNode.new, hroot, GetParent, hpar, if_neg hne, hi, if_neg hi1]
  obtain ⟨x1, x2, x3⟩ := SetRootNode_Execute_fields
    { mNewRoot := N, mOldRoot := R, mNewRootParent := P, mNewRootChildIndex := i }
    w R N P rfl rfl hne hpar hR
  generalize hw1 : ActionSetRootNode.Execute
    { mNewRoot := N, mOldRoot := R, mNewRootParent := P, mNewRootChildIndex := i } w = w1
    at x1 x2 x3
  have p1 : w1.mParent N = none := by rw [x2]; simp [setField, hne]
  have p2 : w1.mParent R = some N := by rw [x2]; simp [setField]
  have c1 : R ∈ w1.mChildren N := by
    rw [x3]
    simp only [setField, if_true]
    unfold insertChild
    simp
  refine ⟨x1, p1, p2, c1, ?_⟩
  -- the reverse direction
  have d1 : (Detach w1 R).mParent N = none := by
    rw [Detach_mParent_of_ne w1 R N hne]; exact p1
  have d2 : (Detach w1 R).mChildren P = (w.mChildren P).erase N := by
    rw [Detach_mChildren_of_parent w1 R N p2, x3]
    simp [setField, hPN]
  have hb : (SetRootNode (Detach w1 R) (some R)).mParent N = none := d1
  have hrev : ActionSetRootNode.Reverse
      { mNewRoot := N, mOldRoot := R, mNewRootParent := P, mNewRootChildIndex := i } w1
      = { (SetRootNode (Detach w1 R) (some R)) with
          mChildren := setField (Detach w1 R).mChildren P
            (insertChild ((Detach w1 R).mChildren P) N i),
          mParent := setField (Detach w1 R).mParent N (some P),
          mParentBoneIndex := setField (Detach w1 R).mParentBoneIndex N (-1) } := by
    unfold ActionSetRootNode.Reverse Attach
    simp only [Detach_of_no_parent _ N hb]
    rfl
  rw [hrev]
  have hch : setField (Detach w1 R).mChildren P (insertChild ((Detach w1 R).mChildren P) N i) P
      = w.mChildren P := by
    simp only [setField, if_true]
    rw [d2, hidx]
    exact insertChild_erase_indexOf _ N hmem
  refine ⟨rfl, ?_, ?_, ?_, ?_⟩
  · show setField (Detach w1 R).mParent N (some P) R = none
    simp only [setField, if_neg hRN]
    exact Detach_mParent_self w1 R
  · show setField (Detach w1 R).mParent N (some P) N = some P
    simp [setField]
  · show N ∈ setField (Detach w1 R).mChildren P
        (insertChild ((Detach w1 R).mChildren P) N i) P
    rw [hch]; exact hmem
  · unfold FindChildIndex
    show (if List.indexOf N (setField (Detach w1 R).mChildren P
            (insertChild ((Detach w1 R).mChildren P) N i) P) <
          (setField (Detach w1 R).mChildren P
            (insertChild ((Detach w1 R).mChildren P) N i) P).length
        then ((List.indexOf N (setField (Detach w1 R).mChildren P
            (insertChild ((Detach w1 R).mChildren P) N i) P) : Nat) : Int) else -1) = i
    rw [hch, ← hi]
    rfl

/-- Witness of C20: in the example world (root `0`) node `3`, child of node `1` at child
index 1, becomes the root and the change is reversed. -/
theorem C20_set_root_roundtrip_witness :
    ∃ a, ActionSetRootNode.new exampleWorld (some 3) = some a ∧
      (a.Execute exampleWorld).mRootNode = some 3 ∧
      GetParent (a.Execute exampleWorld) 3 = none ∧
      GetParent (a.Execute exampleWorld) 0 = some 3 ∧
      0 ∈ (a.Execute exampleWorld).mChildren 3 ∧
      (a.Reverse (a.Execute exampleWorld)).mRootNode = some 0 ∧
      GetParent (a.Reverse (a.Execute exampleWorld)) 0 = none ∧
      GetParent (a.Reverse (a.Execute exampleWorld)) 3 = some 1 ∧
      3 ∈ (a.Reverse (a.Execute exampleWorld)).mChildren 1 ∧
      FindChildIndex (a.Reverse (a.Execute exampleWorld)) 1 3 = 1 :=
  C20_set_root_roundtrip exampleWorld 0 3 1 1 rfl rfl (by decide) rfl (by decide)
    (by decide) (by decide)

/-! ## Theorems, part 7: exiled nodes and the live tree -/

/-- Writing a field twice at the same node keeps the second value. -/
theorem setField_setField {α : Type} (f : Node → α) (n : Node) (x y : α) :
    setField (setField f n x) n y = setField f n y := by
  funext m
  unfold setField
  split <;> rfl

/-- Writing back the value a field has changes nothing. -/
theorem setField_same {α : Type} (f : Node → α) (n : Node) (x : α) (h : f n = x) :
    setField f n x = f := by
  funext m
  unfold setField
  split
  · rename_i hm; rw [hm, h]
  · rfl

/-- Parents after `Detach`: the node has none, the others keep theirs. -/
theorem Detach_mParent (w : World) (n : Node) :
    (Detach w n).mParent = setField w.mParent n none := by
  cases h : w.mParent n with
  | none => rw [Detach_of_no_parent w n h, setField_same _ _ _ h]
  | some q => unfold Detach; rw [h]

/-- Live node objects after `Detach`: unchanged. -/
theorem Detach_nodes (w : World) (n : Node) : (Detach w n).nodes = w.nodes := by
  unfold Detach
  cases w.mParent n <;> rfl

/-- Tree shape and live node objects after `Attach` to a non-null parent. -/
theorem Attach_some (w : World) (n p : Node) (i : Int) :
    (Attach w n (some p) i).mParent = setField w.mParent n (some p) ∧
    (Attach w n (some p) i).mRootNode = w.mRootNode ∧
    (Attach w n (some p) i).nodes = w.nodes := by
  refine ⟨?_, ?_, ?_⟩
  · show setField (Detach w n).mParent n (some p) = _
    rw [Detach_mParent, setField_setField]
  · show (Detach w n).mRootNode = _
    exact Detach_mRootNode w n
  · show (Detach w n).nodes = _
    exact Detach_nodes w n

/-- Tree shape and live node objects after `AttachToBone`. -/
theorem AttachToBone_some (w : World) (n p : Node) (b i : Int) :
    (AttachToBone w n p b i).mParent = setField w.mParent n (some p) ∧
    (AttachToBone w n p b i).mRootNode = w.mRootNode ∧
    (AttachToBone w n p b i).nodes = w.nodes :=
  Attach_some w n p i

/-- A state stays sound when one node gets a new parent value, provided a node that gets a
parent is not exiled, is not the world root and is a live node object. -/
theorem Sound.setParent {e e1 : Engine} (h : Sound e) (n : Node) (v : Option Node)
    (hx : e1.mExiledNodes = e.mExiledNodes) (hp : e1.playingInEditor = e.playingInEditor)
    (hn : e1.world.nodes = e.world.nodes) (hr : e1.world.mRootNode = e.world.mRootNode)
    (hpar : e1.world.mParent = setField e.world.mParent n v)
    (hv : v ≠ none → n ∉ e.mExiledNodes ∧ e.world.mRootNode ≠ some n ∧ n ∈ e.world.nodes) :
    Sound e1 := by
  have hpm : ∀ m, m ≠ n → e1.world.mParent m = e.world.mParent m := by
    intro m hm; rw [hpar]; simp [setField, hm]
  have hpn : e1.world.mParent n = v := by rw [hpar]; simp [setField]
  constructor
  · intro m hm
    rw [hx] at hm
    rw [hr]
    refine ⟨?_, (h.exiledDetached m hm).2⟩
    by_cases hmn : m = n
    · subst hmn
      rw [hpn]
      by_contra hv'
      exact (hv hv').1 hm
    · rw [hpm m hmn]; exact (h.exiledDetached m hm).1
  · rw [hx]; exact h.exiledNodup
  · intro r hroot
    rw [hr] at hroot
    by_cases hrn : r = n
    · subst hrn
      rw [hpn]
      by_contra hv'
      exact (hv hv').2.1 hroot
    · rw [hpm r hrn]; exact h.rootNoParent r hroot
  · intro m hm
    rw [hx] at hm; rw [hn]; exact h.exiledLive m hm
  · intro r hroot
    rw [hr] at hroot; rw [hn]; exact h.rootLive r hroot
  · intro m hm
    rw [hn]
    by_cases hmn : m = n
    · subst hmn
      rw [hpn] at hm
      exact (hv hm).2.2
    · rw [hpm m hmn] at hm; exact h.parentedLive m hm
  · rw [hp]; exact h.notPlaying

/-- A state stays sound when the world root changes, provided a node that becomes the root
is not exiled, has no parent and is a live node object. -/
theorem Sound.setRoot {e e1 : Engine} (h : Sound e) (r : Option Node)
    (hx : e1.mExiledNodes = e.mExiledNodes) (hp : e1.playingInEditor = e.playingInEditor)
    (hn : e1.world.nodes = e.world.nodes) (hpar : e1.world.mParent = e.world.mParent)
    (hr : e1.world.mRootNode = r)
    (hv : ∀ x, r = some x → x ∉ e.mExiledNodes ∧ e.world.mParent x = none ∧ x ∈ e.world.nodes) :
    Sound e1 := by
  constructor
  · intro m hm
    rw [hx] at hm
    rw [hpar, hr]
    refine ⟨(h.exiledDetached m hm).1, ?_⟩
    intro hc
    exact (hv m hc).1 hm
  · rw [hx]; exact h.exiledNodup
  · intro x hroot
    rw [hr] at hroot
    rw [hpar]; exact (hv x hroot).2.1
  · intro m hm
    rw [hx] at hm; rw [hn]; exact h.exiledLive m hm
  · intro x hroot
    rw [hr] at hroot
    rw [hn]; exact (hv x hroot).2.2
  · intro m hm
    rw [hpar] at hm; rw [hn]; exact h.parentedLive m hm
  · rw [hp]; exact h.notPlaying

/-- A successful `ExileNode` of a live node object that is not the world root keeps the state
sound; the world is unchanged and the node, which was not exiled, is appended to the exile
list. -/
theorem ExileNode_sound {e e1 : Engine} {n : Node} (h : Sound e) (hex : ExileNode e n = some e1)
    (hroot : e.world.mRootNode ≠ some n) (hlive : n ∈ e.world.nodes) :
    Sound e1 ∧ e1.world = e.world ∧ e1.mExiledNodes = e.mExiledNodes ++ [n] ∧
      n ∉ e.mExiledNodes := by
  have hx : n ∉ e.mExiledNodes := by
    intro hx
    simp [ExileNode, hx] at hex
  have hp : GetParent e.world n = none := by
    by_contra hp
    simp [ExileNode, hx, hp] at hex
  obtain ⟨e1', h1, hw, hxs, hpie⟩ := ExileNode_ok e n hx hp
  rw [hex] at h1
  cases h1
  refine ⟨?_, hw, hxs, hx⟩
  constructor
  · intro m hm
    rw [hxs] at hm
    rw [hw]
    rcases List.mem_append.mp hm with hm | hm
    · exact h.exiledDetached m hm
    · rw [List.mem_singleton.mp hm]; exact ⟨hp, hroot⟩
  · rw [hxs]
    exact List.Nodup.append h.exiledNodup (List.nodup_singleton n)
      (by
        intro m hm1 hm2
        rw [List.mem_singleton.mp hm2] at hm1
        exact hx hm1)
  · rw [hw]; exact h.rootNoParent
  · intro m hm
    rw [hxs] at hm
    rw [hw]
    rcases List.mem_append.mp hm with hm | hm
    · exact h.exiledLive m hm
    · rw [List.mem_singleton.mp hm]; exact hlive
  · rw [hw]; exact h.rootLive
  · rw [hw]; exact h.parentedLive
  · rw [hpie]; exact h.notPlaying

/-- A successful `RestoreExiledNode` keeps the state sound; the world is unchanged, the node
was exiled (so it has no parent, is not the root and is live) and is not exiled afterwards,
and the other nodes stay exiled or not as they were. -/
theorem RestoreExiledNode_sound {e e1 : Engine} {n : Node} (h : Sound e)
    (hre : RestoreExiledNode e n = some e1) :
    Sound e1 ∧ e1.world = e.world ∧ e1.playingInEditor = e.playingInEditor ∧
      n ∈ e.mExiledNodes ∧ n ∉ e1.mExiledNodes ∧
      (∀ m, m ∈ e1.mExiledNodes → m ∈ e.mExiledNodes) := by
  unfold RestoreExiledNode at hre
  by_cases hx : n ∈ e.mExiledNodes
  · rw [if_pos hx] at hre
    cases hre
    have hsub : ∀ m, m ∈ e.mExiledNodes.erase n → m ∈ e.mExiledNodes :=
      fun m hm => List.mem_of_mem_erase hm
    refine ⟨?_, rfl, rfl, hx, ?_, hsub⟩
    · constructor
      · intro m hm; exact h.exiledDetached m (hsub m hm)
      · exact h.exiledNodup.erase n
      · exact h.rootNoParent
      · intro m hm; exact h.exiledLive m (hsub m hm)
      · exact h.rootLive
      · exact h.parentedLive
      · exact h.notPlaying
    · exact fun hm => (List.Nodup.mem_erase_iff h.exiledNodup).mp hm |>.1 rfl
  · rw [if_neg hx] at hre
    cases hre

/-- Restoring the parents that were cleared gives the parents back. -/
theorem restoreParents_clearParents (f : Node → Option Node) (ns : List Node) :
    restoreParents (clearParents f ns) f ns = f := by
  funext m
  unfold restoreParents clearParents
  split <;> rfl

/-- Clearing the parent of one more node. -/
theorem clearParents_cons (f : Node → Option Node) (n : Node) (ns : List Node) :
    clearParents (setField f n none) ns = clearParents f (n :: ns) := by
  funext m
  unfold clearParents setField
  by_cases h1 : m ∈ ns
  · simp [h1]
  · by_cases h2 : m = n
    · simp [h2]
    · simp [h1, h2]

/-- Restoring the parent of one more node. -/
theorem restoreParents_cons (f g : Node → Option Node) (n : Node) (ns : List Node) :
    restoreParents (setField f n (g n)) g ns = restoreParents f g (n :: ns) := by
  funext m
  unfold restoreParents setField
  by_cases h1 : m ∈ ns
  · simp [h1]
  · by_cases h2 : m = n
    · simp [h2]
    · simp [h1, h2]

/-- Clearing the parent of a single node that has none changes nothing. -/
theorem clearParents_single_none (f : Node → Option Node) (n : Node) (h : f n = none) :
    clearParents f [n] = f := by
  funext m
  unfold clearParents
  by_cases h2 : m = n
  · simp [h2, h]
  · simp [h2]

/-- Two tree shapes with the same parents and the same root are the same. -/
theorem TreeShape.eq_of {s t : TreeShape} (hp : s.parent = t.parent) (hr : s.root = t.root) :
    s = t := by
  cases s; cases t
  simp only at hp hr
  rw [hp, hr]

/-- Tree shape and live node objects after `ActionAttachNode::Execute` with new parent `p`. -/
theorem AttachNode_Execute_shape (a : ActionAttachNode) (w : World) (p : Node)
    (h : a.mNewParent = some p) :
    (a.Execute w).mParent = setField w.mParent a.mNode (some p) ∧
    (a.Execute w).mRootNode = w.mRootNode ∧ (a.Execute w).nodes = w.nodes := by
  unfold ActionAttachNode.Execute
  rw [h]
  simp only
  split
  · exact AttachToBone_some w a.mNode p _ _
  · exact Attach_some w a.mNode p _

/-- Tree shape and live node objects after `ActionAttachNode::Reverse` with previous parent
`q`. -/
theorem AttachNode_Reverse_shape (a : ActionAttachNode) (w : World) (q : Node)
    (h : a.mPrevParent = some q) :
    (a.Reverse w).mParent = setField w.mParent a.mNode (some q) ∧
    (a.Reverse w).mRootNode = w.mRootNode ∧ (a.Reverse w).nodes = w.nodes := by
  unfold ActionAttachNode.Reverse
  rw [h]
  simp only
  split
  · exact AttachToBone_some w a.mNode q _ _
  · exact Attach_some w a.mNode q _

/-- A node that has a parent in a sound state is not exiled, is not the world root and is a
live node object. -/
theorem Sound.of_parented {e : Engine} (h : Sound e) (n : Node)
    (hp : e.world.mParent n ≠ none) :
    n ∉ e.mExiledNodes ∧ e.world.mRootNode ≠ some n ∧ n ∈ e.world.nodes :=
  ⟨fun hx => hp (h.exiledDetached n hx).1,
   fun hr => hp (h.rootNoParent n hr),
   h.parentedLive n hp⟩

/-- Re-execution of an attach action that fits the tree shapes `s` and `t`, from a sound state
of shape `s`: the state stays sound and gets shape `t`. -/
theorem attach_execute_effect (a : ActionAttachNode) (e : Engine) (s t : TreeShape)
    (hl : Link (ActionObj.attach a) s t) (hs : Sound e) (hsh : shape e.world = s) :
    Sound { e with world := a.Execute e.world } ∧ shape (a.Execute e.world) = t := by
  obtain ⟨p, hnp, _, hne, htp, htr⟩ := hl
  obtain ⟨x1, x2, x3⟩ := AttachNode_Execute_shape a e.world p hnp
  have hsp : s.parent = e.world.mParent := by rw [← hsh]; rfl
  have hsr : s.root = e.world.mRootNode := by rw [← hsh]; rfl
  rw [hsp] at hne htp
  refine ⟨hs.setParent a.mNode (some p) rfl rfl x3 x2 x1 (fun _ => hs.of_parented _ hne), ?_⟩
  exact TreeShape.eq_of (by rw [htp]; exact x1) (by rw [htr, hsr]; exact x2)

/-- Reversal of an attach action that fits the tree shapes `s` and `t`, from a sound state
of shape `t`: the state stays sound and gets shape `s`. -/
theorem attach_reverse_effect (a : ActionAttachNode) (e : Engine) (s t : TreeShape)
    (hl : Link (ActionObj.attach a) s t) (hs : Sound e) (hsh : shape e.world = t) :
    Sound { e with world := a.Reverse e.world } ∧ shape (a.Reverse e.world) = s := by
  obtain ⟨p, _, hpp, hne, htp, htr⟩ := hl
  obtain ⟨q, hq⟩ := Option.ne_none_iff_exists'.mp hne
  obtain ⟨x1, x2, x3⟩ := AttachNode_Reverse_shape a e.world q (by rw [hpp, hq])
  have htp' : t.parent = e.world.mParent := by rw [← hsh]; rfl
  have htr' : t.root = e.world.mRootNode := by rw [← hsh]; rfl
  have hcur : e.world.mParent a.mNode ≠ none := by
    rw [← htp', htp]; simp [setField]
  refine ⟨hs.setParent a.mNode (some q) rfl rfl x3 x2 x1 (fun _ => hs.of_parented _ hcur), ?_⟩
  refine TreeShape.eq_of ?_ (by rw [← htr, htr']; exact x2)
  show (a.Reverse e.world).mParent = s.parent
  rw [x1, ← htp', htp, setField_setField]
  exact setField_same _ _ _ hq

/-- Tree shape and live node objects after `ActionSetRootNode::Execute`. -/
theorem SetRootNode_Execute_shape (a : ActionSetRootNode) (w : World) :
    (a.Execute w).mParent =
      setField (setField w.mParent a.mNewRoot none) a.mOldRoot (some a.mNewRoot) ∧
    (a.Execute w).mRootNode = some a.mNewRoot ∧ (a.Execute w).nodes = w.nodes := by
  unfold ActionSetRootNode.Execute
  obtain ⟨x1, x2, x3⟩ :=
    Attach_some (SetRootNode (Detach w a.mNewRoot) (some a.mNewRoot)) a.mOldRoot a.mNewRoot (-1)
  refine ⟨?_, x2, ?_⟩
  · rw [x1]
    show setField (Detach w a.mNewRoot).mParent _ _ = _
    rw [Detach_mParent]
  · rw [x3]
    exact Detach_nodes w a.mNewRoot

/-- Tree shape and live node objects after `ActionSetRootNode::Reverse`. -/
theorem SetRootNode_Reverse_shape (a : ActionSetRootNode) (w : World) :
    (a.Reverse w).mParent =
      setField (setField w.mParent a.mOldRoot none) a.mNewRoot (some a.mNewRootParent) ∧
    (a.Reverse w).mRootNode = some a.mOldRoot ∧ (a.Reverse w).nodes = w.nodes := by
  unfold ActionSetRootNode.Reverse
  obtain ⟨x1, x2, x3⟩ :=
    Attach_some (SetRootNode (Detach w a.mOldRoot) (some a.mOldRoot)) a.mNewRoot
      a.mNewRootParent a.mNewRootChildIndex
  refine ⟨?_, x2, ?_⟩
  · rw [x1]
    show setField (Detach w a.mOldRoot).mParent _ _ = _
    rw [Detach_mParent]
  · rw [x3]
    exact Detach_nodes w a.mOldRoot

/-- A state stays sound when a node that has a parent becomes the world root without parent
and the old root becomes its child. -/
theorem Sound.swapRoot {e e1 : Engine} (h : Sound e) (N R : Node)
    (hNR : N ≠ R) (hroot : e.world.mRootNode = some R) (hpar : e.world.mParent N ≠ none)
    (hx : e1.mExiledNodes = e.mExiledNodes) (hp : e1.playingInEditor = e.playingInEditor)
    (hn : e1.world.nodes = e.world.nodes) (hr : e1.world.mRootNode = some N)
    (hpm : e1.world.mParent = setField (setField e.world.mParent N none) R (some N)) :
    Sound e1 := by
  obtain ⟨n1, _, n3⟩ := h.of_parented N hpar
  -- the new root is detached
  have hA : Sound { e with world := { e.world with mParent := setField e.world.mParent N none } } :=
    h.setParent N none rfl rfl rfl rfl rfl (fun hc => absurd rfl hc)
  -- it becomes the root
  have hB : Sound { e with world := { e.world with mParent := setField e.world.mParent N none,
                                                   mRootNode := some N } } :=
    hA.setRoot (some N) rfl rfl rfl rfl rfl
      (by
        intro x hx'
        cases hx'
        exact ⟨n1, by simp [setField], n3⟩)
  -- the old root is attached to it
  refine hB.setParent R (some N) hx hp hn hr hpm ?_
  intro _
  refine ⟨?_, ?_, h.rootLive R hroot⟩
  · exact fun hc => (h.exiledDetached R hc).2 hroot
  · show some N ≠ some R
    exact fun hc => hNR (Option.some.inj hc)

/-- Re-execution of a set-root action that fits the tree shapes `s` and `t`, from a sound
state of shape `s`: the state stays sound and gets shape `t`. -/
theorem setRoot_execute_effect (a : ActionSetRootNode) (e : Engine) (s t : TreeShape)
    (hl : Link (ActionObj.setRoot a) s t) (hs : Sound e) (hsh : shape e.world = s) :
    Sound { e with world := a.Execute e.world } ∧ shape (a.Execute e.world) = t := by
  obtain ⟨hne, hroot, hpar, _, htr, htp⟩ := hl
  obtain ⟨x1, x2, x3⟩ := SetRootNode_Execute_shape a e.world
  have hsp : s.parent = e.world.mParent := by rw [← hsh]; rfl
  have hsr : s.root = e.world.mRootNode := by rw [← hsh]; rfl
  rw [hsp] at hpar htp
  rw [hsr] at hroot
  refine ⟨hs.swapRoot a.mNewRoot a.mOldRoot hne hroot (by rw [hpar]; simp) rfl rfl x3 x2 x1, ?_⟩
  exact TreeShape.eq_of (by rw [htp]; exact x1) (by rw [htr]; exact x2)

/-- Reversal of a set-root action that fits the tree shapes `s` and `t`, from a sound state
of shape `t`: the state stays sound and gets shape `s`. -/
theorem setRoot_reverse_effect (a : ActionSetRootNode) (e : Engine) (s t : TreeShape)
    (hl : Link (ActionObj.setRoot a) s t) (hs : Sound e) (hsh : shape e.world = t) :
    Sound { e with world := a.Reverse e.world } ∧ shape (a.Reverse e.world) = s := by
  obtain ⟨hne, hroot, hpar, hRnone, htr, htp⟩ := hl
  obtain ⟨x1, x2, x3⟩ := SetRootNode_Reverse_shape a e.world
  have htp' : t.parent = e.world.mParent := by rw [← hsh]; rfl
  have htr' : t.root = e.world.mRootNode := by rw [← hsh]; rfl
  rw [htp'] at htp
  rw [htr'] at htr
  have hRN : a.mOldRoot ≠ a.mNewRoot := fun h => hne h.symm
  have hRpar : e.world.mParent a.mOldRoot ≠ none := by
    rw [htp]; simp [setField]
  have hNpar : e.world.mParent a.mNewRoot = none := by
    rw [htp]; simp [setField, hne]
  obtain ⟨r1, _, r3⟩ := hs.of_parented a.mOldRoot hRpar
  have hA : Sound { e with world :=
      { e.world with mParent := setField e.world.mParent a.mOldRoot none } } :=
    hs.setParent a.mOldRoot none rfl rfl rfl rfl rfl (fun hc => absurd rfl hc)
  have hB : Sound { e with world :=
      { e.world with mParent := setField e.world.mParent a.mOldRoot none,
                     mRootNode := some a.mOldRoot } } :=
    hA.setRoot (some a.mOldRoot) rfl rfl rfl rfl rfl
      (by
        intro x hx'
        cases hx'
        exact ⟨r1, by simp [setField], r3⟩)
  refine ⟨hB.setParent a.mNewRoot (some a.mNewRootParent) rfl rfl x3 x2 x1 ?_, ?_⟩
  · intro _
    refine ⟨?_, ?_, hs.rootLive a.mNewRoot htr⟩
    · exact fun hc => (hs.exiledDetached a.mNewRoot hc).2 htr
    · show some a.mOldRoot ≠ some a.mNewRoot
      exact fun hc => hRN (Option.some.inj hc)
  · refine TreeShape.eq_of ?_ (by rw [hroot]; exact x2)
    show (a.Reverse e.world).mParent = s.parent
    rw [x1, htp]
    funext m
    unfold setField
    by_cases h1 : m = a.mNewRoot
    · simp [h1, hpar]
    · by_cases h2 : m = a.mOldRoot
      · simp [h1, h2, hRN, hRnone]
      · simp [h1, h2]

/-- A successful `ExileNode` was called on a node that was not exiled. -/
theorem ExileNode_not_mem (e e1 : Engine) (n : Node) (hex : ExileNode e n = some e1) :
    n ∉ e.mExiledNodes := by
  intro hx
  simp [ExileNode, hx] at hex

/-- Detaching a node that has a parent (unless it is exiled already) and exiling it keeps the
state sound; the node loses its parent and the root stays. -/
theorem exile_after_detach {e e2 : Engine} {n : Node} (hs : Sound e)
    (hg : n ∉ e.mExiledNodes → e.world.mParent n ≠ none)
    (hex : ExileNode { e with world := Detach e.world n } n = some e2) :
    Sound e2 ∧ e2.world.mParent = setField e.world.mParent n none ∧
      e2.world.mRootNode = e.world.mRootNode ∧
      e2.mExiledNodes = e.mExiledNodes ++ [n] := by
  have hnx : n ∉ e.mExiledNodes :=
    ExileNode_not_mem { e with world := Detach e.world n } e2 n hex
  obtain ⟨_, n2, n3⟩ := hs.of_parented n (hg hnx)
  have hD : Sound { e with world := Detach e.world n } :=
    hs.setParent n none rfl rfl (Detach_nodes _ _) (Detach_mRootNode _ _) (Detach_mParent _ _)
      (fun hc => absurd rfl hc)
  obtain ⟨h1, h2, h3, _⟩ := ExileNode_sound hD hex
    (by show (Detach e.world n).mRootNode ≠ some n; rw [Detach_mRootNode]; exact n2)
    (by show n ∈ (Detach e.world n).nodes; rw [Detach_nodes]; exact n3)
  refine ⟨h1, ?_, ?_, h3⟩
  · rw [h2]; exact Detach_mParent _ _
  · rw [h2]; exact Detach_mRootNode _ _

/-- Unsetting the world root and exiling the node that was the root keeps the state sound;
the parents stay and there is no root afterwards. -/
theorem exile_after_unroot {e e2 : Engine} {n : Node} (hs : Sound e)
    (hroot : e.world.mRootNode = some n)
    (hex : ExileNode { e with world := SetRootNode e.world none } n = some e2) :
    Sound e2 ∧ e2.world.mParent = e.world.mParent ∧ e2.world.mRootNode = none ∧
      e2.mExiledNodes = e.mExiledNodes ++ [n] := by
  have hR : Sound { e with world := SetRootNode e.world none } :=
    hs.setRoot none rfl rfl rfl rfl rfl (fun x hx => by cases hx)
  obtain ⟨h1, h2, h3, _⟩ := ExileNode_sound hR hex
    (by show (none : Option Node) ≠ some n; simp)
    (hs.rootLive n hroot)
  refine ⟨h1, ?_, ?_, h3⟩
  · rw [h2]; rfl
  · rw [h2]; rfl

/-- Loop of `ActionDeleteNodes::Execute` when every recorded parent `g n` is non-null and,
for the nodes not yet exiled, is the node's current parent: a successful run from a sound
state ends in a sound state in which the listed nodes have lost their parents and the root is
the same. -/
theorem delete_executeLoop_effect (size : Nat) (g : Node → Option Node) (ns : List Node) :
    ∀ e e1 : Engine, Sound e → (∀ n ∈ ns, g n ≠ none) →
      (∀ n ∈ ns, n ∉ e.mExiledNodes → e.world.mParent n = g n) →
      ActionDeleteNodes.executeLoop size ns (ns.map g) e = some e1 →
      Sound e1 ∧ e1.world.mParent = clearParents e.world.mParent ns ∧
        e1.world.mRootNode = e.world.mRootNode := by
  induction ns with
  | nil =>
    intro e e1 hs _ _ h
    simp only [ActionDeleteNodes.executeLoop, Option.some.injEq] at h
    subst h
    exact ⟨hs, by funext m; simp [clearParents], rfl⟩
  | cons n ns ih =>
    intro e e1 hs hg hcur h
    obtain ⟨p, hp⟩ := Option.ne_none_iff_exists'.mp (hg n (List.mem_cons_self n ns))
    simp only [List.map_cons, hp, ActionDeleteNodes.executeLoop] at h
    split at h
    · cases h
    · rw [if_neg (by rw [hs.notPlaying]; simp)] at h
      cases hex : ExileNode { e with world := Detach e.world n } n with
      | none => rw [hex] at h; simp at h
      | some e2 =>
        rw [hex, Option.some_bind] at h
        obtain ⟨s2, p2, r2, x2⟩ := exile_after_detach hs
          (fun hnx => by rw [hcur n (List.mem_cons_self n ns) hnx, hp]; simp) hex
        obtain ⟨s1, p1, r1⟩ := ih e2 e1 s2
          (fun m hm => hg m (List.mem_cons_of_mem n hm))
          (by
            intro m hm hmx
            rw [x2] at hmx
            simp only [List.mem_append, List.mem_singleton, not_or] at hmx
            rw [p2]
            simp only [setField, if_neg hmx.2]
            exact hcur m (List.mem_cons_of_mem n hm) hmx.1)
          h
        exact ⟨s1, by rw [p1, p2, clearParents_cons], by rw [r1, r2]⟩

/-- Loop of `ActionDeleteNodes::Execute` on the single node `n` recorded without parent: a
successful run from a sound state has found `n` to be the world root and ends in a sound
state with the same parents and no root. -/
theorem delete_executeLoop_root (n : Node) (e e1 : Engine) (hs : Sound e)
    (h : ActionDeleteNodes.executeLoop 1 [n] [none] e = some e1) :
    Sound e1 ∧ e1.world.mParent = e.world.mParent ∧ e.world.mRootNode = some n ∧
      e1.world.mRootNode = none := by
  simp only [ActionDeleteNodes.executeLoop] at h
  split at h
  · cases h
  · rw [if_neg (by rw [hs.notPlaying]; simp)] at h
    simp only [ne_eq, not_true_eq_false, if_false] at h
    by_cases hroot : e.world.mRootNode = some n
    · simp only [hroot, not_true_eq_false, if_false] at h
      cases hex : ExileNode { e with world := SetRootNode e.world none } n with
      | none => rw [hex] at h; simp at h
      | some e2 =>
        rw [hex, Option.some_bind] at h
        simp only [ActionDeleteNodes.executeLoop, Option.some.injEq] at h
        subst h
        obtain ⟨s2, p2, r2, _⟩ := exile_after_unroot hs hroot hex
        exact ⟨s2, p2, hroot, r2⟩
    · simp [hroot] at h

/-- Loop of `ActionSpawnNodes::Reverse` when every recorded parent `g n` is non-null and, for
the nodes not yet exiled, is the node's current parent: a successful run from a sound state
ends in a sound state in which the listed nodes have lost their parents and the root is the
same. -/
theorem spawn_reverseLoop_effect (size : Nat) (g : Node → Option Node) (ns : List Node) :
    ∀ e e1 : Engine, Sound e → (∀ n ∈ ns, g n ≠ none) →
      (∀ n ∈ ns, n ∉ e.mExiledNodes → e.world.mParent n = g n) →
      ActionSpawnNodes.reverseLoop size ns (ns.map g) e = some e1 →
      Sound e1 ∧ e1.world.mParent = clearParents e.world.mParent ns ∧
        e1.world.mRootNode = e.world.mRootNode := by
  induction ns with
  | nil =>
    intro e e1 hs _ _ h
    simp only [List.map_nil, ActionSpawnNodes.reverseLoop, Option.some.injEq] at h
    subst h
    exact ⟨hs, by funext m; simp [clearParents], rfl⟩
  | cons n ns ih =>
    intro e e1 hs hg hcur h
    obtain ⟨p, hp⟩ := Option.ne_none_iff_exists'.mp (hg n (List.mem_cons_self n ns))
    simp only [List.map_cons, hp, ActionSpawnNodes.reverseLoop] at h
    cases hex : ExileNode { e with world := Detach e.world n } n with
    | none => rw [hex] at h; simp at h
    | some e2 =>
      rw [hex, Option.some_bind] at h
      obtain ⟨s2, p2, r2, x2⟩ := exile_after_detach hs
        (fun hnx => by rw [hcur n (List.mem_cons_self n ns) hnx, hp]; simp) hex
      obtain ⟨s1, p1, r1⟩ := ih e2 e1 s2
        (fun m hm => hg m (List.mem_cons_of_mem n hm))
        (by
          intro m hm hmx
          rw [x2] at hmx
          simp only [List.mem_append, List.mem_singleton, not_or] at hmx
          rw [p2]
          simp only [setField, if_neg hmx.2]
          exact hcur m (List.mem_cons_of_mem n hm) hmx.1)
        h
      exact ⟨s1, by rw [p1, p2, clearParents_cons], by rw [r1, r2]⟩

/-- Loop of `ActionSpawnNodes::Reverse` on the single node `n` recorded without parent: a
successful run from a sound state has found `n` to be the world root and ends in a sound
state with the same parents and no root. -/
theorem spawn_reverseLoop_root (n : Node) (e e1 : Engine) (hs : Sound e)
    (h : ActionSpawnNodes.reverseLoop 1 [n] [none] e = some e1) :
    Sound e1 ∧ e1.world.mParent = e.world.mParent ∧ e.world.mRootNode = some n ∧
      e1.world.mRootNode = none := by
  simp only [ActionSpawnNodes.reverseLoop, ne_eq, not_true_eq_false, if_false] at h
  by_cases hroot : e.world.mRootNode = some n
  · simp only [hroot, not_true_eq_false, if_false] at h
    cases hex : ExileNode { e with world := SetRootNode e.world none } n with
    | none => rw [hex] at h; simp at h
    | some e2 =>
      rw [hex, Option.some_bind] at h
      simp only [ActionSpawnNodes.reverseLoop, Option.some.injEq] at h
      subst h
      obtain ⟨s2, p2, r2, _⟩ := exile_after_unroot hs hroot hex
      exact ⟨s2, p2, hroot, r2⟩
  · simp [hroot] at h

/-- Restoring a node from exile and then giving it the parent `p`, in a world `w2` that
otherwise has the same tree shape and live node objects, keeps the state sound. -/
theorem restore_then_attach {e e1 : Engine} {n p : Node} (hs : Sound e)
    (hre : RestoreExiledNode e n = some e1) (w2 : World)
    (hp : w2.mParent = setField e.world.mParent n (some p))
    (hr : w2.mRootNode = e.world.mRootNode) (hn : w2.nodes = e.world.nodes) :
    Sound { e1 with world := w2 } := by
  obtain ⟨s1, hw, _, hx, hnx, _⟩ := RestoreExiledNode_sound hs hre
  refine s1.setParent n (some p) rfl rfl (by rw [hw]; exact hn) (by rw [hw]; exact hr)
    (by rw [hw]; exact hp) ?_
  intro _
  rw [hw]
  exact ⟨hnx, (hs.exiledDetached n hx).2, hs.exiledLive n hx⟩

/-- Restoring a node from exile and then making it the world root keeps the state sound; the
node had no parent. -/
theorem restore_then_root {e e1 : Engine} {n : Node} (hs : Sound e)
    (hre : RestoreExiledNode e n = some e1) :
    Sound { e1 with world := SetRootNode e1.world (some n) } ∧ e1.world = e.world ∧
      e.world.mParent n = none := by
  obtain ⟨s1, hw, _, hx, hnx, _⟩ := RestoreExiledNode_sound hs hre
  refine ⟨s1.setRoot (some n) rfl rfl rfl rfl rfl ?_, hw, (hs.exiledDetached n hx).1⟩
  intro x hx'
  cases hx'
  rw [hw]
  exact ⟨hnx, (hs.exiledDetached n hx).1, hs.exiledLive n hx⟩

/-- Loop of `ActionDeleteNodes::Reverse` when every recorded parent `g n` is non-null: a
successful run from a sound state ends in a sound state in which the listed nodes have the
recorded parents and the root is the same. -/
theorem delete_reverseLoop_effect (size : Nat) (g : Node → Option Node) (ns : List Node) :
    ∀ (cis bis : List Int) (e e1 : Engine), Sound e → (∀ n ∈ ns, g n ≠ none) →
      ActionDeleteNodes.reverseLoop size ns (ns.map g) cis bis e = some e1 →
      Sound e1 ∧ e1.world.mParent = restoreParents e.world.mParent g ns ∧
        e1.world.mRootNode = e.world.mRootNode := by
  induction ns with
  | nil =>
    intro cis bis e e1 hs _ h
    simp only [List.map_nil, ActionDeleteNodes.reverseLoop, Option.some.injEq] at h
    subst h
    exact ⟨hs, by funext m; simp [restoreParents], rfl⟩
  | cons n ns ih =>
    intro cis bis e e1 hs hg h
    obtain ⟨p, hp⟩ := Option.ne_none_iff_exists'.mp (hg n (List.mem_cons_self n ns))
    cases cis with
    | nil => simp [ActionDeleteNodes.reverseLoop, hp] at h
    | cons ci cis =>
      cases bis with
      | nil => simp [ActionDeleteNodes.reverseLoop, hp] at h
      | cons bi bis =>
        simp only [List.map_cons, hp, ActionDeleteNodes.reverseLoop] at h
        cases hre : RestoreExiledNode e n with
        | none => rw [hre] at h; simp at h
        | some e2 =>
          rw [hre, Option.some_bind] at h
          obtain ⟨_, hw, _, _, _, _⟩ := RestoreExiledNode_sound hs hre
          have hsh : ∀ w2 : World,
              w2 = (if (decide (bi ≥ 0) && e2.world.isSkeletalMesh3D p && e2.world.isNode3D n)
                      = true
                    then AttachToBone e2.world n p bi ci else AddChild e2.world p n ci) →
              w2.mParent = setField e.world.mParent n (some p) ∧
              w2.mRootNode = e.world.mRootNode ∧ w2.nodes = e.world.nodes := by
            intro w2 hw2
            rw [hw2, ← hw]
            split
            · exact AttachToBone_some _ _ _ _ _
            · exact Attach_some _ _ _ _
          obtain ⟨q1, q2, q3⟩ := hsh _ rfl
          have s2 := restore_then_attach hs hre _ q1 q2 q3
          obtain ⟨s1, p1, r1⟩ := ih cis bis _ e1 s2
            (fun m hm => hg m (List.mem_cons_of_mem n hm)) h
          refine ⟨s1, ?_, by rw [r1]; exact q2⟩
          rw [p1]
          show restoreParents _ g ns = _
          rw [q1, ← hp, restoreParents_cons]

/-- Loop of `ActionDeleteNodes::Reverse` on the single node `n` recorded without parent: a
successful run from a sound state has found no world root and ends in a sound state with the
same parents, in which `n`, which has no parent, is the root. -/
theorem delete_reverseLoop_root (n : Node) (cis bis : List Int) (e e1 : Engine) (hs : Sound e)
    (h : ActionDeleteNodes.reverseLoop 1 [n] [none] cis bis e = some e1) :
    Sound e1 ∧ e1.world.mParent = e.world.mParent ∧ e.world.mRootNode = none ∧
      e1.world.mRootNode = some n ∧ e.world.mParent n = none := by
  cases cis with
  | nil => simp [ActionDeleteNodes.reverseLoop] at h
  | cons ci cis =>
    cases bis with
    | nil => simp [ActionDeleteNodes.reverseLoop] at h
    | cons bi bis =>
      simp only [ActionDeleteNodes.reverseLoop, ne_eq, not_true_eq_false, if_false] at h
      cases hre : RestoreExiledNode e n with
      | none => rw [hre] at h; simp at h
      | some e2 =>
        rw [hre, Option.some_bind] at h
        obtain ⟨s2, hw, hnp⟩ := restore_then_root hs hre
        by_cases hroot : e2.world.mRootNode = none
        · simp only [hroot, not_true_eq_false, if_false, ActionDeleteNodes.reverseLoop,
            Option.some.injEq] at h
          subst h
          refine ⟨s2, ?_, by rw [← hw]; exact hroot, rfl, hnp⟩
          show e2.world.mParent = _
          rw [hw]
        · simp [hroot] at h

/-- Loop of the second `ActionSpawnNodes::Execute` when every recorded parent `g n` is
non-null: a successful run from a sound state ends in a sound state in which the listed nodes
have the recorded parents and the root is the same. -/
theorem spawn_restoreLoop_effect (size : Nat) (g : Node → Option Node) (ns : List Node) :
    ∀ (ls : List (Option Scene)) (e e1 : Engine), Sound e → (∀ n ∈ ns, g n ≠ none) →
      ActionSpawnNodes.restoreLoop size ns (ns.map g) ls e = some e1 →
      Sound e1 ∧ e1.world.mParent = restoreParents e.world.mParent g ns ∧
        e1.world.mRootNode = e.world.mRootNode := by
  induction ns with
  | nil =>
    intro ls e e1 hs _ h
    simp only [List.map_nil, ActionSpawnNodes.restoreLoop, Option.some.injEq] at h
    subst h
    exact ⟨hs, by funext m; simp [restoreParents], rfl⟩
  | cons n ns ih =>
    intro ls e e1 hs hg h
    obtain ⟨p, hp⟩ := Option.ne_none_iff_exists'.mp (hg n (List.mem_cons_self n ns))
    simp only [List.map_cons, hp, ActionSpawnNodes.restoreLoop] at h
    cases hre : RestoreExiledNode e n with
    | none => rw [hre] at h; simp at h
    | some e2 =>
      rw [hre, Option.some_bind] at h
      obtain ⟨_, hw, _, _, _, _⟩ := RestoreExiledNode_sound hs hre
      cases hl : ls.head? with
      | none => rw [hl] at h; simp at h
      | some linked =>
        rw [hl] at h
        cases linked with
        | none =>
          simp only at h
          have hq := Attach_some e2.world n p (-1)
          rw [hw] at hq
          have q1 : (Attach e2.world n (some p) (-1)).mParent
              = setField e.world.mParent n (some p) := by rw [hw]; exact hq.1
          have q2 : (Attach e2.world n (some p) (-1)).mRootNode = e.world.mRootNode := by
            rw [hw]; exact hq.2.1
          have q3 : (Attach e2.world n (some p) (-1)).nodes = e.world.nodes := by
            rw [hw]; exact hq.2.2
          have s2 := restore_then_attach hs hre (Attach e2.world n (some p) (-1)) q1 q2 q3
          obtain ⟨s1, p1, r1⟩ := ih ls.tail _ e1 s2
            (fun m hm => hg m (List.mem_cons_of_mem n hm)) h
          refine ⟨s1, ?_, by rw [r1]; exact q2⟩
          rw [p1]
          show restoreParents (Attach e2.world n (some p) (-1)).mParent g ns = _
          rw [q1, ← hp, restoreParents_cons]
        | some scene =>
          simp only at h
          have hq := Attach_some e2.world n p (-1)
          rw [hw] at hq
          have q1 : (Attach e2.world n (some p) (-1)).mParent
              = setField e.world.mParent n (some p) := by rw [hw]; exact hq.1
          have q2 : (Attach e2.world n (some p) (-1)).mRootNode = e.world.mRootNode := by
            rw [hw]; exact hq.2.1
          have q3 : (Attach e2.world n (some p) (-1)).nodes = e.world.nodes := by
            rw [hw]; exact hq.2.2
          have s2 := restore_then_attach hs hre
            (SetScene (Attach e2.world n (some p) (-1)) p scene) q1 q2 q3
          obtain ⟨s1, p1, r1⟩ := ih ls.tail _ e1 s2
            (fun m hm => hg m (List.mem_cons_of_mem n hm)) h
          refine ⟨s1, ?_, by rw [r1]; exact q2⟩
          rw [p1]
          show restoreParents (Attach e2.world n (some p) (-1)).mParent g ns = _
          rw [q1, ← hp, restoreParents_cons]

/-- Loop of the second `ActionSpawnNodes::Execute` on the single node `n` recorded without
parent: a successful run from a sound state has found no world root and ends in a sound state
with the same parents, in which `n`, which has no parent, is the root. -/
theorem spawn_restoreLoop_root (n : Node) (ls : List (Option Scene)) (e e1 : Engine)
    (hs : Sound e)
    (h : ActionSpawnNodes.restoreLoop 1 [n] [none] ls e = some e1) :
    Sound e1 ∧ e1.world.mParent = e.world.mParent ∧ e.world.mRootNode = none ∧
      e1.world.mRootNode = some n ∧ e.world.mParent n = none := by
  simp only [ActionSpawnNodes.restoreLoop, ne_eq, not_true_eq_false, if_false] at h
  cases hre : RestoreExiledNode e n with
  | none => rw [hre] at h; simp at h
  | some e2 =>
    rw [hre, Option.some_bind] at h
    obtain ⟨s2, hw, hnp⟩ := restore_then_root hs hre
    by_cases hroot : e2.world.mRootNode = none
    · simp only [hroot, not_true_eq_false, if_false, ActionSpawnNodes.restoreLoop,
        Option.some.injEq] at h
      subst h
      refine ⟨s2, ?_, by rw [← hw]; exact hroot, rfl, hnp⟩
      show e2.world.mParent = _
      rw [hw]
    · simp [hroot] at h

/-- Re-execution of a delete action that fits the tree shapes `s` and `t`: a successful
`Execute` from a sound state of shape `s` ends in a sound state of shape `t`. -/
theorem delete_execute_effect (a : ActionDeleteNodes) (e e1 : Engine) (s t : TreeShape)
    (hl : Link (ActionObj.delete a) s t) (hs : Sound e) (hsh : shape e.world = s)
    (h : a.Execute e = some e1) :
    Sound e1 ∧ shape e1.world = t := by
  obtain ⟨hpar, htp, hcase⟩ := hl
  have hsp : s.parent = e.world.mParent := by rw [← hsh]; rfl
  have hsr : s.root = e.world.mRootNode := by rw [← hsh]; rfl
  unfold ActionDeleteNodes.Execute at h
  rw [hpar] at h
  rcases hcase with ⟨hall, htr⟩ | ⟨n, hn, hnone, hroot, htr⟩
  · obtain ⟨s1, p1, r1⟩ := delete_executeLoop_effect _ s.parent a.mNodes e e1 hs hall
      (fun m _ _ => by rw [hsp]) h
    exact ⟨s1, TreeShape.eq_of (by rw [htp, hsp]; exact p1) (by rw [htr, hsr]; exact r1)⟩
  · rw [hn] at h
    simp only [List.map_cons, List.map_nil, hnone, List.length_singleton] at h
    obtain ⟨s1, p1, _, r1⟩ := delete_executeLoop_root n e e1 hs h
    refine ⟨s1, TreeShape.eq_of ?_ (by rw [htr]; exact r1)⟩
    show e1.world.mParent = t.parent
    rw [p1, htp, hn, ← hsp, clearParents_single_none _ _ hnone]

/-- Reversal of a delete action that fits the tree shapes `s` and `t`: a successful `Reverse`
from a sound state of shape `t` ends in a sound state of shape `s`. -/
theorem delete_reverse_effect (a : ActionDeleteNodes) (e e1 : Engine) (s t : TreeShape)
    (hl : Link (ActionObj.delete a) s t) (hs : Sound e) (hsh : shape e.world = t)
    (h : a.Reverse e = some e1) :
    Sound e1 ∧ shape e1.world = s := by
  obtain ⟨hpar, htp, hcase⟩ := hl
  have htp' : t.parent = e.world.mParent := by rw [← hsh]; rfl
  have htr' : t.root = e.world.mRootNode := by rw [← hsh]; rfl
  unfold ActionDeleteNodes.Reverse at h
  rw [hpar] at h
  rcases hcase with ⟨hall, htr⟩ | ⟨n, hn, hnone, hroot, htr⟩
  · obtain ⟨s1, p1, r1⟩ := delete_reverseLoop_effect _ s.parent a.mNodes _ _ e e1 hs hall h
    refine ⟨s1, TreeShape.eq_of ?_ (by rw [← htr, htr']; exact r1)⟩
    show e1.world.mParent = s.parent
    rw [p1, ← htp', htp, restoreParents_clearParents]
  · rw [hn] at h
    simp only [List.map_cons, List.map_nil, hnone, List.length_singleton] at h
    obtain ⟨s1, p1, _, r1, _⟩ := delete_reverseLoop_root n _ _ e e1 hs h
    refine ⟨s1, TreeShape.eq_of ?_ (by rw [hroot]; exact r1)⟩
    show e1.world.mParent = s.parent
    rw [p1, ← htp', htp, hn, clearParents_single_none _ _ hnone]

/-- Reversal of a spawn action that fits the tree shapes `s` and `t`: a successful `Reverse`
from a sound state of shape `t` ends in a sound state of shape `s`, and the action, which has
now recorded the parents, still fits `s` and `t`. -/
theorem spawn_reverse_effect (a a1 : ActionSpawnNodes) (e e1 : Engine) (s t : TreeShape)
    (hl : Link (ActionObj.spawn a) s t) (hs : Sound e) (hsh : shape e.world = t)
    (h : a.Reverse e = some (a1, e1)) :
    Sound e1 ∧ shape e1.world = s ∧ Link (ActionObj.spawn a1) s t ∧
      Recorded (ActionObj.spawn a1) := by
  obtain ⟨hne, hrec, hsp, hcase⟩ := hl
  have htp' : t.parent = e.world.mParent := by rw [← hsh]; rfl
  have htr' : t.root = e.world.mRootNode := by rw [← hsh]; rfl
  have hmapne : a.mNodes.map t.parent ≠ [] := by
    intro hc; exact hne (List.map_eq_nil_iff.mp hc)
  -- the action after the recording step
  have hstep : ∃ a2 : ActionSpawnNodes, a2.mNodes = a.mNodes ∧
      a2.mParents = a.mNodes.map t.parent ∧
      (ActionSpawnNodes.reverseLoop a2.mNodes.length a2.mNodes a2.mParents e).map
        (fun e2 => (a2, e2)) = some (a1, e1) := by
    unfold ActionSpawnNodes.Reverse at h
    by_cases h0 : a.mParents.length = 0
    · rw [if_pos h0] at h
      by_cases hls : a.mParentLinkedScenes.length ≠ 0
      · rw [if_pos hls] at h; simp at h
      · rw [if_neg hls, Option.some_bind] at h
        exact ⟨{ a with mParents := a.mNodes.map (GetParent e.world),
                        mParentLinkedScenes := a.mNodes.map (parentLinkedScene e.world) },
          rfl, by rw [htp']; rfl, h⟩
    · rw [if_neg h0, Option.some_bind] at h
      refine ⟨a, rfl, ?_, h⟩
      rcases hrec with hr | hr
      · rw [hr] at h0; simp at h0
      · exact hr
  obtain ⟨a2, hn2, hp2, hrun⟩ := hstep
  cases hloop : ActionSpawnNodes.reverseLoop a2.mNodes.length a2.mNodes a2.mParents e with
  | none => rw [hloop] at hrun; simp at hrun
  | some e2 =>
    rw [hloop] at hrun
    simp only [Option.map_some', Option.some.injEq, Prod.mk.injEq] at hrun
    obtain ⟨ha, he⟩ := hrun
    subst ha
    subst he
    rw [hn2, hp2] at hloop
    have hlink : Link (ActionObj.spawn a2) s t := by
      refine ⟨by rw [hn2]; exact hne, Or.inr (by rw [hn2]; exact hp2), by rw [hn2]; exact hsp,
        ?_⟩
      rw [hn2]; exact hcase
    have hrecd : Recorded (ActionObj.spawn a2) := by
      show a2.mParents ≠ []
      rw [hp2]; exact hmapne
    rcases hcase with ⟨hall, hsr⟩ | ⟨n, hn, hnone, hroot, hsr⟩
    · obtain ⟨s1, p1, r1⟩ := spawn_reverseLoop_effect _ t.parent a.mNodes e e2 hs hall
        (fun m _ _ => by rw [htp']) hloop
      refine ⟨s1, TreeShape.eq_of ?_ (by rw [hsr, htr']; exact r1), hlink, hrecd⟩
      show e2.world.mParent = s.parent
      rw [p1, hsp, htp']
    · rw [hn] at hloop
      simp only [List.map_cons, List.map_nil, hnone, List.length_singleton] at hloop
      obtain ⟨s1, p1, _, r1⟩ := spawn_reverseLoop_root n e e2 hs hloop
      refine ⟨s1, TreeShape.eq_of ?_ (by rw [hsr]; exact r1), hlink, hrecd⟩
      show e2.world.mParent = s.parent
      rw [p1, hsp, hn, ← htp', clearParents_single_none _ _ hnone]

/-- Re-execution of a spawn action that has recorded the parents and fits the tree shapes `s`
and `t`: a successful `Execute` from a sound state of shape `s` leaves the action as it is and
ends in a sound state of shape `t`. -/
theorem spawn_execute_effect (a a1 : ActionSpawnNodes) (e e1 : Engine) (s t : TreeShape)
    (hl : Link (ActionObj.spawn a) s t) (hrecd : Recorded (ActionObj.spawn a))
    (hs : Sound e) (hsh : shape e.world = s)
    (h : a.Execute e = some (a1, e1)) :
    a1 = a ∧ Sound e1 ∧ shape e1.world = t := by
  obtain ⟨hne, hrec, hsp, hcase⟩ := hl
  have hsp' : s.parent = e.world.mParent := by rw [← hsh]; rfl
  have hsr' : s.root = e.world.mRootNode := by rw [← hsh]; rfl
  have hpar : a.mParents = a.mNodes.map t.parent := by
    rcases hrec with hr | hr
    · exact absurd hr hrecd
    · exact hr
  have hlen : a.mNodes.length ≠ 0 := fun hc => hne (List.length_eq_zero.mp hc)
  unfold ActionSpawnNodes.Execute at h
  rw [if_neg hlen, hpar] at h
  cases hloop : ActionSpawnNodes.restoreLoop a.mNodes.length a.mNodes
      (a.mNodes.map t.parent) a.mParentLinkedScenes e with
  | none => rw [hloop] at h; simp at h
  | some e2 =>
    rw [hloop] at h
    simp only [Option.map_some', Option.some.injEq, Prod.mk.injEq] at h
    obtain ⟨ha, he⟩ := h
    subst ha
    subst he
    refine ⟨rfl, ?_⟩
    rcases hcase with ⟨hall, hsr⟩ | ⟨n, hn, hnone, hroot, hsr⟩
    · obtain ⟨s1, p1, r1⟩ := spawn_restoreLoop_effect _ t.parent a.mNodes _ e e2 hs hall hloop
      refine ⟨s1, TreeShape.eq_of ?_ (by rw [← hsr, hsr']; exact r1)⟩
      show e2.world.mParent = t.parent
      rw [p1, ← hsp', hsp, restoreParents_clearParents]
    · rw [hn] at hloop
      simp only [List.map_cons, List.map_nil, hnone, List.length_singleton] at hloop
      obtain ⟨s1, p1, _, r1, _⟩ := spawn_restoreLoop_root n _ e e2 hs hloop
      refine ⟨s1, TreeShape.eq_of ?_ (by rw [hroot]; exact r1)⟩
      show e2.world.mParent = t.parent
      rw [p1, ← hsp', hsp, hn, clearParents_single_none _ _ hnone]

/-- Re-execution of any action object that can be re-executed and fits the tree shapes `s`
and `t`: a successful `Execute` from a sound state of shape `s` ends in a sound state of shape
`t`, and the object still fits. -/
theorem obj_execute_effect (a a1 : ActionObj) (e e1 : Engine) (s t : TreeShape)
    (hl : Link a s t) (hrec : Recorded a) (hs : Sound e) (hsh : shape e.world = s)
    (h : a.Execute e = some (a1, e1)) :
    Sound e1 ∧ shape e1.world = t ∧ Link a1 s t := by
  cases a with
  | spawn x =>
    simp only [ActionObj.Execute] at h
    cases hx : x.Execute e with
    | none => rw [hx] at h; simp at h
    | some r =>
      obtain ⟨x1, e2⟩ := r
      rw [hx] at h
      simp only [Option.map_some', Option.some.injEq, Prod.mk.injEq] at h
      obtain ⟨ha, he⟩ := h
      subst ha; subst he
      obtain ⟨hxa, s1, sh1⟩ := spawn_execute_effect x x1 e e2 s t hl hrec hs hsh hx
      rw [hxa]
      exact ⟨s1, sh1, hl⟩
  | delete x =>
    simp only [ActionObj.Execute] at h
    cases hx : x.Execute e with
    | none => rw [hx] at h; simp at h
    | some e2 =>
      rw [hx] at h
      simp only [Option.map_some', Option.some.injEq, Prod.mk.injEq] at h
      obtain ⟨ha, he⟩ := h
      subst ha; subst he
      obtain ⟨s1, sh1⟩ := delete_execute_effect x e e2 s t hl hs hsh hx
      exact ⟨s1, sh1, hl⟩
  | attach x =>
    simp only [ActionObj.Execute, Option.some.injEq, Prod.mk.injEq] at h
    obtain ⟨ha, he⟩ := h
    subst ha; subst he
    obtain ⟨s1, sh1⟩ := attach_execute_effect x e s t hl hs hsh
    exact ⟨s1, sh1, hl⟩
  | setRoot x =>
    simp only [ActionObj.Execute, Option.some.injEq, Prod.mk.injEq] at h
    obtain ⟨ha, he⟩ := h
    subst ha; subst he
    obtain ⟨s1, sh1⟩ := setRoot_execute_effect x e s t hl hs hsh
    exact ⟨s1, sh1, hl⟩

/-- Reversal of any action object that fits the tree shapes `s` and `t`: a successful
`Reverse` from a sound state of shape `t` ends in a sound state of shape `s`, and the object
still fits and can be re-executed. -/
theorem obj_reverse_effect (a a1 : ActionObj) (e e1 : Engine) (s t : TreeShape)
    (hl : Link a s t) (hs : Sound e) (hsh : shape e.world = t)
    (h : a.Reverse e = some (a1, e1)) :
    Sound e1 ∧ shape e1.world = s ∧ Link a1 s t ∧ Recorded a1 := by
  cases a with
  | spawn x =>
    simp only [ActionObj.Reverse] at h
    cases hx : x.Reverse e with
    | none => rw [hx] at h; simp at h
    | some r =>
      obtain ⟨x1, e2⟩ := r
      rw [hx] at h
      simp only [Option.map_some', Option.some.injEq, Prod.mk.injEq] at h
      obtain ⟨ha, he⟩ := h
      subst ha; subst he
      exact spawn_reverse_effect x x1 e e2 s t hl hs hsh hx
  | delete x =>
    simp only [ActionObj.Reverse] at h
    cases hx : x.Reverse e with
    | none => rw [hx] at h; simp at h
    | some e2 =>
      rw [hx] at h
      simp only [Option.map_some', Option.some.injEq, Prod.mk.injEq] at h
      obtain ⟨ha, he⟩ := h
      subst ha; subst he
      obtain ⟨s1, sh1⟩ := delete_reverse_effect x e e2 s t hl hs hsh hx
      exact ⟨s1, sh1, hl, trivial⟩
  | attach x =>
    simp only [ActionObj.Reverse, Option.some.injEq, Prod.mk.injEq] at h
    obtain ⟨ha, he⟩ := h
    subst ha; subst he
    obtain ⟨s1, sh1⟩ := attach_reverse_effect x e s t hl hs hsh
    exact ⟨s1, sh1, hl, trivial⟩
  | setRoot x =>
    simp only [ActionObj.Reverse, Option.some.injEq, Prod.mk.injEq] at h
    obtain ⟨ha, he⟩ := h
    subst ha; subst he
    obtain ⟨s1, sh1⟩ := setRoot_reverse_effect x e s t hl hs hsh
    exact ⟨s1, sh1, hl, trivial⟩

/-- A history that fits a tree shape still fits it after the oldest action is dropped. -/
theorem HistChain_dropLast (l : List ActionObj) :
    ∀ t : TreeShape, HistChain l t → HistChain l.dropLast t := by
  induction l with
  | nil => intro t h; exact h
  | cons a rest ih =>
    intro t h
    cases rest with
    | nil => exact trivial
    | cons b rest2 =>
      obtain ⟨s, hl, hc⟩ := h
      exact ⟨s, hl, ih s hc⟩

/-- The bounded history after a push, most recent first. -/
theorem pushed_history_reverse (hist : List ActionObj) (b : ActionObj) :
    ((if hist.length ≥ MaxActionHistoryCount then hist.eraseIdx 0 else hist) ++ [b]).reverse
      = b :: (if hist.length ≥ MaxActionHistoryCount then hist.reverse.dropLast
              else hist.reverse) := by
  split
  · cases hist with
    | nil => simp
    | cons x xs => simp [List.eraseIdx]
  · simp

/-- Pushing an executed action keeps the invariant: when the state was sound and the stacks
fitted its shape `s`, and the new state `e1` is sound and the executed object links `s` to the
shape of `e1`, the session with the object pushed and the future cleared satisfies the
invariant. -/
theorem Inv_push (st : Session) (b1 : ActionObj) (e1 : Engine) (hinv : st.Inv)
    (hs1 : Sound e1) (hl : Link b1 (shape st.engine.world) (shape e1.world)) :
    Session.Inv
      { st with engine := e1,
                mActionHistory :=
                  (if st.mActionHistory.length ≥ MaxActionHistoryCount
                   then st.mActionHistory.eraseIdx 0 else st.mActionHistory) ++ [b1],
                mActionFuture := [] } := by
  obtain ⟨_, hh, _⟩ := hinv
  refine ⟨hs1, ?_, trivial⟩
  show HistChain (_ ++ [b1]).reverse (shape e1.world)
  rw [pushed_history_reverse]
  refine ⟨shape st.engine.world, hl, ?_⟩
  split
  · exact HistChain_dropLast _ _ hh
  · exact hh

/-- A successful `ExecuteAction` keeps the invariant when a successful `Execute` of the new
action from the current state ends in a sound state and leaves an object that links the old
tree shape to the new one. -/
theorem Inv_ExecuteAction (st st1 : Session) (b : ActionObj) (hinv : st.Inv)
    (heff : ∀ b1 e1, b.Execute st.engine = some (b1, e1) →
      Sound e1 ∧ Link b1 (shape st.engine.world) (shape e1.world))
    (hex : st.ExecuteAction b = some st1) : st1.Inv := by
  unfold Session.ExecuteAction at hex
  cases hb : b.Execute st.engine with
  | none => rw [hb] at hex; simp at hex
  | some r =>
    obtain ⟨b1, e1⟩ := r
    rw [hb, Option.some_bind] at hex
    obtain ⟨hs1, hl⟩ := heff b1 e1 hb
    simp only [hs1.notPlaying, Bool.false_eq_true, if_false, Option.some.injEq] at hex
    rw [← hex]
    exact Inv_push st b1 e1 hinv hs1 hl

/-- A successful `Undo` keeps the invariant. -/
theorem Inv_Undo (st st1 : Session) (hinv : st.Inv) (h : st.Undo = some st1) : st1.Inv := by
  unfold Session.Undo at h
  split at h
  · cases hlast : st.mActionHistory.getLast? with
    | none =>
      rw [hlast] at h
      simp only [Option.some.injEq] at h
      rw [← h]; exact hinv
    | some a =>
      rw [hlast] at h
      simp only at h
      cases hr : a.Reverse st.engine with
      | none => rw [hr] at h; simp at h
      | some r =>
        obtain ⟨a1, e1⟩ := r
        rw [hr] at h
        simp only [Option.map_some', Option.some.injEq] at h
        obtain ⟨hs, hh, hf⟩ := hinv
        have hne : st.mActionHistory ≠ [] := by
          intro hc; rw [hc] at hlast; simp at hlast
        have hsplit : st.mActionHistory = st.mActionHistory.dropLast ++ [a] := by
          have h1 := (List.dropLast_append_getLast hne).symm
          have h2 : st.mActionHistory.getLast hne = a := by
            rw [List.getLast?_eq_getLast _ hne] at hlast
            exact Option.some.inj hlast
          rw [h2] at h1
          exact h1
        have hrev : st.mActionHistory.reverse = a :: st.mActionHistory.dropLast.reverse := by
          conv_lhs => rw [hsplit]
          simp
        rw [hrev] at hh
        obtain ⟨s, hl, hc⟩ := hh
        obtain ⟨s1, sh1, hl1, hrec1⟩ := obj_reverse_effect a a1 st.engine e1 s _ hl hs rfl hr
        rw [← h]
        refine ⟨s1, ?_, ?_⟩
        · show HistChain st.mActionHistory.dropLast.reverse (shape e1.world)
          rw [sh1]; exact hc
        · show FutChain (st.mActionFuture ++ [a1]).reverse (shape e1.world)
          rw [List.reverse_append, sh1]
          exact ⟨hrec1, shape st.engine.world, hl1, hf⟩
  · simp only [Option.some.injEq] at h
    rw [← h]; exact hinv

/-- A successful `Redo` keeps the invariant. -/
theorem Inv_Redo (st st1 : Session) (hinv : st.Inv) (h : st.Redo = some st1) : st1.Inv := by
  unfold Session.Redo at h
  split at h
  · cases hlast : st.mActionFuture.getLast? with
    | none =>
      rw [hlast] at h
      simp only [Option.some.injEq] at h
      rw [← h]; exact hinv
    | some a =>
      rw [hlast] at h
      simp only at h
      cases hr : a.Execute st.engine with
      | none => rw [hr] at h; simp at h
      | some r =>
        obtain ⟨a1, e1⟩ := r
        rw [hr] at h
        simp only [Option.map_some', Option.some.injEq] at h
        obtain ⟨hs, hh, hf⟩ := hinv
        have hne : st.mActionFuture ≠ [] := by
          intro hc; rw [hc] at hlast; simp at hlast
        have hsplit : st.mActionFuture = st.mActionFuture.dropLast ++ [a] := by
          have h1 := (List.dropLast_append_getLast hne).symm
          have h2 : st.mActionFuture.getLast hne = a := by
            rw [List.getLast?_eq_getLast _ hne] at hlast
            exact Option.some.inj hlast
          rw [h2] at h1
          exact h1
        have hrev : st.mActionFuture.reverse = a :: st.mActionFuture.dropLast.reverse := by
          conv_lhs => rw [hsplit]
          simp
        rw [hrev] at hf
        obtain ⟨hrec, t, hl, hc⟩ := hf
        obtain ⟨s1, sh1, hl1⟩ := obj_execute_effect a a1 st.engine e1 _ t hl hrec hs rfl hr
        rw [← h]
        refine ⟨s1, ?_, ?_⟩
        · show HistChain (st.mActionHistory ++ [a1]).reverse (shape e1.world)
          rw [List.reverse_append, sh1]
          exact ⟨shape st.engine.world, hl1, hh⟩
        · show FutChain st.mActionFuture.dropLast.reverse (shape e1.world)
          rw [sh1]; exact hc
  · simp only [Option.some.injEq] at h
    rw [← h]; exact hinv

/-- A node without parent has no ancestors. -/
theorem parentChain_of_no_parent (w : World) (k : Nat) (n : Node) (h : w.mParent n = none) :
    parentChain w k n = [] := by
  cases k with
  | zero => rfl
  | succ k => simp only [parentChain, h]

/-- A node that has no parent and is not the world root is not reachable from the root. -/
theorem GetWorld_false (w : World) (n : Node) (hp : w.mParent n = none)
    (hr : w.mRootNode ≠ some n) : GetWorld w n = false := by
  unfold GetWorld
  cases hroot : w.mRootNode with
  | none => rfl
  | some r =>
    have hne : r ≠ n := by
      intro hc; rw [hc] at hroot; exact hr hroot
    simp [ancestors, parentChain_of_no_parent w _ n hp, hne]

/-- A node of the live tree other than the world root has a parent. -/
theorem parent_of_GetWorld (w : World) (n : Node) (hg : GetWorld w n = true)
    (hr : w.mRootNode ≠ some n) : w.mParent n ≠ none := by
  intro hp
  rw [GetWorld_false w n hp hr] at hg
  cases hg

/-- What the loop of the constructor of `ActionDeleteNodes` records when it succeeds: the
parent of every node, in order; a node without parent is only accepted when the list holds one
node. -/
theorem delete_recordLoop_spec (w : World) (size : Nat) (ns : List Node) :
    ∀ acc a : ActionDeleteNodes, ActionDeleteNodes.recordLoop w size ns acc = some a →
      a.mNodes = acc.mNodes ∧ a.mParents = acc.mParents ++ ns.map w.mParent ∧
      (∀ n ∈ ns, w.mParent n ≠ none ∨ size = 1) := by
  induction ns with
  | nil =>
    intro acc a h
    simp only [ActionDeleteNodes.recordLoop, Option.some.injEq] at h
    subst h
    simp
  | cons n ns ih =>
    intro acc a h
    simp only [ActionDeleteNodes.recordLoop, GetParent] at h
    cases hp : w.mParent n with
    | none =>
      rw [hp] at h
      simp only at h
      by_cases hsz : size = 1
      · rw [if_neg (by simp [hsz])] at h
        obtain ⟨h1, h2, h3⟩ := ih _ a h
        refine ⟨h1, ?_, ?_⟩
        · rw [h2]; simp [hp]
        · intro m hm
          rcases List.mem_cons.mp hm with hmn | hmn
          · exact Or.inr hsz
          · exact h3 m hmn
      · rw [if_pos hsz] at h
        cases h
    | some q =>
      rw [hp] at h
      simp only at h
      split at h
      · cases h
      · obtain ⟨h1, h2, h3⟩ := ih _ a h
        refine ⟨h1, ?_, ?_⟩
        · rw [h2]; simp [hp]
        · intro m hm
          rcases List.mem_cons.mp hm with hmn | hmn
          · left; rw [hmn, hp]; simp
          · exact h3 m hmn

/-- A delete action just created and executed with success from a sound state: the new state
is sound and the action links the old tree shape to the new one. -/
theorem delete_fresh_effect (a : ActionDeleteNodes) (e e1 : Engine) (nodes : List Node)
    (hs : Sound e) (hnew : ActionDeleteNodes.new e.world nodes = some a)
    (h : a.Execute e = some e1) :
    Sound e1 ∧ Link (ActionObj.delete a) (shape e.world) (shape e1.world) := by
  unfold ActionDeleteNodes.new at hnew
  obtain ⟨h1, h2, h3⟩ := delete_recordLoop_spec _ _ _ _ a hnew
  simp only [List.nil_append] at h1 h2
  rw [← h1] at h2 h3
  by_cases hall : ∀ n ∈ a.mNodes, e.world.mParent n ≠ none
  · have hl : Link (ActionObj.delete a) (shape e.world)
        { parent := clearParents e.world.mParent a.mNodes, root := e.world.mRootNode } :=
      ⟨h2, rfl, Or.inl ⟨hall, rfl⟩⟩
    obtain ⟨s1, sh1⟩ := delete_execute_effect a e e1 _ _ hl hs rfl h
    rw [sh1]
    exact ⟨s1, hl⟩
  · simp only [not_forall, ne_eq, not_not] at hall
    obtain ⟨n, hn, hpn⟩ := hall
    have hlen : a.mNodes.length = 1 := by
      rcases h3 n hn with hc | hc
      · exact absurd hpn hc
      · exact hc
    have hnodes : a.mNodes = [n] := by
      cases hm : a.mNodes with
      | nil => rw [hm] at hlen; simp at hlen
      | cons x xs =>
        rw [hm] at hlen hn
        cases xs with
        | nil =>
          simp only [List.mem_singleton] at hn
          rw [hn]
        | cons y ys => simp at hlen
    have hroot : e.world.mRootNode = some n := by
      have h4 := h
      unfold ActionDeleteNodes.Execute at h4
      rw [h2, hnodes] at h4
      simp only [List.length_singleton, List.map_cons, List.map_nil, hpn] at h4
      exact (delete_executeLoop_root n e e1 hs h4).2.2.1
    have hl : Link (ActionObj.delete a) (shape e.world)
        { parent := clearParents e.world.mParent a.mNodes, root := none } :=
      ⟨h2, rfl, Or.inr ⟨n, hnodes, hpn, hroot, rfl⟩⟩
    obtain ⟨s1, sh1⟩ := delete_execute_effect a e e1 _ _ hl hs rfl h
    rw [sh1]
    exact ⟨s1, hl⟩

/-- An attach action just created for a node that has a parent links the tree shape to the
one in which the node has the new parent. -/
theorem attach_fresh_link (w : World) (n p : Node) (ci bi : Int) (a : ActionAttachNode)
    (hp : w.mParent n ≠ none)
    (hnew : ActionAttachNode.new w (some n) (some p) ci bi = some a) :
    Link (ActionObj.attach a) (shape w)
      { parent := setField w.mParent n (some p), root := w.mRootNode } := by
  simp only [ActionAttachNode.new, reduceCtorEq, if_false, Option.some.injEq] at hnew
  subst hnew
  exact ⟨p, rfl, rfl, hp, rfl, rfl⟩

/-- A set-root action just created in a sound state links the tree shape to the one in which
the new root is the world root and the parent of the old root. -/
theorem setRoot_fresh_link (e : Engine) (n : Node) (a : ActionSetRootNode) (hs : Sound e)
    (hnew : ActionSetRootNode.new e.world (some n) = some a) :
    Link (ActionObj.setRoot a) (shape e.world)
      { parent := setField (setField e.world.mParent a.mNewRoot none) a.mOldRoot
          (some a.mNewRoot),
        root := some a.mNewRoot } := by
  unfold ActionSetRootNode.new at hnew
  cases hroot : e.world.mRootNode with
  | none => rw [hroot] at hnew; simp at hnew
  | some r =>
    rw [hroot] at hnew
    simp only at hnew
    by_cases hnr : n = r
    · rw [if_pos hnr] at hnew; cases hnew
    · rw [if_neg hnr] at hnew
      simp only [GetParent] at hnew
      cases hp : e.world.mParent n with
      | none => rw [hp] at hnew; simp at hnew
      | some q =>
        rw [hp] at hnew
        simp only at hnew
        split at hnew
        · cases hnew
        · simp only [Option.some.injEq] at hnew
          subst hnew
          exact ⟨hnr, hroot, hp, hs.rootNoParent r hroot, rfl, rfl⟩

/-- Every live node id is at most the largest one. -/
theorem le_foldr_max (l : List Node) : ∀ n ∈ l, n ≤ l.foldr max 0 := by
  induction l with
  | nil => intro n hn; cases hn
  | cons x xs ih =>
    intro n hn
    simp only [List.foldr_cons]
    rcases List.mem_cons.mp hn with h | h
    · rw [h]; exact le_max_left _ _
    · exact le_trans (ih n h) (le_max_right _ _)

/-- The fresh id is the id of no live node object. -/
theorem freshNode_not_mem (w : World) : freshNode w ∉ w.nodes := by
  intro h
  have h2 : w.nodes.foldr max 0 + 1 ≤ w.nodes.foldr max 0 := le_foldr_max w.nodes _ h
  exact Nat.not_succ_le_self _ h2

/-- Construction of a node keeps the state sound. -/
theorem Construct_sound (e : Engine) (hs : Sound e) :
    Sound { e with world := (Construct e.world).2 } := by
  have hfresh := freshNode_not_mem e.world
  constructor
  · intro m hm
    refine ⟨?_, (hs.exiledDetached m hm).2⟩
    show setField e.world.mParent (freshNode e.world) none m = none
    unfold setField
    split
    · rfl
    · exact (hs.exiledDetached m hm).1
  · exact hs.exiledNodup
  · intro r hr
    show setField e.world.mParent (freshNode e.world) none r = none
    unfold setField
    split
    · rfl
    · exact hs.rootNoParent r hr
  · intro m hm
    exact List.mem_append_left _ (hs.exiledLive m hm)
  · intro r hr
    exact List.mem_append_left _ (hs.rootLive r hr)
  · intro m hm
    have hm2 : setField e.world.mParent (freshNode e.world) none m ≠ none := hm
    unfold setField at hm2
    split at hm2
    · exact absurd rfl hm2
    · exact List.mem_append_left _ (hs.parentedLive m hm2)
  · exact hs.notPlaying

/-- First execution of a spawn action made from one type id: one node is constructed and
becomes the only node of the action. -/
theorem spawn_first_Execute (e : Engine) (ty : TypeId) :
    (ActionObj.spawn (ActionSpawnNodes.ofTypes [ty])).Execute e =
      some (ActionObj.spawn { ActionSpawnNodes.ofTypes [ty] with mNodes := [freshNode e.world] },
            { e with world := (Construct e.world).2 }) := rfl

/-- Result of `EXE_SpawnNode` outside play-in-editor: the fresh node, and the session in which
it has been constructed and the spawn action pushed on the history. -/
theorem EXE_SpawnNode_eq (st : Session) (ty : TypeId)
    (hp : st.engine.playingInEditor = false) :
    st.EXE_SpawnNode ty =
      some (freshNode st.engine.world,
        { st with
            engine := { st.engine with world := (Construct st.engine.world).2 },
            mActionHistory :=
              (if st.mActionHistory.length ≥ MaxActionHistoryCount
               then st.mActionHistory.eraseIdx 0 else st.mActionHistory) ++
                [ActionObj.spawn
                  { ActionSpawnNodes.ofTypes [ty] with mNodes := [freshNode st.engine.world] }],
            mActionFuture := [] }) := by
  unfold Session.EXE_SpawnNode Session.ExecuteAction
  rw [spawn_first_Execute]
  simp [hp]

/-- The spawn action of `SpawnNode` links the tree shape before the call to the one after
the new node has been attached to a parent. -/
theorem spawn_fresh_link_parent (e : Engine) (hs : Sound e) (ty : TypeId) (p : Node)
    (t : TreeShape)
    (htp : t.parent = setField (setField e.world.mParent (freshNode e.world) none)
      (freshNode e.world) (some p))
    (htr : t.root = e.world.mRootNode) :
    Link (ActionObj.spawn
      { ActionSpawnNodes.ofTypes [ty] with mNodes := [freshNode e.world] }) (shape e.world) t := by
  have hfresh := freshNode_not_mem e.world
  have hnone : e.world.mParent (freshNode e.world) = none := by
    by_contra hc
    exact hfresh (hs.parentedLive _ hc)
  refine ⟨by simp, Or.inl rfl, ?_, Or.inl ⟨?_, ?_⟩⟩
  · show e.world.mParent = clearParents t.parent [freshNode e.world]
    funext m
    rw [htp]
    unfold clearParents setField
    by_cases hm : m = freshNode e.world
    · simp [hm, hnone]
    · simp [hm]
  · intro n hn
    simp only [List.mem_singleton] at hn
    rw [htp, hn]
    simp [setField]
  · show e.world.mRootNode = t.root
    rw [htr]

/-- The spawn action of `SpawnNode` links the tree shape before the call to the one after
the new node has been made the world root of a world that had none. -/
theorem spawn_fresh_link_root (e : Engine) (hs : Sound e) (ty : TypeId) (t : TreeShape)
    (hroot : e.world.mRootNode = none)
    (htp : t.parent = setField e.world.mParent (freshNode e.world) none)
    (htr : t.root = some (freshNode e.world)) :
    Link (ActionObj.spawn
      { ActionSpawnNodes.ofTypes [ty] with mNodes := [freshNode e.world] }) (shape e.world) t := by
  have hnone : e.world.mParent (freshNode e.world) = none := by
    by_contra hc
    exact freshNode_not_mem e.world (hs.parentedLive _ hc)
  refine ⟨by simp, Or.inl rfl, ?_, Or.inr ⟨freshNode e.world, rfl, ?_, htr, hroot⟩⟩
  · show e.world.mParent = clearParents t.parent [freshNode e.world]
    funext m
    rw [htp]
    unfold clearParents setField
    by_cases hm : m = freshNode e.world
    · simp [hm, hnone]
    · simp [hm]
  · rw [htp]; simp [setField]

/-- Result of `SpawnNode` outside play-in-editor. -/
theorem SpawnNode_eq (st : Session) (ty : TypeId) (parent : Option Node)
    (hp : st.engine.playingInEditor = false) :
    st.SpawnNode ty parent =
      some (freshNode st.engine.world,
        { st with
            engine :=
              { st.engine with
                  world :=
                    (match (if parent ≠ none then parent else st.engine.world.mRootNode) with
                     | some p =>
                       AddChild (Construct st.engine.world).2 p (freshNode st.engine.world) (-1)
                     | none =>
                       SetRootNode (Construct st.engine.world).2
                         (some (freshNode st.engine.world))),
                  editor :=
                    { st.engine.editor with mSelectedNodes := [freshNode st.engine.world] } },
            mActionHistory :=
              (if st.mActionHistory.length ≥ MaxActionHistoryCount
               then st.mActionHistory.eraseIdx 0 else st.mActionHistory) ++
                [ActionObj.spawn
                  { ActionSpawnNodes.ofTypes [ty] with mNodes := [freshNode st.engine.world] }],
            mActionFuture := [] }) := by
  unfold Session.SpawnNode
  rw [EXE_SpawnNode_eq st ty hp]
  rfl

/-- A successful `SpawnNode` keeps the invariant. -/
theorem Inv_SpawnNode (st : Session) (ty : TypeId) (parent : Option Node) (r : Node × Session)
    (hinv : st.Inv) (h : st.SpawnNode ty parent = some r) : r.2.Inv := by
  have hs := hinv.1
  have hs2 := Construct_sound st.engine hs
  have hfresh := freshNode_not_mem st.engine.world
  have hnx : freshNode st.engine.world ∉ st.engine.mExiledNodes :=
    fun hc => hfresh (hs.exiledLive _ hc)
  have hnr : st.engine.world.mRootNode ≠ some (freshNode st.engine.world) :=
    fun hc => hfresh (hs.rootLive _ hc)
  have hmem : freshNode st.engine.world ∈ (Construct st.engine.world).2.nodes :=
    List.mem_append_right _ (List.mem_singleton.mpr rfl)
  rw [SpawnNode_eq st ty parent hs.notPlaying] at h
  simp only [Option.some.injEq] at h
  rw [← h]
  rcases hp1 : (if parent ≠ none then parent else st.engine.world.mRootNode) with _ | p
  · have hroot : st.engine.world.mRootNode = none := by
      split at hp1
      · rename_i hc; exact absurd hp1 hc
      · exact hp1
    refine Inv_push st _ _ hinv ?_ ?_
    · exact hs2.setRoot (some (freshNode st.engine.world)) rfl rfl rfl rfl rfl
        (fun x hx => by
          simp only [Option.some.injEq] at hx
          subst hx
          exact ⟨hnx, by simp [Construct, setField], hmem⟩)
    · exact spawn_fresh_link_root st.engine hs ty _ hroot rfl rfl
  · obtain ⟨q1, q2, q3⟩ :=
      Attach_some (Construct st.engine.world).2 (freshNode st.engine.world) p (-1)
    refine Inv_push st _ _ hinv ?_ ?_
    · exact hs2.setParent (freshNode st.engine.world) (some p) rfl rfl q3 q2 q1
        (fun _ => ⟨hnx, hnr, hmem⟩)
    · exact spawn_fresh_link_parent st.engine hs ty p _ q1 q2

/-- A successful `EXE_DeleteNodes` keeps the invariant. -/
theorem Inv_EXE_DeleteNodes (st st1 : Session) (nodes : List Node) (hinv : st.Inv)
    (h : st.EXE_DeleteNodes nodes = some st1) : st1.Inv := by
  unfold Session.EXE_DeleteNodes at h
  cases hnew : ActionDeleteNodes.new st.engine.world nodes with
  | none => rw [hnew] at h; simp at h
  | some a =>
    rw [hnew, Option.some_bind] at h
    refine Inv_ExecuteAction st st1 _ hinv ?_ h
    intro b1 e1 hb
    simp only [ActionObj.Execute] at hb
    cases hx : a.Execute st.engine with
    | none => rw [hx] at hb; simp at hb
    | some e2 =>
      rw [hx] at hb
      simp only [Option.map_some', Option.some.injEq, Prod.mk.injEq] at hb
      obtain ⟨hb1, hb2⟩ := hb
      subst hb1; subst hb2
      exact delete_fresh_effect a st.engine e2 nodes hinv.1 hnew hx

/-- A successful `EXE_AttachNode` of a node that has a parent keeps the invariant. -/
theorem Inv_EXE_AttachNode (st st1 : Session) (n p : Node) (ci bi : Int) (hinv : st.Inv)
    (hpar : st.engine.world.mParent n ≠ none)
    (h : st.EXE_AttachNode (some n) (some p) ci bi = some st1) : st1.Inv := by
  unfold Session.EXE_AttachNode at h
  cases hnew : ActionAttachNode.new st.engine.world (some n) (some p) ci bi with
  | none => rw [hnew] at h; simp at h
  | some a =>
    rw [hnew, Option.some_bind] at h
    refine Inv_ExecuteAction st st1 _ hinv ?_ h
    intro b1 e1 hb
    simp only [ActionObj.Execute, Option.some.injEq, Prod.mk.injEq] at hb
    obtain ⟨hb1, hb2⟩ := hb
    subst hb1; subst hb2
    have hl := attach_fresh_link st.engine.world n p ci bi a hpar hnew
    obtain ⟨s1, sh1⟩ := attach_execute_effect a st.engine _ _ hl hinv.1 rfl
    refine ⟨s1, ?_⟩
    show Link _ _ (shape (a.Execute st.engine.world))
    rw [sh1]
    exact hl

/-- A successful `EXE_SetRootNode` keeps the invariant. -/
theorem Inv_EXE_SetRootNode (st st1 : Session) (n : Node) (hinv : st.Inv)
    (h : st.EXE_SetRootNode (some n) = some st1) : st1.Inv := by
  unfold Session.EXE_SetRootNode at h
  cases hnew : ActionSetRootNode.new st.engine.world (some n) with
  | none => rw [hnew] at h; simp at h
  | some a =>
    rw [hnew, Option.some_bind] at h
    refine Inv_ExecuteAction st st1 _ hinv ?_ h
    intro b1 e1 hb
    simp only [ActionObj.Execute, Option.some.injEq, Prod.mk.injEq] at hb
    obtain ⟨hb1, hb2⟩ := hb
    subst hb1; subst hb2
    have hl := setRoot_fresh_link st.engine n a hinv.1 hnew
    obtain ⟨s1, sh1⟩ := setRoot_execute_effect a st.engine _ _ hl hinv.1 rfl
    refine ⟨s1, ?_⟩
    show Link _ _ (shape (a.Execute st.engine.world))
    rw [sh1]
    exact hl

/-- One successful admissible editor operation keeps the invariant. -/
theorem Inv_step (st st1 : Session) (c : EditorCmd) (hinv : st.Inv) (hadm : c.admissible st)
    (h : st.step c = some st1) : st1.Inv := by
  cases c with
  | spawnNode ty parent =>
    simp only [Session.step] at h
    cases hr : st.SpawnNode ty parent with
    | none => rw [hr] at h; simp at h
    | some r =>
      rw [hr] at h
      simp only [Option.map_some', Option.some.injEq] at h
      rw [← h]
      exact Inv_SpawnNode st ty parent r hinv hr
  | deleteNodes nodes => exact Inv_EXE_DeleteNodes st st1 nodes hinv h
  | attachNode n p ci bi => exact Inv_EXE_AttachNode st st1 n p ci bi hinv hadm h
  | setRootNode n => exact Inv_EXE_SetRootNode st st1 n hinv h
  | undo => exact Inv_Undo st st1 hinv h
  | redo => exact Inv_Redo st st1 hinv h
  | setWantTextInput b =>
    simp only [Session.step, Option.some.injEq] at h
    rw [← h]
    exact hinv

/-- A successful run of admissible editor operations keeps the invariant. -/
theorem Inv_run (cmds : List EditorCmd) :
    ∀ st st1 : Session, st.Inv → st.admissibleRun cmds → st.run cmds = some st1 → st1.Inv := by
  induction cmds with
  | nil =>
    intro st st1 hinv _ h
    simp only [Session.run, Option.some.injEq] at h
    rw [← h]; exact hinv
  | cons c cs ih =>
    intro st st1 hinv hadm h
    simp only [Session.run] at h
    cases hstep : st.step c with
    | none => rw [hstep] at h; simp at h
    | some st2 =>
      rw [hstep, Option.some_bind] at h
      exact ih st2 st1 (Inv_step st st2 c hinv hadm.1 hstep) (hadm.2 st2 hstep) h

/-- C30: the code at the failing input. On the example camera, in perspective and in
orthographic mode, `GetFarZ` directly after `SetFarZ 500` still returns the old far plane
(`1000`, `200`) and not `500`, and `GetNearZ` returns `500` instead of the old near plane
(`1`, `2`); in general `SetFarZ z` leaves `GetFarZ` unchanged and makes `GetNearZ` return
`z`, while `SetNearZ z` makes `GetNearZ` return `z` and leaves `GetFarZ` unchanged. -/
theorem C30_set_far_z_writes_near :
    (((exampleCamera ProjectionMode.PERSPECTIVE).SetFarZ 500).GetFarZ = 1000 ∧
     ((exampleCamera ProjectionMode.PERSPECTIVE).SetFarZ 500).GetNearZ = 500 ∧
     (exampleCamera ProjectionMode.PERSPECTIVE).GetNearZ = 1 ∧
     ((exampleCamera ProjectionMode.ORTHOGRAPHIC).SetFarZ 500).GetFarZ = 200 ∧
     ((exampleCamera ProjectionMode.ORTHOGRAPHIC).SetFarZ 500).GetNearZ = 500 ∧
     (exampleCamera ProjectionMode.ORTHOGRAPHIC).GetNearZ = 2) ∧
    (∀ (F : Type) (c : CameraComponent F) (z : F),
      (c.SetFarZ z).GetFarZ = c.GetFarZ ∧ (c.SetFarZ z).GetNearZ = z ∧
      (c.SetNearZ z).GetNearZ = z ∧ (c.SetNearZ z).GetFarZ = c.GetFarZ) := by
  refine ⟨by decide, ?_⟩
  intro F c z
  obtain ⟨mode, ps, os⟩ := c
  cases mode <;>
    simp [CameraComponent.SetFarZ, CameraComponent.SetNearZ, CameraComponent.GetFarZ,
      CameraComponent.GetNearZ]

/-! ## Theorems, part 9: the action object after `ExecuteAction` -/

/-- Trace of `EXE_SpawnNode` while playing in editor, for an action object that is in
neither stack: the action is executed, then deleted by `ExecuteAction`, and then read; it is
in neither stack afterwards. -/
theorem EXE_SpawnNode_playing (s : ManagerState) (a : Action)
    (hp : s.playingInEditor = true) (hh : a ∉ s.mActionHistory) (hf : a ∉ s.mActionFuture) :
    ∃ s1, EXE_SpawnNode s a = some s1 ∧
      s1.trace = s.trace ++ [Event.execute a, Event.delete a, Event.getNodes a] ∧
      s1.mActionHistory = s.mActionHistory ∧ s1.mActionFuture = s.mActionFuture := by
  unfold EXE_SpawnNode ExecuteAction
  simp [hh, hf, hp]

/-- Trace of `EXE_SpawnNode` outside play-in-editor, for an action object that is in neither
stack: the action is executed and read, no delete of it lies between, and the history holds
it afterwards. -/
theorem EXE_SpawnNode_recording (s : ManagerState) (a : Action)
    (hp : s.playingInEditor = false) (hh : a ∉ s.mActionHistory) (hf : a ∉ s.mActionFuture) :
    ∃ s1, EXE_SpawnNode s a = some s1 ∧
      s1.trace = s.trace ++ [Event.execute a] ++ s.mActionFuture.map Event.delete ++
        [Event.getNodes a] ∧
      s1.mActionHistory.getLast? = some a := by
  unfold EXE_SpawnNode ExecuteAction
  simp only [hh, hf, hp, if_false, Bool.false_eq_true]
  split <;> simp [ClearActionFuture]

/-- C29: the code at the failing input. From the empty manager while playing in editor,
`EXE_SpawnNode` with the new action object `0` executes the action, deletes it inside
`ExecuteAction`, and then reads its node list: the read comes after the delete, and the
action is in neither stack. Outside play-in-editor the same call reads an action that the
history holds and that has not been deleted. -/
theorem C29_spawn_reads_deleted_action :
    EXE_SpawnNode { ManagerState.empty with playingInEditor := true } 0 =
      some { ManagerState.empty with
               playingInEditor := true,
               trace := [Event.execute 0, Event.delete 0, Event.getNodes 0] } ∧
    EXE_SpawnNode ManagerState.empty 0 =
      some { ManagerState.empty with
               mActionHistory := [0],
               trace := [Event.execute 0, Event.getNodes 0] } := by
  decide

/-! ## Theorems, part 10: the two stacks together -/

/-- Size of the two stacks together. -/
theorem ExecuteAction_total (s s1 : ManagerState) (a : Action)
    (hb : s.mActionHistory.length + s.mActionFuture.length ≤ MaxActionHistoryCount)
    (h : ExecuteAction s a = some s1) :
    s1.mActionHistory.length + s1.mActionFuture.length ≤ MaxActionHistoryCount := by
  unfold ExecuteAction at h
  split at h
  · cases h
  · split at h
    · cases h
    · simp only at h
      split at h
      · simp only [Option.some.injEq] at h
        rw [← h]
        exact hb
      · simp only [Option.some.injEq] at h
        rw [← h]
        simp only [ClearActionFuture, List.length_append, List.length_singleton,
          List.length_nil, Nat.add_zero]
        split
        · rename_i hge
          simp only [List.length_eraseIdx]
          have hge2 : MaxActionHistoryCount ≤ s.mActionHistory.length := hge
          have hlt : 0 < s.mActionHistory.length := by
            unfold MaxActionHistoryCount at hge2
            omega
          simp only [hlt, if_true]
          omega
        · rename_i hlt
          have hlt2 : ¬ MaxActionHistoryCount ≤ s.mActionHistory.length := hlt
          show s.mActionHistory.length + 1 ≤ MaxActionHistoryCount
          omega

/-- An undo keeps the size of the two stacks together. -/
theorem Undo_total (s : ManagerState) :
    (Undo s).mActionHistory.length + (Undo s).mActionFuture.length =
      s.mActionHistory.length + s.mActionFuture.length := by
  unfold Undo
  split
  · cases hl : s.mActionHistory.getLast? with
    | none => rfl
    | some a =>
      have hne : s.mActionHistory ≠ [] := by
        intro hc; rw [hc] at hl; simp at hl
      have hpos := List.length_pos.mpr hne
      simp only [List.length_dropLast, List.length_append, List.length_singleton]
      omega
  · rfl

/-- A redo keeps the size of the two stacks together. -/
theorem Redo_total (s : ManagerState) :
    (Redo s).mActionHistory.length + (Redo s).mActionFuture.length =
      s.mActionHistory.length + s.mActionFuture.length := by
  unfold Redo
  split
  · cases hl : s.mActionFuture.getLast? with
    | none => rfl
    | some a =>
      have hne : s.mActionFuture ≠ [] := by
        intro hc; rw [hc] at hl; simp at hl
      have hpos := List.length_pos.mpr hne
      simp only [List.length_dropLast, List.length_append, List.length_singleton]
      omega
  · rfl

/-- After `ResetUndoRedo` both stacks are empty. -/
theorem ResetUndoRedo_stacks (s : ManagerState) (exiled : List Nat) :
    (ResetUndoRedo s exiled).1.mActionHistory = [] ∧
    (ResetUndoRedo s exiled).1.mActionFuture = [] := by
  unfold ResetUndoRedo
  exact ⟨rfl, rfl⟩

/-- One call keeps the bound on the size of the two stacks together. -/
theorem stepCall_total (s s1 : ManagerState) (c : Call)
    (hb : s.mActionHistory.length + s.mActionFuture.length ≤ MaxActionHistoryCount)
    (h : stepCall s c = some s1) :
    s1.mActionHistory.length + s1.mActionFuture.length ≤ MaxActionHistoryCount := by
  cases c with
  | resetUndoRedo exiled =>
    simp only [stepCall, Option.some.injEq] at h
    rw [← h, (ResetUndoRedo_stacks s exiled).1, (ResetUndoRedo_stacks s exiled).2]
    exact Nat.zero_le _
  | cmd c =>
    cases c with
    | executeAction a => exact ExecuteAction_total s s1 a hb h
    | undo =>
      simp only [stepCall, step, Option.some.injEq] at h
      rw [← h, Undo_total]; exact hb
    | redo =>
      simp only [stepCall, step, Option.some.injEq] at h
      rw [← h, Redo_total]; exact hb
    | setPlayingInEditor b =>
      simp only [stepCall, step, Option.some.injEq] at h
      rw [← h]; exact hb
    | setWantTextInput b =>
      simp only [stepCall, step, Option.some.injEq] at h
      rw [← h]; exact hb

/-- A run of calls keeps the bound on the size of the two stacks together. -/
theorem runCalls_total (calls : List Call) :
    ∀ s s1 : ManagerState,
      s.mActionHistory.length + s.mActionFuture.length ≤ MaxActionHistoryCount →
      runCalls s calls = some s1 →
      s1.mActionHistory.length + s1.mActionFuture.length ≤ MaxActionHistoryCount := by
  induction calls with
  | nil =>
    intro s s1 hb h
    simp only [runCalls, Option.some.injEq] at h
    rw [← h]; exact hb
  | cons c cs ih =>
    intro s s1 hb h
    simp only [runCalls] at h
    cases hc : stepCall s c with
    | none => rw [hc] at h; simp at h
    | some s2 =>
      rw [hc, Option.some_bind] at h
      exact ih s2 s1 (stepCall_total s s2 c hb hc) h

/-- C28: in every state that a run of `ExecuteAction`, `Undo`, `Redo` and `ResetUndoRedo`
calls reaches from the empty manager, with the play-in-editor and text-input flags changed at
will in between, history and future together hold at most 100 actions, and so the history
holds at most 100. -/
theorem C28_total_bound (calls : List Call) (s : ManagerState)
    (h : runCalls ManagerState.empty calls = some s) :
    s.mActionHistory.length + s.mActionFuture.length ≤ 100 ∧
    s.mActionHistory.length ≤ 100 := by
  have hb := runCalls_total calls ManagerState.empty s (Nat.zero_le _) h
  unfold MaxActionHistoryCount at hb
  exact ⟨hb, by omega⟩

set_option maxRecDepth 100000 in
/-- The example calls succeed. -/
theorem exampleCalls_isSome : (runCalls ManagerState.empty exampleCalls).isSome = true := by
  decide

set_option maxRecDepth 100000 in
/-- Witness of C28: the example calls from the empty manager end with 100 actions in the
history and none in the future. -/
theorem C28_total_bound_witness :
    ∃ s, runCalls ManagerState.empty exampleCalls = some s ∧
      s.mActionHistory.length = 100 ∧ s.mActionFuture.length = 0 ∧
      (s.mActionHistory.length + s.mActionFuture.length ≤ 100 ∧
       s.mActionHistory.length ≤ 100) :=
  ⟨(runCalls ManagerState.empty exampleCalls).get exampleCalls_isSome,
   (Option.some_get exampleCalls_isSome).symm, by decide, by decide,
   C28_total_bound exampleCalls _ (Option.some_get exampleCalls_isSome).symm⟩

/-! ## Theorems, part 11: the selection passed to the delete action -/

/-- The decrement of the loop variable followed by the increment gives the variable back,
also at `0`, where the decrement wraps around. -/
theorem dec_inc_uint32 (i : Nat) (h : i < 2 ^ 32) :
    ((i + 2 ^ 32 - 1) % 2 ^ 32 + 1) % 2 ^ 32 = i := by
  omega

/-- The loop of `DeleteSelectedNodes` from index `i` on: with enough passes allowed it returns
the entries below `i` followed by the non-null entries from `i` on. -/
theorem DeleteSelectedNodes_loop_spec (fuel : Nat) :
    ∀ (i : Nat) (nodes : List (Option Node)), i ≤ nodes.length → nodes.length < 2 ^ 32 →
      nodes.length - i < fuel →
      DeleteSelectedNodes.loop fuel i nodes =
        some (nodes.take i ++ (nodes.drop i).filter (fun n => decide (n ≠ none))) := by
  induction fuel with
  | zero => intro i nodes _ _ h; omega
  | succ fuel ih =>
    intro i nodes hi hlen hfuel
    unfold DeleteSelectedNodes.loop
    by_cases hlt : i < nodes.length
    · rw [if_pos hlt]
      have hget : nodes[i]? = some nodes[i] := List.getElem?_eq_getElem hlt
      have hdrop : nodes.drop i = nodes[i] :: nodes.drop (i + 1) :=
        List.drop_eq_getElem_cons hlt
      cases hx : nodes[i] with
      | none =>
        rw [hget, hx]
        simp only
        rw [dec_inc_uint32 i (by omega)]
        have hlen2 : (nodes.eraseIdx i).length = nodes.length - 1 := by
          rw [List.length_eraseIdx]; simp [hlt]
        rw [ih i (nodes.eraseIdx i) (by omega) (by omega) (by omega)]
        have h1 : (nodes.eraseIdx i).take i = nodes.take i := by
          rw [List.eraseIdx_eq_take_drop_succ]
          rw [List.take_append_of_le_length (by rw [List.length_take]; omega)]
          rw [List.take_take]; simp
        have h2 : (nodes.eraseIdx i).drop i = nodes.drop (i + 1) := by
          rw [List.eraseIdx_eq_take_drop_succ]
          rw [List.drop_append_of_le_length (by rw [List.length_take]; omega)]
          rw [List.drop_take]; simp
        rw [h1, h2, hdrop, hx]
        simp
      | some n =>
        rw [hget, hx]
        simp only
        rw [Nat.mod_eq_of_lt (by omega)]
        rw [ih (i + 1) nodes (by omega) hlen (by omega)]
        rw [hdrop, hx]
        rw [List.take_succ, hget, hx]
        simp
    · rw [if_neg hlt]
      have hi2 : i = nodes.length := by omega
      rw [hi2]
      simp

/-- C27: for every selection (of fewer than `2 ^ 32` entries, so that the `uint32_t` loop
variable can index it), the list that `DeleteSelectedNodes` passes to `EXE_DeleteNodes` is the
selection with every null entry removed and the other entries in their original order; the
loop ends within one pass per entry, also when the first entry is null or null entries are
adjacent. -/
theorem C27_delete_selected_removes_nulls (selected : List (Option Node))
    (h : selected.length < 2 ^ 32) :
    DeleteSelectedNodes.nodes selected =
      some (selected.filter (fun n => decide (n ≠ none))) := by
  unfold DeleteSelectedNodes.nodes
  rw [DeleteSelectedNodes_loop_spec (selected.length + 1) 0 selected (Nat.zero_le _) h
    (by omega)]
  simp

/-- Witness of C27: the example selection, whose first entry is null and which has two
adjacent null entries. -/
theorem C27_delete_selected_removes_nulls_witness :
    exampleSelection.length < 2 ^ 32 ∧
    DeleteSelectedNodes.nodes exampleSelection = some [some 3, some 2, some 4] ∧
    DeleteSelectedNodes.nodes exampleSelection =
      some (exampleSelection.filter (fun n => decide (n ≠ none))) :=
  ⟨by decide, by decide,
   C27_delete_selected_removes_nulls exampleSelection (by decide)⟩

/-! ## Theorems, part 12: an edit above the count -/

/-- C23, the claim as stated fails: the example property holds two values and the edit asks
for index `5`. After `Execute` the property holds three values (not `5 + 1`), the index of
the action has become `2`, the new value `9` is at index `2`, and there is no value at
index `5`. -/
theorem C23_index_above_count_counterexample :
    exampleProperty.GetCount = 2 ∧ exampleEditFar.mIndex = 5 ∧
    (exampleEditFar.Execute exampleStore).1.found (exampleEditFar.Execute exampleStore).2 =
      some { exampleProperty with mValues := [5, 6, 9] } ∧
    ({ exampleProperty with mValues := [5, 6, 9] } : Property Nat).GetCount ≠
      exampleEditFar.mIndex + 1 ∧
    ({ exampleProperty with mValues := [5, 6, 9] } : Property Nat).GetValue
      exampleEditFar.mIndex = none ∧
    (exampleEditFar.Execute exampleStore).1.mIndex = 2 := by
  decide

/-- C23, amended: for a found vector property that is not external and has count `c` (with
`c + 1` representable as `uint32_t`) and an index `i` with `i >= c`, `Execute` grows the
property by exactly one slot to the count `c + 1`, sets the index of the action to `c`,
stores the new value at index `c` and leaves the values below `c` unchanged; the count is
`i + 1`, and the value is at index `i`, exactly when `i = c`. -/
theorem C23_grow_stores_at_count {V : Type} (a : ActionEditProperty V) (st : PropertyStore V)
    (prop : Property V) (hf : a.found st = some prop)
    (hv : prop.IsVector = true) (he : prop.IsExternal = false)
    (hi : prop.GetCount ≤ a.mIndex) (hc : prop.GetCount + 1 < 2 ^ 32) :
    ∃ prop1, (a.Execute st).1.found (a.Execute st).2 = some prop1 ∧
      prop1.GetCount = prop.GetCount + 1 ∧
      (a.Execute st).1.mIndex = prop.GetCount ∧
      prop1.GetValue prop.GetCount = some a.mValue ∧
      (∀ i, i < prop.GetCount → prop1.GetValue i = prop.GetValue i) ∧
      (prop1.GetCount = a.mIndex + 1 ↔ a.mIndex = prop.GetCount) ∧
      (prop1.GetValue a.mIndex = some a.mValue ↔ a.mIndex = prop.GetCount) := by
  obtain ⟨hex, hfound⟩ := Execute_found a st prop hf
  obtain ⟨h1, h2⟩ := executeOn_append a prop hv he hi hc
  have hcount : (a.executeOn prop).2.GetCount = prop.GetCount + 1 := by
    rw [h2]; simp [Property.GetCount]
  have hval : (a.executeOn prop).2.GetValue prop.GetCount = some a.mValue := by
    rw [h2]; simp [Property.GetValue, Property.GetCount]
  refine ⟨_, hfound, hcount, ?_, hval, ?_, ?_, ?_⟩
  · rw [hex]
    show (a.executeOn prop).1.mIndex = _
    rw [h1]
  · intro i hlt
    rw [h2]
    unfold Property.GetCount at hlt
    simp [Property.GetValue, List.getElem?_append_left hlt]
  · rw [hcount]; omega
  · constructor
    · intro hget
      by_contra hne
      have hgt : prop.GetCount + 1 ≤ a.mIndex := by omega
      have hnone : (a.executeOn prop).2.GetValue a.mIndex = none := by
        unfold Property.GetValue
        apply List.getElem?_eq_none
        have := hcount
        unfold Property.GetCount at this hgt
        rw [this]
        exact hgt
      rw [hnone] at hget
      cases hget
    · intro heq
      rw [heq]; exact hval

/-- Witness of the amended C23: the example edit at index `5` on the example property
`[5, 6]`. -/
theorem C23_grow_stores_at_count_witness :
    ∃ prop1, (exampleEditFar.Execute exampleStore).1.found
        (exampleEditFar.Execute exampleStore).2 = some prop1 ∧
      prop1.GetCount = exampleProperty.GetCount + 1 ∧
      (exampleEditFar.Execute exampleStore).1.mIndex = exampleProperty.GetCount ∧
      prop1.GetValue exampleProperty.GetCount = some exampleEditFar.mValue ∧
      (∀ i, i < exampleProperty.GetCount → prop1.GetValue i = exampleProperty.GetValue i) ∧
      (prop1.GetCount = exampleEditFar.mIndex + 1 ↔
        exampleEditFar.mIndex = exampleProperty.GetCount) ∧
      (prop1.GetValue exampleEditFar.mIndex = some exampleEditFar.mValue ↔
        exampleEditFar.mIndex = exampleProperty.GetCount) :=
  C23_grow_stores_at_count exampleEditFar exampleStore exampleProperty (by decide) rfl rfl
    (by decide) (by decide)

/-! ## Theorems, part 13: the first execution of a spawn action -/

/-- The creation loop: the new nodes are appended to the node list of the action and to the
live node objects, one per source entry that yields a node; they are pairwise different and
none of them was a live node object before. -/
theorem createLoop_spec (srcs : List Bool) :
    ∀ (acc : List Node) (w : World),
      ∃ new : List Node,
        (ActionSpawnNodes.createLoop srcs acc w).1 = acc ++ new ∧
        (ActionSpawnNodes.createLoop srcs acc w).2.nodes = w.nodes ++ new ∧
        new.length = (srcs.filter id).length ∧
        new.Nodup ∧ ∀ n ∈ new, n ∉ w.nodes := by
  induction srcs with
  | nil =>
    intro acc w
    exact ⟨[], by simp [ActionSpawnNodes.createLoop]⟩
  | cons b srcs ih =>
    intro acc w
    cases b with
    | false =>
      obtain ⟨new, h1, h2, h3, h4, h5⟩ := ih acc w
      exact ⟨new, by simpa [ActionSpawnNodes.createLoop] using h1,
        by simpa [ActionSpawnNodes.createLoop] using h2, by simpa using h3, h4, h5⟩
    | true =>
      obtain ⟨new, h1, h2, h3, h4, h5⟩ := ih (acc ++ [freshNode w]) (Construct w).2
      have hn : (Construct w).2.nodes = w.nodes ++ [freshNode w] := rfl
      refine ⟨freshNode w :: new, ?_, ?_, ?_, ?_, ?_⟩
      · show (ActionSpawnNodes.createLoop srcs (acc ++ [freshNode w]) (Construct w).2).1 = _
        rw [h1]; simp
      · show (ActionSpawnNodes.createLoop srcs (acc ++ [freshNode w]) (Construct w).2).2.nodes
          = _
        rw [h2, hn]; simp
      · simp [h3]
      · refine List.nodup_cons.mpr ⟨?_, h4⟩
        intro hc
        exact h5 _ hc (by rw [hn]; simp)
      · intro n hn2
        rcases List.mem_cons.mp hn2 with h | h
        · rw [h]; exact freshNode_not_mem w
        · intro hc
          exact h5 n h (by rw [hn]; exact List.mem_append_left _ hc)

/-- A source entry that yields no node changes nothing in the creation loop. -/
theorem createLoop_skip (s1 s2 : List Bool) :
    ∀ (acc : List Node) (w : World),
      ActionSpawnNodes.createLoop (s1 ++ false :: s2) acc w =
        ActionSpawnNodes.createLoop (s1 ++ s2) acc w := by
  induction s1 with
  | nil => intro acc w; rfl
  | cons b s1 ih =>
    intro acc w
    cases b with
    | false => exact ih acc w
    | true => exact ih _ _

/-- First execution of a spawn action made from scene references. -/
theorem ofScenes_Execute (scenes : List (Option Scene)) (e : Engine) :
    (ActionSpawnNodes.ofScenes scenes).Execute e =
      some ({ ActionSpawnNodes.ofScenes scenes with
                mNodes := (ActionSpawnNodes.createLoop (scenes.map Option.isSome) []
                  e.world).1 },
            { e with world := (ActionSpawnNodes.createLoop (scenes.map Option.isSome) []
                  e.world).2 }) := by
  cases scenes with
  | nil => rfl
  | cons s rest =>
    simp [ActionSpawnNodes.Execute, ActionSpawnNodes.ofScenes]

/-- C22: the first `Execute` of an `ActionSpawnNodes` built from a list of scene references
succeeds and creates one node per non-null scene, in list order, and none for a null scene:
the node list of the action has as many nodes as the list has non-null entries, these nodes
are new, pairwise different node objects, appended to the live node objects in the order of
the node list; and a null entry anywhere in the list changes nothing: with the null entry
left out the same nodes are spawned and the same state is reached. -/
theorem C22_null_scenes_skipped (scenes l1 l2 : List (Option Scene)) (e : Engine) :
    (∃ a1 e1, (ActionSpawnNodes.ofScenes scenes).Execute e = some (a1, e1) ∧
      a1.mNodes.length = (scenes.filter Option.isSome).length ∧
      e1.world.nodes = e.world.nodes ++ a1.mNodes ∧
      a1.mNodes.Nodup ∧ (∀ n ∈ a1.mNodes, n ∉ e.world.nodes) ∧
      e1.mExiledNodes = e.mExiledNodes) ∧
    (∃ a1 a2 e1, (ActionSpawnNodes.ofScenes (l1 ++ none :: l2)).Execute e = some (a1, e1) ∧
      (ActionSpawnNodes.ofScenes (l1 ++ l2)).Execute e = some (a2, e1) ∧
      a1.mNodes = a2.mNodes) := by
  constructor
  · obtain ⟨new, h1, h2, h3, h4, h5⟩ :=
      createLoop_spec (scenes.map Option.isSome) [] e.world
    refine ⟨_, _, ofScenes_Execute scenes e, ?_, ?_, ?_, ?_, rfl⟩
    · show (ActionSpawnNodes.createLoop (scenes.map Option.isSome) [] e.world).1.length = _
      rw [h1, List.nil_append, h3]
      simp [List.filter_map, Function.comp_def]
    · show (ActionSpawnNodes.createLoop (scenes.map Option.isSome) [] e.world).2.nodes = _
      rw [h2, h1, List.nil_append]
    · show (ActionSpawnNodes.createLoop (scenes.map Option.isSome) [] e.world).1.Nodup
      rw [h1, List.nil_append]; exact h4
    · show ∀ n ∈ (ActionSpawnNodes.createLoop (scenes.map Option.isSome) [] e.world).1, _
      rw [h1, List.nil_append]; exact h5
  · have hskip : ActionSpawnNodes.createLoop ((l1 ++ none :: l2).map Option.isSome) []
        e.world = ActionSpawnNodes.createLoop ((l1 ++ l2).map Option.isSome) [] e.world := by
      rw [List.map_append, List.map_cons, List.map_append]
      exact createLoop_skip _ _ _ _
    refine ⟨_,
      { ActionSpawnNodes.ofScenes (l1 ++ l2) with
          mNodes := (ActionSpawnNodes.createLoop ((l1 ++ l2).map Option.isSome) []
            e.world).1 },
      _, ofScenes_Execute (l1 ++ none :: l2) e, ?_, ?_⟩
    · rw [ofScenes_Execute (l1 ++ l2) e, hskip]
    · show (ActionSpawnNodes.createLoop ((l1 ++ none :: l2).map Option.isSome) []
        e.world).1 = _
      rw [hskip]

/-! ## Theorems, part 14: redundant descendants -/

/-- A node is kept by `RemoveRedundantDescendants` exactly when it is in the input list and
none of its proper ancestors is. -/
theorem mem_RemoveRedundantDescendants (w : World) (nodes : List Node) (n : Node) :
    n ∈ RemoveRedundantDescendants w nodes ↔
      n ∈ nodes ∧ ∀ a ∈ ancestors w n, a ∉ nodes := by
  unfold RemoveRedundantDescendants
  rw [List.mem_filter]
  constructor
  · rintro ⟨h1, h2⟩
    refine ⟨h1, ?_⟩
    intro a ha hc
    have : (ancestors w n).any (fun a => decide (a ∈ nodes)) = true :=
      List.any_eq_true.mpr ⟨a, ha, by simpa using hc⟩
    rw [this] at h2
    cases h2
  · rintro ⟨h1, h2⟩
    refine ⟨h1, ?_⟩
    cases hany : (ancestors w n).any (fun a => decide (a ∈ nodes)) with
    | false => rfl
    | true =>
      obtain ⟨a, ha, hc⟩ := List.any_eq_true.mp hany
      exact absurd (by simpa using hc) (h2 a ha)

/-- The parent of a live node object is the first of its ancestors. -/
theorem parent_mem_ancestors (w : World) (c p : Node) (hc : c ∈ w.nodes)
    (hp : w.mParent c = some p) : p ∈ ancestors w c := by
  unfold ancestors
  have hlen : 0 < w.nodes.length := List.length_pos_of_mem hc
  obtain ⟨k, hk⟩ := Nat.exists_eq_succ_of_ne_zero (Nat.pos_iff_ne_zero.mp hlen)
  rw [hk]
  simp [parentChain, hp]

/-- C21: `RemoveRedundantDescendants` leaves exactly the input nodes that have no proper
ancestor in the input list, in their original order. So a child `C` of a node `P` of the
list is not in the result, while `P` is when none of its own ancestors is in the list; no
node of the result is a descendant of another node of the result; and the result is the node
list that an `ActionDeleteNodes` built from the input holds, and the list of nodes to clone
that a clone-based `ActionSpawnNodes` holds. -/
theorem C21_remove_redundant_descendants (w : World) (nodes : List Node) :
    RemoveRedundantDescendants w nodes =
      nodes.filter (fun n => decide (∀ a ∈ ancestors w n, a ∉ nodes)) ∧
    (RemoveRedundantDescendants w nodes).Sublist nodes ∧
    (∀ P C, C ∈ w.nodes → w.mParent C = some P → P ∈ nodes →
      C ∉ RemoveRedundantDescendants w nodes) ∧
    (∀ P, P ∈ nodes → (∀ a ∈ ancestors w P, a ∉ nodes) →
      P ∈ RemoveRedundantDescendants w nodes) ∧
    (∀ n ∈ RemoveRedundantDescendants w nodes, ∀ m ∈ RemoveRedundantDescendants w nodes,
      m ∉ ancestors w n) ∧
    (∀ a, ActionDeleteNodes.new w nodes = some a →
      a.mNodes = RemoveRedundantDescendants w nodes) ∧
    (ActionSpawnNodes.ofNodes w nodes).mSrcNodes = RemoveRedundantDescendants w nodes := by
  refine ⟨?_, ?_, ?_, ?_, ?_, ?_, rfl⟩
  · unfold RemoveRedundantDescendants
    apply List.filter_congr
    intro n _
    cases hany : (ancestors w n).any (fun a => decide (a ∈ nodes)) with
    | false =>
      symm
      simp only [Bool.not_false, decide_eq_true_eq]
      intro a ha hc
      have : (ancestors w n).any (fun a => decide (a ∈ nodes)) = true :=
        List.any_eq_true.mpr ⟨a, ha, by simpa using hc⟩
      rw [this] at hany
      cases hany
    | true =>
      symm
      simp only [Bool.not_true, decide_eq_false_iff_not]
      obtain ⟨a, ha, hc⟩ := List.any_eq_true.mp hany
      intro hall
      exact hall a ha (by simpa using hc)
  · unfold RemoveRedundantDescendants
    exact List.filter_sublist _
  · intro P C hC hp hP hmem
    exact ((mem_RemoveRedundantDescendants w nodes C).mp hmem).2 P
      (parent_mem_ancestors w C P hC hp) hP
  · intro P hP hall
    exact (mem_RemoveRedundantDescendants w nodes P).mpr ⟨hP, hall⟩
  · intro n hn m hm hanc
    exact ((mem_RemoveRedundantDescendants w nodes n).mp hn).2 m hanc
      ((mem_RemoveRedundantDescendants w nodes m).mp hm).1
  · intro a ha
    unfold ActionDeleteNodes.new at ha
    exact (delete_recordLoop_spec _ _ _ _ a ha).1

/-- Witness of C21: in the example world node `1` is the parent of the nodes `3` and `4`;
from the list `[3, 1, 4]` only node `1` is left. -/
theorem C21_remove_redundant_descendants_witness :
    RemoveRedundantDescendants exampleWorld [3, 1, 4] = [1] ∧
    3 ∉ RemoveRedundantDescendants exampleWorld [3, 1, 4] ∧
    1 ∈ RemoveRedundantDescendants exampleWorld [3, 1, 4] :=
  ⟨by decide,
   (C21_remove_redundant_descendants exampleWorld [3, 1, 4]).2.2.1 1 3 (by decide) rfl
     (by decide),
   (C21_remove_redundant_descendants exampleWorld [3, 1, 4]).2.2.2.1 1 (by decide)
     (by decide)⟩

/-! ## Theorems, part 15: deleting nodes, while playing in editor and outside -/

/-- The example with `Redo` while playing in editor succeeds. -/
theorem redoWhilePlaying_isSome : redoWhilePlaying.isSome = true := by decide

/-- C24: the code at the failing input. Node `2` of the example session is deleted and the
delete is undone outside play-in-editor; then play-in-editor begins and `Redo` is called.
`Redo` executes the delete action and pushes it on the history: afterwards the history holds
the `ActionDeleteNodes` of node `2`, whose `Execute` has marked node `2` pending-destroy and
has not exiled it (the exile list is empty and node `2` still has its parent). The next
`Undo`, while playing or after play has ended, calls `Reverse` and so `RestoreExiledNode` on
node `2`, which is not in the exile list: the assertion of `RestoreExiledNode` fails. -/
theorem C24_redo_while_playing_keeps_delete :
    ∃ st, redoWhilePlaying = some st ∧
      st.mActionHistory =
        [ActionObj.delete
          { mNodes := [2], mParents := [some 1], mChildIndices := [0],
            mBoneIndices := [-1] }] ∧
      st.engine.playingInEditor = true ∧
      st.engine.world.mPendingDestroy 2 = true ∧
      st.engine.world.mParent 2 = some 1 ∧
      st.engine.mExiledNodes = [] ∧
      RestoreExiledNode st.engine 2 = none ∧
      st.Undo = none ∧
      (st.SetPlayingInEditor false).Undo = none :=
  ⟨redoWhilePlaying.get redoWhilePlaying_isSome,
   (Option.some_get redoWhilePlaying_isSome).symm,
   by decide, by decide, by decide, by decide, by decide,
   Option.isNone_iff_eq_none.mp (by decide), Option.isNone_iff_eq_none.mp (by decide),
   Option.isNone_iff_eq_none.mp (by decide)⟩

/-- A successful `ExileNode`: the node was not exiled and had no parent; it is appended to
the exile list, and the world and the play-in-editor flag stay as they are. -/
theorem ExileNode_some (e e1 : Engine) (n : Node) (hex : ExileNode e n = some e1) :
    n ∉ e.mExiledNodes ∧ e.world.mParent n = none ∧ e1.world = e.world ∧
      e1.mExiledNodes = e.mExiledNodes ++ [n] ∧ e1.playingInEditor = e.playingInEditor := by
  have hx : n ∉ e.mExiledNodes := ExileNode_not_mem e e1 n hex
  have hp : e.world.mParent n = none := by
    by_contra hp
    simp [ExileNode, hx, GetParent, hp] at hex
  obtain ⟨e2, h1, h2, h3, h4⟩ := ExileNode_ok e n hx hp
  rw [hex] at h1
  cases h1
  exact ⟨hx, hp, h2, h3, h4⟩

/-- Pending-destroy flags after `Detach`: unchanged. -/
theorem Detach_mPendingDestroy (w : World) (n : Node) :
    (Detach w n).mPendingDestroy = w.mPendingDestroy := by
  unfold Detach
  cases w.mParent n <;> rfl

/-- The chain of parents only depends on the parents. -/
theorem parentChain_congr (w1 w2 : World) (h : w1.mParent = w2.mParent) :
    ∀ (k : Nat) (n : Node), parentChain w1 k n = parentChain w2 k n := by
  intro k
  induction k with
  | zero => intro n; rfl
  | succ k ih =>
    intro n
    simp only [parentChain, h]
    cases w2.mParent n with
    | none => rfl
    | some p => simp only [ih p]

/-- Whether a node is in the world only depends on the parents, the root and the number of
live node objects. -/
theorem GetWorld_congr (w1 w2 : World) (hp : w1.mParent = w2.mParent)
    (hr : w1.mRootNode = w2.mRootNode) (hn : w1.nodes = w2.nodes) (n : Node) :
    GetWorld w1 n = GetWorld w2 n := by
  unfold GetWorld ancestors
  rw [hr, hn, parentChain_congr w1 w2 hp]

/-- Loop of `ActionDeleteNodes::Execute` while playing in editor: it succeeds when every node
is in the world; every node is then marked pending-destroy and nothing else changes. -/
theorem delete_executeLoop_playing (size : Nat) (ns : List Node) :
    ∀ (ps : List (Option Node)) (e : Engine), e.playingInEditor = true →
      (∀ n ∈ ns, GetWorld e.world n = true) →
      ∃ e1, ActionDeleteNodes.executeLoop size ns ps e = some e1 ∧
        e1.world.mParent = e.world.mParent ∧
        e1.world.mRootNode = e.world.mRootNode ∧
        e1.world.mChildren = e.world.mChildren ∧
        e1.world.nodes = e.world.nodes ∧
        e1.mExiledNodes = e.mExiledNodes ∧
        (∀ m, e1.world.mPendingDestroy m =
          if m ∈ ns then true else e.world.mPendingDestroy m) := by
  induction ns with
  | nil =>
    intro ps e _ _
    exact ⟨e, rfl, rfl, rfl, rfl, rfl, rfl, fun m => by simp⟩
  | cons n ns ih =>
    intro ps e hp hw
    have hn : GetWorld e.world n = true := hw n (List.mem_cons_self _ _)
    have hw2 : ∀ m ∈ ns, GetWorld (SetPendingDestroy e.world n true) m = true := by
      intro m hm
      rw [GetWorld_congr (SetPendingDestroy e.world n true) e.world rfl rfl rfl]
      exact hw m (List.mem_cons_of_mem _ hm)
    obtain ⟨e1, h1, h2, h3, h4, h5, h6, h7⟩ :=
      ih ps.tail { e with world := SetPendingDestroy e.world n true } hp hw2
    refine ⟨e1, ?_, h2, h3, h4, h5, h6, ?_⟩
    · simp only [ActionDeleteNodes.executeLoop, hn, Bool.not_true, Bool.false_eq_true,
        if_false]
      rw [if_pos hp]
      exact h1
    · intro m
      rw [h7 m]
      by_cases hm : m ∈ ns
      · simp [hm]
      · by_cases hmn : m = n
        · simp [hmn, SetPendingDestroy, setField]
        · simp [hm, hmn, SetPendingDestroy, setField]

/-- Loop of `ActionDeleteNodes::Execute` while playing in editor: it fails when one of the
nodes is not in the world. -/
theorem delete_executeLoop_playing_world (size : Nat) (ns : List Node) :
    ∀ (ps : List (Option Node)) (e e1 : Engine), e.playingInEditor = true →
      ActionDeleteNodes.executeLoop size ns ps e = some e1 →
      ∀ n ∈ ns, GetWorld e.world n = true := by
  induction ns with
  | nil => intro _ _ _ _ _ n hn; cases hn
  | cons n ns ih =>
    intro ps e e1 hp h m hm
    simp only [ActionDeleteNodes.executeLoop] at h
    cases hn : GetWorld e.world n with
    | false => rw [hn] at h; simp at h
    | true =>
      rw [hn] at h
      simp only [Bool.not_true, Bool.false_eq_true, if_false] at h
      rw [if_pos hp] at h
      rcases List.mem_cons.mp hm with hmn | hmn
      · rw [hmn]; exact hn
      · have := ih ps.tail { e with world := SetPendingDestroy e.world n true } e1 hp h m hmn
        rw [← GetWorld_congr (SetPendingDestroy e.world n true) e.world rfl rfl rfl]
        exact this

/-- Loop of `ActionDeleteNodes::Execute` outside play-in-editor, when it succeeds: the nodes
are appended to the exile list in order, each of them has no parent afterwards, the other
nodes keep their parent, no pending-destroy flag changes, and the world root is unset exactly
when a null parent was recorded (for the single node of the list, the world root). -/
theorem delete_executeLoop_recording (size : Nat) (ns : List Node) :
    ∀ (ps : List (Option Node)) (e e1 : Engine), e.playingInEditor = false →
      ActionDeleteNodes.executeLoop size ns ps e = some e1 →
      e1.mExiledNodes = e.mExiledNodes ++ ns ∧
      e1.world.mParent = clearParents e.world.mParent ns ∧
      e1.world.mPendingDestroy = e.world.mPendingDestroy ∧
      e1.world.nodes = e.world.nodes ∧
      ((∀ p ∈ ps.take ns.length, p ≠ none) → e1.world.mRootNode = e.world.mRootNode) ∧
      (none ∈ ps.take ns.length →
        size = 1 ∧ e1.world.mRootNode = none ∧ ∃ n ∈ ns, e.world.mRootNode = some n) := by
  induction ns with
  | nil =>
    intro ps e e1 _ h
    simp only [ActionDeleteNodes.executeLoop, Option.some.injEq] at h
    subst h
    refine ⟨by simp, by funext m; simp [clearParents], rfl, rfl, fun _ => rfl, ?_⟩
    intro hc
    simp at hc
  | cons n ns ih =>
    intro ps e e1 hp h
    simp only [ActionDeleteNodes.executeLoop] at h
    cases hn : GetWorld e.world n with
    | false => rw [hn] at h; simp at h
    | true =>
      rw [hn] at h
      simp only [Bool.not_true, Bool.false_eq_true, if_false] at h
      rw [if_neg (by rw [hp]; simp)] at h
      cases ps with
      | nil => simp at h
      | cons p ps1 =>
        cases p with
        | some q =>
          simp only at h
          cases hex : ExileNode { e with world := Detach e.world n } n with
          | none => rw [hex] at h; simp at h
          | some e2 =>
            rw [hex, Option.some_bind] at h
            obtain ⟨_, _, x3, x4, x5⟩ := ExileNode_some _ e2 n hex
            have hp2 : e2.playingInEditor = false := by rw [x5]; exact hp
            obtain ⟨i1, i2, i3, i4, i5, i6⟩ := ih ps1 e2 e1 hp2 h
            have hw2 : e2.world = Detach e.world n := x3
            refine ⟨?_, ?_, ?_, ?_, ?_, ?_⟩
            · rw [i1, x4]; simp
            · rw [i2, hw2, Detach_mParent, clearParents_cons]
            · rw [i3, hw2, Detach_mPendingDestroy]
            · rw [i4, hw2, Detach_nodes]
            · intro hall
              rw [i5 (fun p hp3 => hall p (by simp [List.take, hp3])), hw2, Detach_mRootNode]
            · intro hmem
              have hmem2 : none ∈ ps1.take ns.length := by
                simpa [List.take] using hmem
              obtain ⟨j1, j2, m, hm, j3⟩ := i6 hmem2
              refine ⟨j1, j2, m, List.mem_cons_of_mem _ hm, ?_⟩
              rw [← j3, hw2, Detach_mRootNode]
        | none =>
          simp only at h
          by_cases hsz : size = 1
          · rw [if_neg (by simp [hsz])] at h
            by_cases hroot : e.world.mRootNode = some n
            · rw [if_neg (by simp [hroot])] at h
              cases hex : ExileNode { e with world := SetRootNode e.world none } n with
              | none => rw [hex] at h; simp at h
              | some e2 =>
                rw [hex, Option.some_bind] at h
                obtain ⟨_, x2, x3, x4, x5⟩ := ExileNode_some _ e2 n hex
                have hp2 : e2.playingInEditor = false := by rw [x5]; exact hp
                obtain ⟨i1, i2, i3, i4, i5, i6⟩ := ih ps1 e2 e1 hp2 h
                have hw2 : e2.world = SetRootNode e.world none := x3
                have hpn : e.world.mParent n = none := x2
                have hroot1 : e1.world.mRootNode = none := by
                  by_cases hmem2 : none ∈ ps1.take ns.length
                  · exact (i6 hmem2).2.1
                  · rw [i5 (fun p hp3 hc => hmem2 (by rw [← hc]; exact hp3)), hw2]
                    rfl
                refine ⟨?_, ?_, ?_, ?_, ?_, ?_⟩
                · rw [i1, x4]; simp
                · rw [i2, hw2]
                  show clearParents e.world.mParent ns = _
                  rw [← clearParents_cons, setField_same _ _ _ hpn]
                · rw [i3, hw2]; rfl
                · rw [i4, hw2]; rfl
                · intro hall
                  exact absurd rfl (hall none (by simp [List.take]))
                · intro _
                  exact ⟨hsz, hroot1, n, List.mem_cons_self _ _, hroot⟩
            · rw [if_pos hroot] at h
              cases h
          · rw [if_pos hsz] at h
            cases h

/-- The chain of parents of a node is the same in two worlds whose parents differ at most at
a node `x` that is neither the node nor on its chain. -/
theorem parentChain_of_agree (w1 w2 : World) (x : Node)
    (h : ∀ m, m ≠ x → w1.mParent m = w2.mParent m) :
    ∀ (k : Nat) (n : Node), n ≠ x → x ∉ parentChain w2 k n →
      parentChain w1 k n = parentChain w2 k n := by
  intro k
  induction k with
  | zero => intro n _ _; rfl
  | succ k ih =>
    intro n hn hx
    simp only [parentChain, h n hn] at hx ⊢
    cases hp : w2.mParent n with
    | none => rfl
    | some p =>
      rw [hp] at hx
      simp only [List.mem_cons, not_or] at hx
      simp only [ih p (fun hc => hx.1 hc.symm) hx.2]

/-- Detaching a node `x` changes neither the ancestors of another node that does not have
`x` among its ancestors, nor whether that node is in the world. -/
theorem Detach_other (w : World) (x n : Node) (hn : n ≠ x) (hx : x ∉ ancestors w n) :
    ancestors (Detach w x) n = ancestors w n ∧ GetWorld (Detach w x) n = GetWorld w n := by
  have hanc : ancestors (Detach w x) n = ancestors w n := by
    unfold ancestors
    rw [Detach_nodes]
    exact parentChain_of_agree (Detach w x) w x
      (fun m hm => Detach_mParent_of_ne w x m hm) _ n hn hx
  refine ⟨hanc, ?_⟩
  unfold GetWorld
  rw [Detach_mRootNode, hanc]

/-- Loop of `ActionDeleteNodes::Execute` outside play-in-editor succeeds on pairwise
different nodes of the world that are not exiled, none of which is an ancestor of another,
with a non-null parent recorded for each. -/
theorem delete_executeLoop_succeeds (size : Nat) (g : Node → Option Node) (ns : List Node) :
    ∀ e : Engine, e.playingInEditor = false → ns.Nodup →
      (∀ n ∈ ns, GetWorld e.world n = true) → (∀ n ∈ ns, n ∉ e.mExiledNodes) →
      (∀ n ∈ ns, ∀ m ∈ ns, m ∉ ancestors e.world n) → (∀ n ∈ ns, g n ≠ none) →
      ∃ e1, ActionDeleteNodes.executeLoop size ns (ns.map g) e = some e1 := by
  induction ns with
  | nil => intro e _ _ _ _ _ _; exact ⟨e, rfl⟩
  | cons n ns ih =>
    intro e hp hnd hw hx hanc hg
    obtain ⟨hnn, hnd2⟩ := List.nodup_cons.mp hnd
    have hn : GetWorld e.world n = true := hw n (List.mem_cons_self _ _)
    obtain ⟨q, hq⟩ := Option.ne_none_iff_exists'.mp (hg n (List.mem_cons_self _ _))
    obtain ⟨e2, h1, h2, h3, h4⟩ :=
      ExileNode_ok { e with world := Detach e.world n } n (hx n (List.mem_cons_self _ _))
        (Detach_mParent_self e.world n)
    have hw2 : e2.world = Detach e.world n := h2
    have hother : ∀ m ∈ ns, ancestors e2.world m = ancestors e.world m ∧
        GetWorld e2.world m = GetWorld e.world m := by
      intro m hm
      rw [hw2]
      exact Detach_other e.world n m (fun hc => hnn (hc ▸ hm))
        (hanc m (List.mem_cons_of_mem _ hm) n (List.mem_cons_self _ _))
    obtain ⟨e1, hloop⟩ := ih e2 (by rw [h4]; exact hp) hnd2
      (fun m hm => by rw [(hother m hm).2]; exact hw m (List.mem_cons_of_mem _ hm))
      (fun m hm => by
        rw [h3]
        intro hc
        rcases List.mem_append.mp hc with hc | hc
        · exact hx m (List.mem_cons_of_mem _ hm) hc
        · exact hnn (by rw [← List.mem_singleton.mp hc]; exact hm))
      (fun m hm k hk => by
        rw [(hother m hm).1]
        exact hanc m (List.mem_cons_of_mem _ hm) k (List.mem_cons_of_mem _ hk))
      (fun m hm => hg m (List.mem_cons_of_mem _ hm))
    refine ⟨e1, ?_⟩
    simp only [ActionDeleteNodes.executeLoop, List.map_cons, hn, Bool.not_true,
      Bool.false_eq_true, if_false, hq]
    rw [if_neg (by rw [hp]; simp)]
    rw [h1, Option.some_bind]
    exact hloop

/-- Loop of `ActionDeleteNodes::Execute` outside play-in-editor succeeds on the world root
when it is the only node, has no parent and is not exiled. -/
theorem delete_executeLoop_root_succeeds (n : Node) (e : Engine)
    (hp : e.playingInEditor = false) (hroot : e.world.mRootNode = some n)
    (hpar : e.world.mParent n = none) (hx : n ∉ e.mExiledNodes) :
    ∃ e1, ActionDeleteNodes.executeLoop 1 [n] [none] e = some e1 := by
  have hn : GetWorld e.world n = true := by
    unfold GetWorld
    rw [hroot]
    simp
  obtain ⟨e2, h1, _⟩ :=
    ExileNode_ok { e with world := SetRootNode e.world none } n hx hpar
  refine ⟨e2, ?_⟩
  simp only [ActionDeleteNodes.executeLoop, hn, Bool.not_true, Bool.false_eq_true, if_false]
  rw [if_neg (by rw [hp]; simp)]
  simp only [ne_eq, not_true_eq_false, if_false, hroot]
  rw [h1, Option.some_bind]

/-- Outside play-in-editor, `Execute` of a delete action just built from pairwise different
nodes of the world that are not exiled succeeds. -/
theorem delete_Execute_succeeds (a : ActionDeleteNodes) (e : Engine) (nodes : List Node)
    (hp : e.playingInEditor = false) (hnew : ActionDeleteNodes.new e.world nodes = some a)
    (hnd : nodes.Nodup) (hw : ∀ n ∈ nodes, GetWorld e.world n = true)
    (hx : ∀ n ∈ nodes, n ∉ e.mExiledNodes) :
    ∃ e1, a.Execute e = some e1 := by
  have hnew2 := hnew
  unfold ActionDeleteNodes.new at hnew2
  obtain ⟨h1, h2, h3⟩ := delete_recordLoop_spec _ _ _ _ a hnew2
  simp only [List.nil_append] at h1 h2
  rw [← h1] at h2 h3
  have hsub : ∀ n ∈ a.mNodes, n ∈ nodes ∧ ∀ k ∈ ancestors e.world n, k ∉ nodes := by
    intro n hn
    rw [h1] at hn
    exact (mem_RemoveRedundantDescendants e.world nodes n).mp hn
  unfold ActionDeleteNodes.Execute
  rw [h2]
  by_cases hall : ∀ n ∈ a.mNodes, e.world.mParent n ≠ none
  · refine delete_executeLoop_succeeds _ e.world.mParent a.mNodes e hp ?_
      (fun n hn => hw n (hsub n hn).1) (fun n hn => hx n (hsub n hn).1)
      (fun n hn m hm hc => (hsub n hn).2 m hc (hsub m hm).1) hall
    rw [h1]
    unfold RemoveRedundantDescendants
    exact hnd.filter _
  · simp only [not_forall, ne_eq, not_not] at hall
    obtain ⟨n, hn, hpn⟩ := hall
    have hlen : a.mNodes.length = 1 := by
      rcases h3 n hn with hc | hc
      · exact absurd hpn hc
      · exact hc
    have hnodes : a.mNodes = [n] := by
      cases hm : a.mNodes with
      | nil => rw [hm] at hlen; simp at hlen
      | cons x xs =>
        rw [hm] at hlen hn
        cases xs with
        | nil =>
          simp only [List.mem_singleton] at hn
          rw [hn]
        | cons y ys => simp at hlen
    have hroot : e.world.mRootNode = some n := by
      by_contra hc
      have := GetWorld_false e.world n hpn hc
      rw [hw n (hsub n hn).1] at this
      cases this
    rw [hnodes]
    simp only [List.length_singleton, List.map_cons, List.map_nil, hpn]
    exact delete_executeLoop_root_succeeds n e hp hroot hpn (hx n (hsub n hn).1)

/-- C25: `ActionDeleteNodes::Execute`. While playing in editor it succeeds exactly when every
listed node is in the world, and then marks every listed node pending-destroy and leaves the
parents, the world root and the exile list unchanged. Outside play-in-editor a successful
call leaves every listed node with no parent and the other nodes with their parent, changes
no pending-destroy flag, appends the listed nodes to the exile list in list order, and keeps
the world root unless a null parent was recorded, in which case the list holds one node, the
world root, and the root is unset; and the call does succeed for an action just built from
pairwise different nodes of the world that are not exiled. -/
theorem C25_delete_execute (a : ActionDeleteNodes) (e : Engine) :
    (e.playingInEditor = true →
      ((∃ e1, a.Execute e = some e1) ↔ ∀ n ∈ a.mNodes, GetWorld e.world n = true) ∧
      ∀ e1, a.Execute e = some e1 →
        (∀ n ∈ a.mNodes, e1.world.mPendingDestroy n = true) ∧
        e1.world.mParent = e.world.mParent ∧
        e1.world.mRootNode = e.world.mRootNode ∧
        e1.mExiledNodes = e.mExiledNodes) ∧
    (e.playingInEditor = false →
      (∀ e1, a.Execute e = some e1 →
        (∀ n ∈ a.mNodes, e1.world.mParent n = none) ∧
        (∀ m, m ∉ a.mNodes → e1.world.mParent m = e.world.mParent m) ∧
        e1.world.mPendingDestroy = e.world.mPendingDestroy ∧
        e1.mExiledNodes = e.mExiledNodes ++ a.mNodes ∧
        ((∀ p ∈ a.mParents.take a.mNodes.length, p ≠ none) →
          e1.world.mRootNode = e.world.mRootNode) ∧
        (none ∈ a.mParents.take a.mNodes.length →
          ∃ n, a.mNodes = [n] ∧ e.world.mRootNode = some n ∧ e1.world.mRootNode = none)) ∧
      (∀ nodes, ActionDeleteNodes.new e.world nodes = some a → nodes.Nodup →
        (∀ n ∈ nodes, GetWorld e.world n = true) → (∀ n ∈ nodes, n ∉ e.mExiledNodes) →
        ∃ e1, a.Execute e = some e1)) := by
  refine ⟨?_, ?_⟩
  · intro hp
    have heff : ∀ e1, a.Execute e = some e1 →
        (∀ n ∈ a.mNodes, GetWorld e.world n = true) ∧
        (∀ n ∈ a.mNodes, e1.world.mPendingDestroy n = true) ∧
        e1.world.mParent = e.world.mParent ∧
        e1.world.mRootNode = e.world.mRootNode ∧
        e1.mExiledNodes = e.mExiledNodes := by
      intro e1 h
      have hw := delete_executeLoop_playing_world _ a.mNodes a.mParents e e1 hp h
      obtain ⟨e2, h1, h2, h3, _, _, h6, h7⟩ :=
        delete_executeLoop_playing a.mNodes.length a.mNodes a.mParents e hp hw
      have he : e2 = e1 := by
        unfold ActionDeleteNodes.Execute at h
        rw [h] at h1
        exact (Option.some.inj h1).symm
      subst he
      exact ⟨hw, fun n hn => by rw [h7 n]; simp [hn], h2, h3, h6⟩
    refine ⟨⟨?_, ?_⟩, fun e1 h => (heff e1 h).2⟩
    · rintro ⟨e1, h⟩
      exact (heff e1 h).1
    · intro hw
      obtain ⟨e2, h1, _⟩ :=
        delete_executeLoop_playing a.mNodes.length a.mNodes a.mParents e hp hw
      exact ⟨e2, h1⟩
  · intro hp
    refine ⟨?_, fun nodes hnew hnd hw hx => delete_Execute_succeeds a e nodes hp hnew hnd hw hx⟩
    intro e1 h
    obtain ⟨h1, h2, h3, _, h5, h6⟩ :=
      delete_executeLoop_recording a.mNodes.length a.mNodes a.mParents e e1 hp h
    refine ⟨?_, ?_, h3, h1, h5, ?_⟩
    · intro n hn
      rw [h2]; simp [clearParents, hn]
    · intro m hm
      rw [h2]; simp [clearParents, hm]
    · intro hmem
      obtain ⟨hsz, hroot, n, hn, hr⟩ := h6 hmem
      refine ⟨n, ?_, hr, hroot⟩
      cases hm : a.mNodes with
      | nil => rw [hm] at hn; cases hn
      | cons x xs =>
        rw [hm] at hsz hn
        cases xs with
        | nil =>
          simp only [List.mem_singleton] at hn
          rw [hn]
        | cons y ys => simp at hsz

/-- Witness of C25: the delete action built from the nodes `[3, 2]` of the example world.
Outside play-in-editor its `Execute` succeeds, nodes `3` and `2` have no parent afterwards
and the exile list is `[3, 2]`; while playing in editor it succeeds, both nodes are marked
pending-destroy and the exile list stays empty. -/
theorem C25_delete_execute_witness :
    exampleEngine.playingInEditor = false ∧ examplePlaying.playingInEditor = true ∧
    ActionDeleteNodes.new exampleEngine.world [3, 2] = some exampleDelete ∧
    (∃ e1, exampleDelete.Execute exampleEngine = some e1 ∧
      (∀ n ∈ exampleDelete.mNodes, e1.world.mParent n = none) ∧
      e1.mExiledNodes = [3, 2]) ∧
    (∃ e1, exampleDelete.Execute examplePlaying = some e1 ∧
      (∀ n ∈ exampleDelete.mNodes, e1.world.mPendingDestroy n = true) ∧
      e1.mExiledNodes = []) := by
  have hnew : ActionDeleteNodes.new exampleEngine.world [3, 2] = some exampleDelete := by
    decide
  obtain ⟨e1, h1⟩ :=
    ((C25_delete_execute exampleDelete exampleEngine).2 rfl).2 [3, 2] hnew (by decide)
      (by decide) (by decide)
  obtain ⟨a1, _, _, a4, _⟩ := ((C25_delete_execute exampleDelete exampleEngine).2 rfl).1 e1 h1
  obtain ⟨e2, h2⟩ :=
    ((C25_delete_execute exampleDelete examplePlaying).1 rfl).1.mpr (by decide)
  obtain ⟨b1, _, _, b4⟩ := ((C25_delete_execute exampleDelete examplePlaying).1 rfl).2 e2 h2
  exact ⟨rfl, rfl, hnew, ⟨e1, h1, a1, a4⟩, ⟨e2, h2, b1, b4⟩⟩

/-! ## Theorems, part 16: executing a spawn action again -/

/-- A successful `RestoreExiledNode`: the node was exiled, its first entry is erased, the
world and the play-in-editor flag stay as they are. -/
theorem RestoreExiledNode_ok (e : Engine) (n : Node) (h : n ∈ e.mExiledNodes) :
    RestoreExiledNode e n = some { e with mExiledNodes := e.mExiledNodes.erase n } := by
  unfold RestoreExiledNode
  rw [if_pos h]

/-- Erasing a node from a duplicate-free exile list and then leaving out the nodes of a list
leaves out the node and the nodes of the list. -/
theorem erase_filter_not_mem (l : List Node) (n : Node) (ns : List Node) (hnd : l.Nodup) :
    (l.erase n).filter (fun m => decide (m ∉ ns)) =
      l.filter (fun m => decide (m ∉ n :: ns)) := by
  rw [hnd.erase_eq_filter, List.filter_filter]
  apply List.filter_congr
  intro m _
  by_cases h1 : m = n
  · simp [h1]
  · by_cases h2 : m ∈ ns
    · simp [h1, h2]
    · simp [h1, h2]

/-- Scenes and scene links after `Attach`: unchanged. -/
theorem Attach_scene (w : World) (n p : Node) (i : Int) :
    (Attach w n (some p) i).mScene = w.mScene ∧
    (Attach w n (some p) i).mSceneLinked = w.mSceneLinked := by
  unfold Attach Detach
  cases w.mParent n <;> exact ⟨rfl, rfl⟩

/-- What the second-time loop of `ActionSpawnNodes::Execute` does for recorded parents `g`
that are all non-null and recorded linked scenes `k`, on pairwise different nodes that are in
a duplicate-free exile list: it succeeds; no node object is created; the nodes leave the
exile list; each node gets its recorded parent and the other nodes keep theirs; the root
stays; a parent for which a linked scene was recorded has that scene and is scene-linked;
and a scene link that no recorded scene contradicts stays. -/
theorem spawn_restoreLoop_succeeds (size : Nat) (g : Node → Option Node)
    (k : Node → Option Scene) (ns : List Node) :
    ∀ e : Engine, ns.Nodup → e.mExiledNodes.Nodup → (∀ n ∈ ns, n ∈ e.mExiledNodes) →
      (∀ n ∈ ns, g n ≠ none) →
      (∀ n ∈ ns, ∀ m ∈ ns, g n = g m → ∀ sc sc2, k n = some sc → k m = some sc2 → sc = sc2) →
      ∃ e1, ActionSpawnNodes.restoreLoop size ns (ns.map g) (ns.map k) e = some e1 ∧
        e1.world.nodes = e.world.nodes ∧
        e1.mExiledNodes = e.mExiledNodes.filter (fun m => decide (m ∉ ns)) ∧
        e1.world.mParent = restoreParents e.world.mParent g ns ∧
        e1.world.mRootNode = e.world.mRootNode ∧
        (∀ n ∈ ns, ∀ p sc, g n = some p → k n = some sc →
          e1.world.mScene p = some sc ∧ e1.world.mSceneLinked p = true) ∧
        (∀ p sc, e.world.mScene p = some sc → e.world.mSceneLinked p = true →
          (∀ m ∈ ns, g m = some p → ∀ sc2, k m = some sc2 → sc2 = sc) →
          e1.world.mScene p = some sc ∧ e1.world.mSceneLinked p = true) := by
  induction ns with
  | nil =>
    intro e _ _ _ _ _
    refine ⟨e, rfl, rfl, by simp, by funext m; simp [restoreParents], rfl, ?_, ?_⟩
    · intro n hn; cases hn
    · intro p sc h1 h2 _; exact ⟨h1, h2⟩
  | cons n ns ih =>
    intro e hnd hxnd hx hg hcons
    obtain ⟨hnn, hnd2⟩ := List.nodup_cons.mp hnd
    obtain ⟨p, hp⟩ := Option.ne_none_iff_exists'.mp (hg n (List.mem_cons_self n ns))
    have hre := RestoreExiledNode_ok e n (hx n (List.mem_cons_self n ns))
    -- the world after the pass for `n`
    obtain ⟨q1, q2, q3⟩ := Attach_some e.world n p (-1)
    have hstep : ∀ w2 : World, w2.nodes = e.world.nodes →
        w2.mParent = setField e.world.mParent n (some p) →
        w2.mRootNode = e.world.mRootNode →
        (∀ sc, k n = some sc → w2.mScene p = some sc ∧ w2.mSceneLinked p = true) →
        (∀ p2 sc, e.world.mScene p2 = some sc → e.world.mSceneLinked p2 = true →
          (∀ sc2, p2 = p → k n = some sc2 → sc2 = sc) →
          w2.mScene p2 = some sc ∧ w2.mSceneLinked p2 = true) →
        ActionSpawnNodes.restoreLoop size (n :: ns) ((n :: ns).map g) ((n :: ns).map k) e =
          ActionSpawnNodes.restoreLoop size ns (ns.map g) (ns.map k)
            { e with mExiledNodes := e.mExiledNodes.erase n, world := w2 } →
        ∃ e1, ActionSpawnNodes.restoreLoop size (n :: ns) ((n :: ns).map g)
            ((n :: ns).map k) e = some e1 ∧
          e1.world.nodes = e.world.nodes ∧
          e1.mExiledNodes = e.mExiledNodes.filter (fun m => decide (m ∉ n :: ns)) ∧
          e1.world.mParent = restoreParents e.world.mParent g (n :: ns) ∧
          e1.world.mRootNode = e.world.mRootNode ∧
          (∀ m ∈ n :: ns, ∀ p sc, g m = some p → k m = some sc →
            e1.world.mScene p = some sc ∧ e1.world.mSceneLinked p = true) ∧
          (∀ p sc, e.world.mScene p = some sc → e.world.mSceneLinked p = true →
            (∀ m ∈ n :: ns, g m = some p → ∀ sc2, k m = some sc2 → sc2 = sc) →
            e1.world.mScene p = some sc ∧ e1.world.mSceneLinked p = true) := by
      intro w2 hn2 hp2 hr2 hset hframe heq
      obtain ⟨e1, i1, i2, i3, i4, i5, i6, i7⟩ :=
        ih { e with mExiledNodes := e.mExiledNodes.erase n, world := w2 } hnd2
          (hxnd.erase n)
          (fun m hm => (List.mem_erase_of_ne
            (fun hc : m = n => hnn (by rw [← hc]; exact hm))).mpr
            (hx m (List.mem_cons_of_mem n hm)))
          (fun m hm => hg m (List.mem_cons_of_mem n hm))
          (fun a ha b hb => hcons a (List.mem_cons_of_mem n ha) b (List.mem_cons_of_mem n hb))
      refine ⟨e1, by rw [heq]; exact i1, by rw [i2]; exact hn2, ?_, ?_, by rw [i5]; exact hr2,
        ?_, ?_⟩
      · rw [i3]
        exact erase_filter_not_mem e.mExiledNodes n ns hxnd
      · rw [i4]
        show restoreParents w2.mParent g ns = _
        rw [hp2, ← hp, restoreParents_cons]
      · intro m hm p2 sc hgm hkm
        rcases List.mem_cons.mp hm with h | h
        · subst h
          have hpp : p2 = p := by
            rw [hp] at hgm; exact (Option.some.inj hgm).symm
          subst hpp
          obtain ⟨s1, s2⟩ := hset sc hkm
          refine i7 p2 sc s1 s2 ?_
          intro m2 hm2 hgm2 sc2 hkm2
          exact (hcons m (List.mem_cons_self m ns) m2 (List.mem_cons_of_mem m hm2)
            (by rw [hgm, hgm2]) sc sc2 hkm hkm2).symm
        · exact i6 m h p2 sc hgm hkm
      · intro p2 sc h1 h2 hall
        obtain ⟨s1, s2⟩ := hframe p2 sc h1 h2
          (fun sc2 hpp hk => hall n (List.mem_cons_self n ns) (by rw [hp, hpp]) sc2 hk)
        exact i7 p2 sc s1 s2
          (fun m hm hgm sc2 hk => hall m (List.mem_cons_of_mem n hm) hgm sc2 hk)
    cases hk : k n with
    | none =>
      refine hstep (Attach e.world n (some p) (-1)) q3 q1 q2 ?_ ?_ ?_
      · intro sc hc; rw [hk] at hc; cases hc
      · intro p2 sc h1 h2 _
        rw [(Attach_scene e.world n p (-1)).1, (Attach_scene e.world n p (-1)).2]
        exact ⟨h1, h2⟩
      · simp only [List.map_cons, hp, hk, ActionSpawnNodes.restoreLoop, hre, Option.some_bind,
          List.head?_cons, List.tail_cons]
    | some scene =>
      refine hstep (SetScene (Attach e.world n (some p) (-1)) p scene) q3 q1 q2 ?_ ?_ ?_
      · intro sc hc
        rw [hk] at hc
        cases hc
        simp [SetScene, setField]
      · intro p2 sc h1 h2 hsame
        by_cases hpp : p2 = p
        · have := hsame scene hpp hk
          subst this
          subst hpp
          simp [SetScene, setField]
        · have a1 : (SetScene (Attach e.world n (some p) (-1)) p scene).mScene p2 =
              e.world.mScene p2 := by
            show setField (Attach e.world n (some p) (-1)).mScene p (some scene) p2 = _
            rw [(Attach_scene e.world n p (-1)).1]
            simp [setField, hpp]
          have a2 : (SetScene (Attach e.world n (some p) (-1)) p scene).mSceneLinked p2 =
              e.world.mSceneLinked p2 := by
            show setField (Attach e.world n (some p) (-1)).mSceneLinked p true p2 = _
            rw [(Attach_scene e.world n p (-1)).2]
            simp [setField, hpp]
          rw [a1, a2]
          exact ⟨h1, h2⟩
      · simp only [List.map_cons, hp, hk, ActionSpawnNodes.restoreLoop, hre, Option.some_bind,
          List.head?_cons, List.tail_cons]

/-- What the second-time loop of `ActionSpawnNodes::Execute` does for the single node of an
action whose recorded parent is null, when the node is exiled and the world has no root: the
node leaves the exile list and becomes the world root. -/
theorem spawn_restoreLoop_root_succeeds (n : Node) (ls : List (Option Scene)) (e : Engine)
    (hx : n ∈ e.mExiledNodes) (hroot : e.world.mRootNode = none) :
    ActionSpawnNodes.restoreLoop 1 [n] [none] ls e =
      some { e with mExiledNodes := e.mExiledNodes.erase n,
                    world := SetRootNode e.world (some n) } := by
  simp [ActionSpawnNodes.restoreLoop, RestoreExiledNode_ok e n hx, hroot]

/-- The linked scene recorded for a node only depends on the node's parent. -/
theorem parentLinkedScene_congr (w : World) (n m : Node) (h : GetParent w n = GetParent w m) :
    parentLinkedScene w n = parentLinkedScene w m := by
  unfold parentLinkedScene
  rw [h]

/-- C26: take an `ActionSpawnNodes` that holds at least one node and has been reversed: its
nodes are pairwise different and in the (duplicate-free) exile list, and it has recorded, at
its first `Reverse` in the world `w0`, the parent of every node and the scene of every
scene-linked parent; a null parent is recorded only for a single node, and the world has no
root then. The next `Execute` succeeds, constructs no node object and leaves the action as it
is (the same node list); each of its nodes leaves the exile list; each node gets the
recorded parent, and the parent gets the recorded scene and is scene-linked when a scene was
recorded; a node recorded without parent becomes the world root; the parents of all other
nodes stay. -/
theorem C26_spawn_execute_again (a : ActionSpawnNodes) (w0 : World) (e : Engine)
    (hne : a.mNodes ≠ [])
    (hP : a.mParents = a.mNodes.map (GetParent w0))
    (hS : a.mParentLinkedScenes = a.mNodes.map (parentLinkedScene w0))
    (hnd : a.mNodes.Nodup) (hxnd : e.mExiledNodes.Nodup)
    (hx : ∀ n ∈ a.mNodes, n ∈ e.mExiledNodes)
    (hroot : ∀ n ∈ a.mNodes, GetParent w0 n = none →
      a.mNodes.length = 1 ∧ e.world.mRootNode = none) :
    ∃ e1, a.Execute e = some (a, e1) ∧
      e1.world.nodes = e.world.nodes ∧
      e1.mExiledNodes = e.mExiledNodes.filter (fun m => decide (m ∉ a.mNodes)) ∧
      (∀ n ∈ a.mNodes, n ∉ e1.mExiledNodes) ∧
      (∀ n ∈ a.mNodes, ∀ p, GetParent w0 n = some p →
        e1.world.mParent n = some p ∧
        ∀ sc, parentLinkedScene w0 n = some sc →
          e1.world.mScene p = some sc ∧ e1.world.mSceneLinked p = true) ∧
      (∀ n ∈ a.mNodes, GetParent w0 n = none → e1.world.mRootNode = some n) ∧
      (∀ m, m ∉ a.mNodes → e1.world.mParent m = e.world.mParent m) := by
  have hlen : ¬ a.mNodes.length = 0 := by
    intro hc; exact hne (List.length_eq_zero.mp hc)
  have hex : a.Execute e =
      (ActionSpawnNodes.restoreLoop a.mNodes.length a.mNodes a.mParents a.mParentLinkedScenes
        e).map (fun e1 => (a, e1)) := by
    unfold ActionSpawnNodes.Execute
    rw [if_neg hlen]
  rw [hex, hP, hS]
  by_cases hall : ∀ n ∈ a.mNodes, GetParent w0 n ≠ none
  · obtain ⟨e1, h1, h2, h3, h4, h5, h6, _⟩ :=
      spawn_restoreLoop_succeeds a.mNodes.length (GetParent w0) (parentLinkedScene w0)
        a.mNodes e hnd hxnd hx hall
        (fun n _ m _ hg sc sc2 hk1 hk2 => by
          rw [parentLinkedScene_congr w0 n m hg, hk2] at hk1
          exact (Option.some.inj hk1).symm)
    refine ⟨e1, by rw [h1]; rfl, h2, h3, ?_, ?_, ?_, ?_⟩
    · intro n hn hc
      rw [h3] at hc
      have := (List.mem_filter.mp hc).2
      simp [hn] at this
    · intro n hn p hp
      refine ⟨?_, fun sc hsc => h6 n hn p sc hp hsc⟩
      rw [h4]
      simp [restoreParents, hn, hp]
    · intro n hn hc
      exact absurd hc (hall n hn)
    · intro m hm
      rw [h4]
      simp [restoreParents, hm]
  · simp only [not_forall, ne_eq, not_not] at hall
    obtain ⟨n, hn, hpn⟩ := hall
    obtain ⟨hl1, hr⟩ := hroot n hn hpn
    have hnodes : a.mNodes = [n] := by
      cases hm : a.mNodes with
      | nil => rw [hm] at hl1; simp at hl1
      | cons y ys =>
        rw [hm] at hl1 hn
        cases ys with
        | nil =>
          simp only [List.mem_singleton] at hn
          rw [hn]
        | cons z zs => simp at hl1
    rw [hnodes]
    simp only [List.length_singleton, List.map_cons, List.map_nil, hpn]
    rw [spawn_restoreLoop_root_succeeds n _ e (hx n hn) hr]
    refine ⟨_, rfl, rfl, ?_, ?_, ?_, ?_, ?_⟩
    · show e.mExiledNodes.erase n = _
      rw [hxnd.erase_eq_filter]
      apply List.filter_congr
      intro m _
      by_cases hmn : m = n <;> simp [hmn]
    · intro m hm
      simp only [List.mem_singleton] at hm
      subst hm
      show m ∉ e.mExiledNodes.erase m
      exact hxnd.not_mem_erase
    · intro m hm p hp
      simp only [List.mem_singleton] at hm
      subst hm
      rw [hpn] at hp
      cases hp
    · intro m hm _
      simp only [List.mem_singleton] at hm
      subst hm
      rfl
    · intro m _
      rfl

/-- The first `Reverse` of the example spawn action in the scene-linked example state
succeeds. -/
theorem exampleAfterReverse_isSome : exampleAfterReverse.isSome = true := by decide

/-- Witness of C26: the example spawn action of the nodes `3` and `4` is reversed in the
scene-linked example state, which records the parent `1` and its scene `9` for both nodes and
exiles them; the scene link of node `1` is then broken. The next `Execute` succeeds, empties
the exile list, gives both nodes the parent `1` again and restores the scene link of node `1`
to scene `9`. -/
theorem C26_spawn_execute_again_witness :
    (exampleSpawn.Reverse exampleLinkedEngine).map Prod.fst = some exampleSpawnReversed ∧
    ∃ e, exampleAfterReverse = some e ∧ e.mExiledNodes = [3, 4] ∧
      e.world.mSceneLinked 1 = false ∧
      ∃ e1, exampleSpawnReversed.Execute e = some (exampleSpawnReversed, e1) ∧
        e1.world.nodes = e.world.nodes ∧ e1.mExiledNodes = [] ∧
        e1.world.mParent 3 = some 1 ∧ e1.world.mParent 4 = some 1 ∧
        e1.world.mScene 1 = some 9 ∧ e1.world.mSceneLinked 1 = true := by
  refine ⟨by decide, exampleAfterReverse.get exampleAfterReverse_isSome,
    (Option.some_get exampleAfterReverse_isSome).symm, by decide, by decide, ?_⟩
  obtain ⟨e1, h1, h2, h3, _, h5, _, _⟩ :=
    C26_spawn_execute_again exampleSpawnReversed exampleLinkedEngine.world
      (exampleAfterReverse.get exampleAfterReverse_isSome)
      (by decide) (by decide) (by decide) (by decide) (by decide) (by decide) (by decide)
  refine ⟨e1, h1, h2, ?_, (h5 3 (by decide) 1 rfl).1, (h5 4 (by decide) 1 rfl).1,
    ((h5 3 (by decide) 1 rfl).2 9 (by decide)).1, ((h5 3 (by decide) 1 rfl).2 9 (by decide)).2⟩
  rw [h3]
  decide

/-! ## Theorems, part 17: child lists, and the exiled nodes again -/

end Octave
